import Mathlib

/-! # A chained hash table (`ac::HashTbl`)

Shallow embedding of `source/include/hashtbl.h` and `source/include/hashtbl.inl`.

* `size_type` (`std::size_t`) is modelled by `Nat`; no operation of the table is
  studied at values where the machine word would wrap.
* `KeyHash` and `KeyEqual` are the two functors of the class template; they are the
  parameters `hashFunc : K → Nat` and `equalFunc : K → K → Bool` of every operation.
* `m_table`, a heap array of `m_size` lists, is a `List` of chains; a chain
  (`std::list<entry_type>`) is a `List` of entries.
* A member function that mutates `*this` returns the new table next to its result.
-/

set_option autoImplicit false

namespace ac

/-! ## Data model -/

/-- Entry of the table, `struct HashEntry`: a key and the data stored under it. -/
structure HashEntry (K V : Type) where
  m_key : K
  m_data : V
deriving DecidableEq, Repr

/-- Values of the C++ `float` member `m_max_load_factor`: a finite value (a rational
number), the two infinities, or a NaN. -/
inductive FloatVal where
  | finite (q : ℚ)
  | pos_inf
  | neg_inf
  | nan
deriving DecidableEq

/-- The comparison `n > f` of the growth test, where `n` is an unsigned integer
converted to `float` and `f` is a `float`. Every comparison with a NaN is false.
The conversion of `n` is taken as exact, which it is for every `n < 2 ^ 24`. -/
def FloatVal.lt_nat : FloatVal → Nat → Bool
  | .finite q, n => decide (q < (n : ℚ))
  | .pos_inf, _ => false
  | .neg_inf, _ => true
  | .nan, _ => false

/-- The in-class initialiser `float m_max_load_factor = 1.0`. -/
def DEFAULT_MAX_LOAD_FACTOR : FloatVal := .finite 1

/-- The constant `static const short DEFAULT_SIZE = 10`. -/
def DEFAULT_SIZE : Nat := 10

/-- The class `HashTbl`: its four data members. -/
structure HashTbl (K V : Type) where
  m_size : Nat
  m_count : Nat
  m_max_load_factor : FloatVal
  m_table : List (List (HashEntry K V))
deriving DecidableEq

/-- The only exception the class throws, `std::out_of_range`. -/
inductive Exception where
  | out_of_range
deriving DecidableEq, Repr

/-! ## Prime sizer -/

/-- The `for` loop of `is_prime`: `for (i = 5; i*i <= n; i = i+6)`, returning `false`
at the first `i` with `n % i == 0 || n % (i+2) == 0` and `true` when the loop ends.
The first argument bounds the number of iterations. -/
def is_prime_loop : Nat → Nat → Nat → Bool
  | 0, _, _ => true
  | fuel + 1, n, i =>
    if i * i ≤ n then
      if n % i = 0 ∨ n % (i + 2) = 0 then false
      else is_prime_loop fuel n (i + 6)
    else true

/-- Member `HashTbl::is_prime`. The loop is run with `n` iterations available, more
than the at most `sqrt n / 6 + 1` it makes. -/
def is_prime (n : Nat) : Bool :=
  if n ≤ 1 then false
  else if n ≤ 3 then true
  else if n % 2 = 0 ∨ n % 3 = 0 then false
  else is_prime_loop n n 5

/-- The `while (!found)` loop of `find_next_prime`: increment `prime`, stop when it is
prime. The result is `none` when the iterations available (first argument) are used
up before the loop leaves. -/
def find_next_prime_loop : Nat → Nat → Option Nat
  | 0, _ => none
  | fuel + 1, prime =>
    if is_prime (prime + 1) then some (prime + 1)
    else find_next_prime_loop fuel (prime + 1)

/-- Member `HashTbl::find_next_prime`. The loop is run with `N` iterations available;
`find_next_prime_loop_complete` shows that it always leaves within them, so the
fallback `0` is never taken. -/
def find_next_prime (N : Nat) : Nat :=
  if N ≤ 1 then 2
  else (find_next_prime_loop N N).getD 0

/-! ## Chains -/

section Chains

variable {K V : Type}

/-- The scan shared by `retrieve` and `at`: walk the chain from its head and yield the
data of the first entry with `equalFunc(it->m_key, key_)`. -/
def chain_find (equalFunc : K → K → Bool) (key : K) : List (HashEntry K V) → Option V
  | [] => none
  | e :: rest =>
    if equalFunc e.m_key key = true then some e.m_data
    else chain_find equalFunc key rest

/-- The scan of `insert` (and a write through the reference `at` returns): overwrite
the data of the first entry with `equalFunc(it->m_key, key_)`; `none` when the scan
reaches the end of the chain. -/
def chain_assign (equalFunc : K → K → Bool) (key : K) (data : V) :
    List (HashEntry K V) → Option (List (HashEntry K V))
  | [] => none
  | e :: rest =>
    if equalFunc e.m_key key = true then some ({ e with m_data := data } :: rest)
    else (chain_assign equalFunc key data rest).map (fun r => e :: r)

/-- The scan of `erase`: remove the first entry with `equalFunc(it->m_key, key_)`;
`none` when the scan reaches the end of the chain. -/
def chain_erase (equalFunc : K → K → Bool) (key : K) :
    List (HashEntry K V) → Option (List (HashEntry K V))
  | [] => none
  | e :: rest =>
    if equalFunc e.m_key key = true then some rest
    else (chain_erase equalFunc key rest).map (fun r => e :: r)

/-- The statement `table[end].push_back(entry)` on an array of chains. -/
def push_back_at (table : List (List (HashEntry K V))) (end_ : Nat) (entry : HashEntry K V) :
    List (List (HashEntry K V)) :=
  table.set end_ (table.getD end_ [] ++ [entry])

end Chains

/-! ## The table -/

namespace HashTbl

variable {K V : Type}

/-- Constructor `HashTbl(size_type sz)`. -/
def construct (sz : Nat) : HashTbl K V :=
  { m_size := find_next_prime sz
    m_count := 0
    m_max_load_factor := DEFAULT_MAX_LOAD_FACTOR
    m_table := List.replicate (find_next_prime sz) [] }

/-- One of the two loops of `rehash`: for `i` from `0` to `n - 1`, for each entry of
`src[i]` from its head, push a copy at the back of `dst[hashFunc(key) % size_aux]`. -/
def redistribute (hashFunc : K → Nat) (size_aux : Nat) (src : List (List (HashEntry K V)))
    (n : Nat) (dst : List (List (HashEntry K V))) : List (List (HashEntry K V)) :=
  (List.range n).foldl
    (fun dst i => (src.getD i []).foldl
      (fun dst element => push_back_at dst (hashFunc element.m_key % size_aux) element) dst)
    dst

/-- Member `rehash`: the entries go to an auxiliary array of `find_next_prime(2 * m_size)`
chains, which is then copied, by the same loop, into the new `m_table`. -/
def rehash (hashFunc : K → Nat) (t : HashTbl K V) : HashTbl K V :=
  let size_aux := find_next_prime (t.m_size * 2)
  let table_aux := redistribute hashFunc size_aux t.m_table t.m_size (List.replicate size_aux [])
  { t with
    m_size := size_aux
    m_table := redistribute hashFunc size_aux table_aux size_aux (List.replicate size_aux []) }

/-- Member `insert`: the result and the table afterwards. The growth test is
`m_count / m_size > m_max_load_factor`, with the quotient of two `size_type` values
on the left. For `m_size = 0`, which no table built by `HashTbl(sz)` has, the source
divides by zero here and in every other member that computes a bucket index; the
value of the model there has no meaning. -/
def insert (hashFunc : K → Nat) (equalFunc : K → K → Bool) (t : HashTbl K V)
    (key : K) (new_data : V) : Bool × HashTbl K V :=
  let end_ := hashFunc key % t.m_size
  match chain_assign equalFunc key new_data (t.m_table.getD end_ []) with
  | some chain => (false, { t with m_table := t.m_table.set end_ chain })
  | none =>
    let t1 : HashTbl K V :=
      { t with
        m_table := push_back_at t.m_table end_ { m_key := key, m_data := new_data }
        m_count := t.m_count + 1 }
    if t1.m_max_load_factor.lt_nat (t1.m_count / t1.m_size) then (true, rehash hashFunc t1)
    else (true, t1)

/-- Member `clear`. -/
def clear (t : HashTbl K V) : HashTbl K V :=
  { t with
    m_table := (List.range t.m_size).foldl (fun table i => table.set i []) t.m_table
    m_count := 0 }

/-- Member `empty`. -/
def empty (t : HashTbl K V) : Bool :=
  if t.m_count = 0 then true else false

/-- Member `size`. -/
def size (t : HashTbl K V) : Nat := t.m_count

/-- Member `retrieve`: the result and the content of `data_item_` afterwards, given its
content `data_item` before the call. -/
def retrieve (hashFunc : K → Nat) (equalFunc : K → K → Bool) (t : HashTbl K V)
    (key : K) (data_item : V) : Bool × V :=
  let end_ := hashFunc key % t.m_size
  match chain_find equalFunc key (t.m_table.getD end_ []) with
  | some data => (true, data)
  | none => (false, data_item)

/-- Member `erase`: the result and the table afterwards. The statement `m_count--` is
the subtraction of `Nat`; in a table whose `m_count` is the number of its entries the
count is positive whenever the scan finds an entry. -/
def erase (hashFunc : K → Nat) (equalFunc : K → K → Bool) (t : HashTbl K V)
    (key : K) : Bool × HashTbl K V :=
  let end_ := hashFunc key % t.m_size
  match chain_erase equalFunc key (t.m_table.getD end_ []) with
  | some chain => (true, { t with m_table := t.m_table.set end_ chain, m_count := t.m_count - 1 })
  | none => (false, t)

/-- Member `count`. -/
def count (hashFunc : K → Nat) (t : HashTbl K V) (key : K) : Nat :=
  let end_ := hashFunc key % t.m_size
  (t.m_table.getD end_ []).length

/-- Member `at`, read through the reference it returns: the data referred to, or the
exception thrown, together with the table afterwards. -/
def at_ (hashFunc : K → Nat) (equalFunc : K → K → Bool) (t : HashTbl K V)
    (key : K) : Except Exception V × HashTbl K V :=
  let end_ := hashFunc key % t.m_size
  match chain_find equalFunc key (t.m_table.getD end_ []) with
  | some data => (.ok data, t)
  | none => (.error .out_of_range, t)

/-- The statement `t.at(key) = data`: the table after the assignment through the
reference `at` returns, or the exception `at` throws. -/
def at_assign (hashFunc : K → Nat) (equalFunc : K → K → Bool) (t : HashTbl K V)
    (key : K) (data : V) : Except Exception (HashTbl K V) :=
  let end_ := hashFunc key % t.m_size
  match chain_assign equalFunc key data (t.m_table.getD end_ []) with
  | some chain => .ok { t with m_table := t.m_table.set end_ chain }
  | none => .error .out_of_range

/-- Member `operator[]`, read through the reference it returns: `at` in a `try` block,
and in the handler `insert(key_, DataType{})` followed by `at`, whose exception, if
any, leaves the function. -/
def subscript [Inhabited V] (hashFunc : K → Nat) (equalFunc : K → K → Bool) (t : HashTbl K V)
    (key : K) : Except Exception V × HashTbl K V :=
  match (at_ hashFunc equalFunc t key).1 with
  | .ok data => (.ok data, t)
  | .error _ =>
    let t1 := (insert hashFunc equalFunc t key default).2
    ((at_ hashFunc equalFunc t1 key).1, t1)

/-- Member `max_load_factor()`. -/
def max_load_factor (t : HashTbl K V) : FloatVal := t.m_max_load_factor

/-- Member `max_load_factor(float)`. -/
def set_max_load_factor (t : HashTbl K V) (mlf : FloatVal) : HashTbl K V :=
  { t with m_max_load_factor := mlf }

/-- The loop shared by `HashTbl(initializer_list)` and `operator=(initializer_list)`:
`for (i = 0; i < m_size; i++) { insert(element->m_key, element->m_data); element++; }`.
The first argument is what is left of the list from `element` on; the bound `m_size`
is the member, read anew at every turn. The result is `none` when the loop reads past
the end of the list, which the source does once `m_size` exceeds the length of the
list. -/
def ilist_loop (hashFunc : K → Nat) (equalFunc : K → K → Bool) :
    List (HashEntry K V) → Nat → HashTbl K V → Option (HashTbl K V)
  | [], i, t => if i < t.m_size then none else some t
  | element :: rest, i, t =>
    if i < t.m_size then
      ilist_loop hashFunc equalFunc rest (i + 1)
        (insert hashFunc equalFunc t element.m_key element.m_data).2
    else some t

/-- Constructor `HashTbl(const std::initializer_list<entry_type>&)`. -/
def construct_list (hashFunc : K → Nat) (equalFunc : K → K → Bool)
    (ilist : List (HashEntry K V)) : Option (HashTbl K V) :=
  ilist_loop hashFunc equalFunc ilist 0
    { m_size := ilist.length
      m_count := 0
      m_max_load_factor := DEFAULT_MAX_LOAD_FACTOR
      m_table := List.replicate ilist.length [] }

/-- Member `operator=(const std::initializer_list<entry_type>&)`: as the constructor
from a list, but `m_max_load_factor` keeps the value it has in `*this`. -/
def assign_list (hashFunc : K → Nat) (equalFunc : K → K → Bool) (t : HashTbl K V)
    (ilist : List (HashEntry K V)) : Option (HashTbl K V) :=
  ilist_loop hashFunc equalFunc ilist 0
    { m_size := ilist.length
      m_count := 0
      m_max_load_factor := t.m_max_load_factor
      m_table := List.replicate ilist.length [] }

/-- Copy constructor `HashTbl(const HashTbl&)`, and `operator=(const HashTbl&)`, which
has the same body: every entry of chain `i` of `source` is pushed at the back of the
new chain `i`. -/
def copy (source : HashTbl K V) : HashTbl K V :=
  { m_size := source.m_size
    m_count := source.m_count
    m_max_load_factor := source.m_max_load_factor
    m_table := (List.range source.m_size).foldl
      (fun table i => (source.m_table.getD i []).foldl
        (fun table element => push_back_at table i element) table)
      (List.replicate source.m_size []) }

/-- The single pass that the specification puts in the place of `rehash`: a new array
of `find_next_prime(2 * m_size)` empty chains, into which the chains of the old array
are visited in index order, each from its head, every entry being appended to the
chain `hash(key) mod new_capacity`. Compared with `rehash` in
`rehash_is_single_pass`. -/
def rehash_single_pass (hashFunc : K → Nat) (t : HashTbl K V) : HashTbl K V :=
  let new_capacity := find_next_prime (t.m_size * 2)
  { t with
    m_size := new_capacity
    m_table := (List.range t.m_size).foldl
      (fun table i => (t.m_table.getD i []).foldl
        (fun table entry => push_back_at table (hashFunc entry.m_key % new_capacity) entry)
        table)
      (List.replicate new_capacity []) }

end HashTbl

/-! ## Specification vocabulary -/

section Vocabulary

variable {K V : Type}

/-- The contract a client's functors meet: `equalFunc` is an equivalence relation and
keys that compare equal have the same hash. -/
structure LawfulFunctors (hashFunc : K → Nat) (equalFunc : K → K → Bool) : Prop where
  refl : ∀ a, equalFunc a a = true
  symm : ∀ a b, equalFunc a b = true → equalFunc b a = true
  trans : ∀ a b c, equalFunc a b = true → equalFunc b c = true → equalFunc a c = true
  hash_eq : ∀ a b, equalFunc a b = true → hashFunc a = hashFunc b

/-- All entries of the table, chain after chain. -/
def HashTbl.entries (t : HashTbl K V) : List (HashEntry K V) := t.m_table.flatten

/-- Some entry, in whatever chain, has a key that compares equal to `key`. -/
def HashTbl.present (equalFunc : K → K → Bool) (t : HashTbl K V) (key : K) : Prop :=
  ∃ e ∈ t.entries, equalFunc e.m_key key = true

/-- Tables obtained from `HashTbl(sz)` by the public member functions that change a
table: `insert`, `erase`, `clear`, `operator[]`, an assignment through the reference
returned by `at` or `operator[]`, and `max_load_factor(float)`. -/
inductive Reachable [Inhabited V] (hashFunc : K → Nat) (equalFunc : K → K → Bool) :
    HashTbl K V → Prop where
  | construct (sz : Nat) : Reachable hashFunc equalFunc (HashTbl.construct sz)
  | insert (t : HashTbl K V) (key : K) (data : V) :
      Reachable hashFunc equalFunc t →
      Reachable hashFunc equalFunc (HashTbl.insert hashFunc equalFunc t key data).2
  | erase (t : HashTbl K V) (key : K) :
      Reachable hashFunc equalFunc t →
      Reachable hashFunc equalFunc (HashTbl.erase hashFunc equalFunc t key).2
  | clear (t : HashTbl K V) :
      Reachable hashFunc equalFunc t → Reachable hashFunc equalFunc t.clear
  | subscript (t : HashTbl K V) (key : K) :
      Reachable hashFunc equalFunc t →
      Reachable hashFunc equalFunc (HashTbl.subscript hashFunc equalFunc t key).2
  | at_assign (t t1 : HashTbl K V) (key : K) (data : V) :
      Reachable hashFunc equalFunc t →
      HashTbl.at_assign hashFunc equalFunc t key data = .ok t1 →
      Reachable hashFunc equalFunc t1
  | set_max_load_factor (t : HashTbl K V) (mlf : FloatVal) :
      Reachable hashFunc equalFunc t →
      Reachable hashFunc equalFunc (t.set_max_load_factor mlf)

/-- The representation invariant of a table. -/
structure Inv (hashFunc : K → Nat) (equalFunc : K → K → Bool) (t : HashTbl K V) : Prop where
  size_pos : 0 < t.m_size
  length_eq : t.m_table.length = t.m_size
  placed : ∀ i, ∀ e ∈ t.m_table.getD i [], hashFunc e.m_key % t.m_size = i
  distinct : ∀ i, (t.m_table.getD i []).Pairwise (fun a b => equalFunc a.m_key b.m_key = false)
  count_eq : t.m_count = t.entries.length

/-- A table without any chain, as the constructor from a list builds from the empty
list. Every member that computes a bucket index divides by zero on it. -/
def HashTbl.is_void (t : HashTbl K V) : Prop :=
  t.m_size = 0 ∧ t.m_table = [] ∧ t.m_count = 0

/-- Tables obtained from any constructor or assignment by `insert`, `erase`, `clear`,
`operator[]`, an assignment through the reference returned by `at` or `operator[]`,
`max_load_factor(float)` and `rehash`. The members that compute a bucket index are
steps only on a table with at least one chain. -/
inductive ReachableAny [Inhabited V] (hashFunc : K → Nat) (equalFunc : K → K → Bool) :
    HashTbl K V → Prop where
  | construct (sz : Nat) : ReachableAny hashFunc equalFunc (HashTbl.construct sz)
  | construct_list (ilist : List (HashEntry K V)) (t : HashTbl K V) :
      HashTbl.construct_list hashFunc equalFunc ilist = some t →
      ReachableAny hashFunc equalFunc t
  | copy (t : HashTbl K V) :
      ReachableAny hashFunc equalFunc t → ReachableAny hashFunc equalFunc t.copy
  | assign_list (t0 t : HashTbl K V) (ilist : List (HashEntry K V)) :
      HashTbl.assign_list hashFunc equalFunc t0 ilist = some t →
      ReachableAny hashFunc equalFunc t
  | insert (t : HashTbl K V) (key : K) (data : V) :
      ReachableAny hashFunc equalFunc t → 0 < t.m_size →
      ReachableAny hashFunc equalFunc (HashTbl.insert hashFunc equalFunc t key data).2
  | erase (t : HashTbl K V) (key : K) :
      ReachableAny hashFunc equalFunc t → 0 < t.m_size →
      ReachableAny hashFunc equalFunc (HashTbl.erase hashFunc equalFunc t key).2
  | clear (t : HashTbl K V) :
      ReachableAny hashFunc equalFunc t → ReachableAny hashFunc equalFunc t.clear
  | subscript (t : HashTbl K V) (key : K) :
      ReachableAny hashFunc equalFunc t → 0 < t.m_size →
      ReachableAny hashFunc equalFunc (HashTbl.subscript hashFunc equalFunc t key).2
  | at_assign (t t1 : HashTbl K V) (key : K) (data : V) :
      ReachableAny hashFunc equalFunc t → 0 < t.m_size →
      HashTbl.at_assign hashFunc equalFunc t key data = .ok t1 →
      ReachableAny hashFunc equalFunc t1
  | set_max_load_factor (t : HashTbl K V) (mlf : FloatVal) :
      ReachableAny hashFunc equalFunc t →
      ReachableAny hashFunc equalFunc (t.set_max_load_factor mlf)
  | rehash (t : HashTbl K V) :
      ReachableAny hashFunc equalFunc t →
      ReachableAny hashFunc equalFunc (HashTbl.rehash hashFunc t)

/-- The keys of a list, each kept where it first occurs: a key is dropped when it
compares equal to a key kept before it. -/
def first_keys (equalFunc : K → K → Bool) (keys : List K) : List K :=
  keys.foldl (fun seen k => if seen.any (fun s => equalFunc s k) then seen else seen ++ [k]) []

/-- The number of distinct keys of a list of keys. -/
def distinct_keys (equalFunc : K → K → Bool) (keys : List K) : Nat :=
  (first_keys equalFunc keys).length

/-- The data of the last pair of a list whose key compares equal to `key`. -/
def last_value (equalFunc : K → K → Bool) (ilist : List (HashEntry K V)) (key : K) :
    Option V :=
  ilist.foldl (fun found e => if equalFunc e.m_key key then some e.m_data else found) none

/-- No two entries of the table, in whatever chains, have keys that compare equal,
in either order. -/
def HashTbl.keys_unique (equalFunc : K → K → Bool) (t : HashTbl K V) : Prop :=
  t.entries.Pairwise
    (fun a b => equalFunc a.m_key b.m_key = false ∧ equalFunc b.m_key a.m_key = false)

/-- Tables obtained from `HashTbl(sz)` by `insert`, `erase`, `operator[]`, `clear` and
an assignment through the reference returned by `at` or `operator[]`, the maximum load
factor being left at its default `1.0`. -/
inductive ReachableDefault [Inhabited V] (hashFunc : K → Nat) (equalFunc : K → K → Bool) :
    HashTbl K V → Prop where
  | construct (sz : Nat) : ReachableDefault hashFunc equalFunc (HashTbl.construct sz)
  | insert (t : HashTbl K V) (key : K) (data : V) :
      ReachableDefault hashFunc equalFunc t →
      ReachableDefault hashFunc equalFunc (HashTbl.insert hashFunc equalFunc t key data).2
  | erase (t : HashTbl K V) (key : K) :
      ReachableDefault hashFunc equalFunc t →
      ReachableDefault hashFunc equalFunc (HashTbl.erase hashFunc equalFunc t key).2
  | clear (t : HashTbl K V) :
      ReachableDefault hashFunc equalFunc t → ReachableDefault hashFunc equalFunc t.clear
  | subscript (t : HashTbl K V) (key : K) :
      ReachableDefault hashFunc equalFunc t →
      ReachableDefault hashFunc equalFunc (HashTbl.subscript hashFunc equalFunc t key).2
  | at_assign (t t1 : HashTbl K V) (key : K) (data : V) :
      ReachableDefault hashFunc equalFunc t →
      HashTbl.at_assign hashFunc equalFunc t key data = .ok t1 →
      ReachableDefault hashFunc equalFunc t1

end Vocabulary

/-! ## Functors and tables used in examples -/

section Examples

/-- A hash on `Nat` keys: the key itself. -/
def ex_hash_nat : Nat → Nat := fun k => k

/-- Equality of `Nat` keys. -/
def ex_equal_nat : Nat → Nat → Bool := fun a b => decide (a = b)

/-- A hash on `String` keys: the length of the key. -/
def ex_hash_string : String → Nat := fun s => s.length

/-- Equality of `String` keys. -/
def ex_equal_string : String → String → Bool := fun a b => decide (a = b)

/-- The table `HashTbl(1)` after `insert(0, 10)`, `insert(2, 20)`, `insert(4, 30)`:
two chains, the three entries in chain `0`. -/
def ex_table_three : HashTbl Nat Nat :=
  (HashTbl.insert ex_hash_nat ex_equal_nat
    (HashTbl.insert ex_hash_nat ex_equal_nat
      (HashTbl.insert ex_hash_nat ex_equal_nat (HashTbl.construct 1) 0 10).2 2 20).2 4 30).2

/-- The table `HashTbl(10)` after `insert("a", 1)`. -/
def ex_table_a : HashTbl String Nat :=
  (HashTbl.insert ex_hash_string ex_equal_string (HashTbl.construct 10) "a" 1).2

/-- A list of four pairs with three distinct keys, all in chain `1` of four. -/
def ex_ilist : List (HashEntry Nat Nat) :=
  [⟨1, 10⟩, ⟨5, 50⟩, ⟨1, 11⟩, ⟨9, 90⟩]

/-- The table `HashTbl(1)` after `insert(0, 10)`, `insert(2, 20)`, `insert(4, 30)` and
`insert(6, 60)`: the fourth insert made it grow from two chains to five. -/
def ex_table_four : HashTbl Nat Nat :=
  (HashTbl.insert ex_hash_nat ex_equal_nat ex_table_three 6 60).2

/-- The table the constructor from a list builds from `ex_ilist`. -/
def ex_table_list : HashTbl Nat Nat :=
  { m_size := 4
    m_count := 3
    m_max_load_factor := DEFAULT_MAX_LOAD_FACTOR
    m_table := [[], [⟨1, 11⟩, ⟨5, 50⟩, ⟨9, 90⟩], [], []] }

end Examples

/-! ## Prime sizer: correctness -/

/-- With enough iterations available, the loop of `is_prime` started at `6 * k + 5`
answers `true` exactly when no `6 * m + 5` or `6 * m + 7` with `m ≥ k` and
`(6 * m + 5)² ≤ n` divides `n`. -/
theorem is_prime_loop_spec (n : Nat) :
    ∀ (fuel k : Nat), n < 6 * k + 5 + 6 * fuel →
      (is_prime_loop fuel n (6 * k + 5) = true ↔
        ∀ m, k ≤ m → (6 * m + 5) * (6 * m + 5) ≤ n →
          n % (6 * m + 5) ≠ 0 ∧ n % (6 * m + 7) ≠ 0) := by
  intro fuel
  induction fuel with
  | zero =>
    intro k hk
    simp only [is_prime_loop, true_iff]
    intro m hm hsq
    exfalso
    have : 6 * k + 5 ≤ (6 * m + 5) * (6 * m + 5) := by nlinarith
    omega
  | succ fuel ih =>
    intro k hk
    unfold is_prime_loop
    by_cases hsq : (6 * k + 5) * (6 * k + 5) ≤ n
    · rw [if_pos hsq]
      by_cases hdiv : n % (6 * k + 5) = 0 ∨ n % (6 * k + 5 + 2) = 0
      · rw [if_pos hdiv]
        constructor
        · intro h; exact absurd h (by decide)
        · intro h
          have := h k (le_refl k) hsq
          rcases hdiv with h1 | h1
          · exact absurd h1 this.1
          · exact absurd h1 this.2
      · rw [if_neg hdiv]
        have e : 6 * k + 5 + 6 = 6 * (k + 1) + 5 := by ring
        rw [e, ih (k + 1) (by omega)]
        constructor
        · intro h m hm hm2
          rcases Nat.eq_or_lt_of_le hm with rfl | hlt
          · exact ⟨fun h1 => hdiv (Or.inl h1), fun h1 => hdiv (Or.inr h1)⟩
          · exact h m hlt hm2
        · intro h m hm hm2
          exact h m (by omega) hm2
    · rw [if_neg hsq]
      simp only [true_iff]
      intro m hm hm2
      exfalso
      have : (6 * k + 5) * (6 * k + 5) ≤ (6 * m + 5) * (6 * m + 5) :=
        Nat.mul_le_mul (by omega) (by omega)
      omega

/-- The member `is_prime` decides primality. -/
theorem is_prime_iff (n : Nat) : is_prime n = true ↔ Nat.Prime n := by
  unfold is_prime
  by_cases h1 : n ≤ 1
  · rw [if_pos h1]
    constructor
    · intro h; exact absurd h (by decide)
    · intro h; exact absurd h.two_le (by omega)
  rw [if_neg h1]
  by_cases h3 : n ≤ 3
  · rw [if_pos h3]
    have : n = 2 ∨ n = 3 := by omega
    rcases this with rfl | rfl
    · simp [Nat.prime_two]
    · simp [Nat.prime_three]
  rw [if_neg h3]
  by_cases h23 : n % 2 = 0 ∨ n % 3 = 0
  · rw [if_pos h23]
    constructor
    · intro h; exact absurd h (by decide)
    · intro hp
      exfalso
      rcases h23 with h | h
      · have := (Nat.prime_dvd_prime_iff_eq Nat.prime_two hp).1 (Nat.dvd_of_mod_eq_zero h)
        omega
      · have := (Nat.prime_dvd_prime_iff_eq Nat.prime_three hp).1 (Nat.dvd_of_mod_eq_zero h)
        omega
  rw [if_neg h23]
  have hspec := is_prime_loop_spec n n 0 (by omega)
  simp only [Nat.mul_zero, Nat.zero_add] at hspec
  rw [hspec]
  constructor
  · intro h
    by_contra hnp
    have hpos : 0 < n := by omega
    have hmf := Nat.minFac_prime (show n ≠ 1 by omega)
    have hdvd := Nat.minFac_dvd n
    have hsq := Nat.minFac_sq_le_self hpos hnp
    set p := n.minFac with hp
    have hp2 : p ≠ 2 := by
      intro e; rw [e] at hdvd; exact h23 (Or.inl (Nat.mod_eq_zero_of_dvd hdvd))
    have hp3 : p ≠ 3 := by
      intro e; rw [e] at hdvd; exact h23 (Or.inr (Nat.mod_eq_zero_of_dvd hdvd))
    have hge : 2 ≤ p := hmf.two_le
    have hmod2 : p % 2 ≠ 0 := by
      intro e
      have := (Nat.prime_dvd_prime_iff_eq Nat.prime_two hmf).1 (Nat.dvd_of_mod_eq_zero e)
      omega
    have hmod3 : p % 3 ≠ 0 := by
      intro e
      have := (Nat.prime_dvd_prime_iff_eq Nat.prime_three hmf).1 (Nat.dvd_of_mod_eq_zero e)
      omega
    have hcases : p % 6 = 5 ∨ p % 6 = 1 := by omega
    rw [sq] at hsq
    rcases hcases with h5 | h1'
    · obtain ⟨m, hm⟩ : ∃ m, p = 6 * m + 5 := ⟨p / 6, by omega⟩
      have := (h m (Nat.zero_le m) (by rw [← hm]; exact hsq)).1
      rw [← hm] at this
      exact this (Nat.mod_eq_zero_of_dvd hdvd)
    · obtain ⟨m, hm⟩ : ∃ m, p = 6 * m + 7 := ⟨p / 6 - 1, by omega⟩
      have hle : (6 * m + 5) * (6 * m + 5) ≤ n := by
        have : (6 * m + 5) * (6 * m + 5) ≤ p * p := Nat.mul_le_mul (by omega) (by omega)
        omega
      have := (h m (Nat.zero_le m) hle).2
      rw [← hm] at this
      exact this (Nat.mod_eq_zero_of_dvd hdvd)
  · intro hp m _ hsq
    constructor
    · intro hd
      have := (Nat.dvd_prime hp).1 (Nat.dvd_of_mod_eq_zero hd)
      rcases this with e | e
      · omega
      · rw [e] at hsq
        nlinarith
    · intro hd
      have := (Nat.dvd_prime hp).1 (Nat.dvd_of_mod_eq_zero hd)
      rcases this with e | e
      · omega
      · have : (6 * m + 5) * (6 * m + 5) ≤ 6 * m + 7 := by omega
        nlinarith

/-- The loop of `find_next_prime` leaves at `p` when `p` is the first prime after
`N` and at least `p - N` iterations are available. -/
theorem find_next_prime_loop_eq (p : Nat) (hp : Nat.Prime p) :
    ∀ (fuel N : Nat), N < p → p ≤ N + fuel → (∀ q, N < q → q < p → ¬ Nat.Prime q) →
      find_next_prime_loop fuel N = some p := by
  intro fuel
  induction fuel with
  | zero => intro N h1 h2 _; omega
  | succ fuel ih =>
    intro N h1 h2 hmin
    unfold find_next_prime_loop
    by_cases hN : is_prime (N + 1) = true
    · rw [if_pos hN]
      have hpr := (is_prime_iff _).1 hN
      have : ¬ (N + 1 < p) := fun hlt => hmin (N + 1) (by omega) hlt hpr
      have : N + 1 = p := by omega
      rw [this]
    · rw [if_neg hN]
      have hnp : ¬ Nat.Prime (N + 1) := fun h => hN ((is_prime_iff _).2 h)
      have hne : N + 1 ≠ p := fun e => hnp (e ▸ hp)
      exact ih (N + 1) (by omega) (by omega) (fun q hq1 hq2 => hmin q (by omega) hq2)

/-- There is a first prime after every `N ≥ 1`, and it is at most `2 * N`. -/
theorem exists_first_prime_after (N : Nat) (hN : 1 ≤ N) :
    ∃ p, Nat.Prime p ∧ N < p ∧ p ≤ 2 * N ∧ ∀ q, N < q → q < p → ¬ Nat.Prime q := by
  have hex : ∃ p, Nat.Prime p ∧ N < p := by
    obtain ⟨p, hp, h1, _⟩ := Nat.exists_prime_lt_and_le_two_mul N (by omega)
    exact ⟨p, hp, h1⟩
  classical
  refine ⟨Nat.find hex, (Nat.find_spec hex).1, (Nat.find_spec hex).2, ?_, ?_⟩
  · obtain ⟨p, hp, h1, h2⟩ := Nat.exists_prime_lt_and_le_two_mul N (by omega)
    exact le_trans (Nat.find_min' hex ⟨hp, h1⟩) h2
  · intro q hq1 hq2 hq
    exact Nat.find_min hex hq2 ⟨hq, hq1⟩

/-- The loop of `find_next_prime(N)` leaves within the `N` iterations it is given. -/
theorem find_next_prime_loop_complete (N : Nat) (hN : 1 < N) :
    ∃ p, find_next_prime_loop N N = some p ∧ Nat.Prime p ∧ N < p ∧
      ∀ q, N < q → q < p → ¬ Nat.Prime q := by
  obtain ⟨p, hp, h1, h2, h3⟩ := exists_first_prime_after N (by omega)
  exact ⟨p, find_next_prime_loop_eq p hp N N h1 (by omega) h3, hp, h1, h3⟩

theorem find_next_prime_spec (n : Nat) :
    (n ≤ 1 → find_next_prime n = 2) ∧
    (1 < n → Nat.Prime (find_next_prime n) ∧ n < find_next_prime n ∧
      ∀ p, Nat.Prime p → n < p → ¬ p < find_next_prime n) := by
  constructor
  · intro h; simp [find_next_prime, h]
  · intro h
    obtain ⟨p, hloop, hp, h1, h3⟩ := find_next_prime_loop_complete n h
    have e : find_next_prime n = p := by
      unfold find_next_prime
      rw [if_neg (by omega), hloop]; rfl
    rw [e]
    exact ⟨hp, h1, fun q hq hnq hqp => h3 q hnq hqp hq⟩

/-! ## Facts about arrays of chains -/

section ListFacts

variable {α β : Type}

theorem getD_set_self (l : List (List α)) (i : Nat) (x : List α) (h : i < l.length) :
    (l.set i x).getD i [] = x := by
  simp [List.getD_eq_getElem?_getD, List.getElem?_set, h]

theorem getD_set_other (l : List (List α)) (i j : Nat) (x : List α) (h : i ≠ j) :
    (l.set i x).getD j [] = l.getD j [] := by
  simp [List.getD_eq_getElem?_getD, List.getElem?_set, h]

theorem getD_of_length_le (l : List (List α)) (j : Nat) (h : l.length ≤ j) :
    l.getD j [] = [] := by
  simp [List.getD_eq_getElem?_getD, List.getElem?_eq_none h]

theorem getD_replicate_nil (n j : Nat) : (List.replicate n ([] : List α)).getD j [] = [] := by
  by_cases h : j < n
  · simp [List.getD_eq_getElem?_getD, List.getElem?_replicate, h]
  · simp [List.getD_eq_getElem?_getD, List.getElem?_replicate, h]

theorem flatten_replicate_nil (n : Nat) : (List.replicate n ([] : List α)).flatten = [] := by
  induction n with
  | zero => rfl
  | succ n ih => simp [List.replicate_succ, ih]

/-- Splitting a table at chain `i`. -/
theorem flatten_split (l : List (List α)) (i : Nat) (h : i < l.length) :
    l.flatten = (l.take i).flatten ++ (l.getD i [] ++ (l.drop (i + 1)).flatten) := by
  induction l generalizing i with
  | nil => simp at h
  | cons a l ih =>
    cases i with
    | zero => simp
    | succ i =>
      have h' : i < l.length := by simpa using h
      simp only [List.flatten_cons, List.take_succ_cons, List.drop_succ_cons, List.getD_cons_succ,
        List.append_assoc]
      rw [ih i h']

theorem flatten_set (l : List (List α)) (i : Nat) (x : List α) (h : i < l.length) :
    (l.set i x).flatten = (l.take i).flatten ++ (x ++ (l.drop (i + 1)).flatten) := by
  induction l generalizing i with
  | nil => simp at h
  | cons a l ih =>
    cases i with
    | zero => simp
    | succ i =>
      have h' : i < l.length := by simpa using h
      simp only [List.set_cons_succ, List.flatten_cons, List.take_succ_cons, List.drop_succ_cons,
        List.append_assoc]
      rw [ih i h']

theorem mem_flatten_iff_getD (l : List (List α)) (e : α) :
    e ∈ l.flatten ↔ ∃ i, i < l.length ∧ e ∈ l.getD i [] := by
  constructor
  · intro h
    obtain ⟨c, hc, he⟩ := List.mem_flatten.1 h
    obtain ⟨i, hi, rfl⟩ := List.getElem_of_mem hc
    exact ⟨i, hi, by simpa [List.getD_eq_getElem?_getD, List.getElem?_eq_getElem hi] using he⟩
  · rintro ⟨i, hi, he⟩
    refine List.mem_flatten.2 ⟨l[i], List.getElem_mem hi, ?_⟩
    simpa [List.getD_eq_getElem?_getD, List.getElem?_eq_getElem hi] using he

theorem foldl_range_getD (l : List (List α)) (g : β → List α → β) (b : β) :
    (List.range l.length).foldl (fun acc i => g acc (l.getD i [])) b = l.foldl g b := by
  have hmap : (List.range l.length).map (fun i => l.getD i []) = l := by
    apply List.ext_getElem
    · simp
    · intro n h1 h2
      simp only [List.length_map, List.length_range] at h1
      simp [List.getD_eq_getElem?_getD, List.getElem?_eq_getElem h1]
  conv_rhs => rw [← hmap]
  rw [List.foldl_map]

theorem foldl_flatten_eq (l : List (List α)) (g : β → α → β) (b : β) :
    l.foldl (fun acc c => c.foldl g acc) b = l.flatten.foldl g b := by
  induction l generalizing b with
  | nil => rfl
  | cons a l ih => simp [List.foldl_append, ih]

end ListFacts

/-! ## Facts about the scans of a chain -/

section ChainFacts

variable {K V : Type} (equalFunc : K → K → Bool)

theorem chain_find_eq_none_iff (key : K) (c : List (HashEntry K V)) :
    chain_find equalFunc key c = none ↔ ∀ e ∈ c, equalFunc e.m_key key = false := by
  induction c with
  | nil => simp [chain_find]
  | cons a c ih =>
    unfold chain_find
    by_cases h : equalFunc a.m_key key = true
    · simp [h]
    · simp [h, ih]

theorem chain_assign_eq_none_iff (key : K) (data : V) (c : List (HashEntry K V)) :
    chain_assign equalFunc key data c = none ↔ chain_find equalFunc key c = none := by
  induction c with
  | nil => simp [chain_assign, chain_find]
  | cons a c ih =>
    unfold chain_assign chain_find
    by_cases h : equalFunc a.m_key key = true
    · simp [h]
    · simp [h, ih]

theorem chain_erase_eq_none_iff (key : K) (c : List (HashEntry K V)) :
    chain_erase equalFunc key c = none ↔ chain_find equalFunc key c = none := by
  induction c with
  | nil => simp [chain_erase, chain_find]
  | cons a c ih =>
    unfold chain_erase chain_find
    by_cases h : equalFunc a.m_key key = true
    · simp [h]
    · simp [h, ih]

/-- The scan finds a key exactly when some entry of the chain compares equal to it. -/
theorem chain_find_isSome_iff (key : K) (c : List (HashEntry K V)) :
    (∃ v, chain_find equalFunc key c = some v) ↔ ∃ e ∈ c, equalFunc e.m_key key = true := by
  constructor
  · rintro ⟨v, hv⟩
    by_contra hc
    have : chain_find equalFunc key c = none := by
      rw [chain_find_eq_none_iff]
      intro e he
      by_contra h2
      exact hc ⟨e, he, by simpa using h2⟩
    rw [this] at hv
    exact absurd hv (by simp)
  · rintro ⟨e, he, h1⟩
    cases hf : chain_find equalFunc key c with
    | some v => exact ⟨v, rfl⟩
    | none =>
      rw [chain_find_eq_none_iff] at hf
      rw [hf e he] at h1
      exact absurd h1 (by decide)

/-- An overwrite keeps the keys of the chain, in order. -/
theorem chain_assign_keys (key : K) (data : V) (c c1 : List (HashEntry K V))
    (h : chain_assign equalFunc key data c = some c1) :
    c1.map (fun e => e.m_key) = c.map (fun e => e.m_key) := by
  induction c generalizing c1 with
  | nil => simp [chain_assign] at h
  | cons a c ih =>
    unfold chain_assign at h
    by_cases hk : equalFunc a.m_key key = true
    · rw [if_pos hk] at h
      cases h
      simp
    · rw [if_neg hk] at h
      cases hr : chain_assign equalFunc key data c with
      | none => rw [hr] at h; simp at h
      | some r =>
        rw [hr] at h
        simp only [Option.map_some', Option.some.injEq] at h
        subst h
        simp [ih r hr]

/-- After an overwrite the scan for the same key yields the data written. -/
theorem chain_find_assign_self (key : K) (data : V) (c c1 : List (HashEntry K V))
    (h : chain_assign equalFunc key data c = some c1) :
    chain_find equalFunc key c1 = some data := by
  induction c generalizing c1 with
  | nil => simp [chain_assign] at h
  | cons a c ih =>
    unfold chain_assign at h
    by_cases hk : equalFunc a.m_key key = true
    · rw [if_pos hk] at h
      cases h
      simp [chain_find, hk]
    · rw [if_neg hk] at h
      cases hr : chain_assign equalFunc key data c with
      | none => rw [hr] at h; simp at h
      | some r =>
        rw [hr] at h
        simp only [Option.map_some', Option.some.injEq] at h
        subst h
        simp [chain_find, hk, ih r hr]

/-- An overwrite under `key` leaves the scan for a key that compares unequal alone. -/
theorem chain_find_assign_other (hsymm : ∀ a b, equalFunc a b = true → equalFunc b a = true)
    (htrans : ∀ a b c, equalFunc a b = true → equalFunc b c = true → equalFunc a c = true)
    (key key1 : K) (data : V) (c c1 : List (HashEntry K V))
    (hne : equalFunc key key1 = false)
    (h : chain_assign equalFunc key data c = some c1) :
    chain_find equalFunc key1 c1 = chain_find equalFunc key1 c := by
  induction c generalizing c1 with
  | nil => simp [chain_assign] at h
  | cons a c ih =>
    unfold chain_assign at h
    by_cases hk : equalFunc a.m_key key = true
    · rw [if_pos hk] at h
      cases h
      have : equalFunc a.m_key key1 = false := by
        by_contra hc
        have hc : equalFunc a.m_key key1 = true := by simpa using hc
        have := htrans _ _ _ (hsymm _ _ hk) hc
        rw [hne] at this
        exact absurd this (by decide)
      simp [chain_find, this]
    · rw [if_neg hk] at h
      cases hr : chain_assign equalFunc key data c with
      | none => rw [hr] at h; simp at h
      | some r =>
        rw [hr] at h
        simp only [Option.map_some', Option.some.injEq] at h
        subst h
        simp [chain_find, ih r hr]

theorem chain_assign_length (key : K) (data : V) (c c1 : List (HashEntry K V))
    (h : chain_assign equalFunc key data c = some c1) : c1.length = c.length := by
  have := congrArg List.length (chain_assign_keys equalFunc key data c c1 h)
  simpa using this

theorem chain_find_append (key : K) (c d : List (HashEntry K V)) :
    chain_find equalFunc key (c ++ d) =
      match chain_find equalFunc key c with
      | some v => some v
      | none => chain_find equalFunc key d := by
  induction c with
  | nil => simp [chain_find]
  | cons a c ih =>
    simp only [List.cons_append, chain_find]
    by_cases hk : equalFunc a.m_key key = true
    · simp [hk]
    · simp [hk, ih]

/-- Filtering a chain by a predicate that every entry matching `key` satisfies does
not change the outcome of the scan for `key`. -/
theorem chain_find_filter (key : K) (p : HashEntry K V → Bool) (c : List (HashEntry K V))
    (h : ∀ e ∈ c, equalFunc e.m_key key = true → p e = true) :
    chain_find equalFunc key (c.filter p) = chain_find equalFunc key c := by
  induction c with
  | nil => rfl
  | cons a c ih =>
    have ih := ih (fun e he => h e (List.mem_cons_of_mem a he))
    by_cases hk : equalFunc a.m_key key = true
    · have hp := h a (List.mem_cons_self a c) hk
      simp [List.filter_cons, hp, chain_find, hk]
    · by_cases hp : p a = true
      · simp [List.filter_cons, hp, chain_find, hk, ih]
      · simp [List.filter_cons, hp, chain_find, hk, ih]

/-- In a chain without two equal keys, the scan yields the data of any entry whose
key compares equal to the key searched. -/
theorem chain_find_of_mem (hsymm : ∀ a b, equalFunc a b = true → equalFunc b a = true)
    (htrans : ∀ a b c, equalFunc a b = true → equalFunc b c = true → equalFunc a c = true)
    (key : K) (c : List (HashEntry K V))
    (hd : c.Pairwise (fun a b => equalFunc a.m_key b.m_key = false))
    (e : HashEntry K V) (he : e ∈ c) (hk : equalFunc e.m_key key = true) :
    chain_find equalFunc key c = some e.m_data := by
  induction c with
  | nil => simp at he
  | cons a c ih =>
    rw [List.pairwise_cons] at hd
    unfold chain_find
    by_cases ha : equalFunc a.m_key key = true
    · rw [if_pos ha]
      rcases List.mem_cons.1 he with rfl | hmem
      · rfl
      · have h1 := hd.1 e hmem
        have h2 := htrans _ _ _ ha (hsymm _ _ hk)
        rw [h1] at h2
        exact absurd h2 (by decide)
    · rw [if_neg ha]
      rcases List.mem_cons.1 he with rfl | hmem
      · exact absurd hk ha
      · exact ih hd.2 hmem

/-- What `erase` leaves of a chain: one entry fewer, the rest in order. -/
theorem chain_erase_sublist (key : K) (c c1 : List (HashEntry K V))
    (h : chain_erase equalFunc key c = some c1) :
    c1.Sublist c ∧ c1.length + 1 = c.length := by
  induction c generalizing c1 with
  | nil => simp [chain_erase] at h
  | cons a c ih =>
    unfold chain_erase at h
    by_cases hk : equalFunc a.m_key key = true
    · rw [if_pos hk] at h
      cases h
      exact ⟨List.sublist_cons_self a c, rfl⟩
    · rw [if_neg hk] at h
      cases hr : chain_erase equalFunc key c with
      | none => rw [hr] at h; simp at h
      | some r =>
        rw [hr] at h
        simp only [Option.map_some', Option.some.injEq] at h
        subst h
        obtain ⟨h1, h2⟩ := ih r hr
        exact ⟨h1.cons₂ a, by simp [h2]⟩

/-- In a chain without two equal keys, no entry equal to `key` is left by `erase`. -/
theorem chain_find_erase_self (hsymm : ∀ a b, equalFunc a b = true → equalFunc b a = true)
    (htrans : ∀ a b c, equalFunc a b = true → equalFunc b c = true → equalFunc a c = true)
    (key : K) (c c1 : List (HashEntry K V))
    (hd : c.Pairwise (fun a b => equalFunc a.m_key b.m_key = false))
    (h : chain_erase equalFunc key c = some c1) :
    chain_find equalFunc key c1 = none := by
  induction c generalizing c1 with
  | nil => simp [chain_erase] at h
  | cons a c ih =>
    rw [List.pairwise_cons] at hd
    unfold chain_erase at h
    by_cases hk : equalFunc a.m_key key = true
    · rw [if_pos hk] at h
      cases h
      rw [chain_find_eq_none_iff]
      intro e he
      by_contra hc
      have hc : equalFunc e.m_key key = true := by simpa using hc
      have h1 := hd.1 e he
      have h2 := htrans _ _ _ hk (hsymm _ _ hc)
      rw [h1] at h2
      exact absurd h2 (by decide)
    · rw [if_neg hk] at h
      cases hr : chain_erase equalFunc key c with
      | none => rw [hr] at h; simp at h
      | some r =>
        rw [hr] at h
        simp only [Option.map_some', Option.some.injEq] at h
        subst h
        simp [chain_find, hk, ih r hd.2 hr]

/-- Erasing `key` leaves the scan for a key that compares unequal alone. -/
theorem chain_find_erase_other (hsymm : ∀ a b, equalFunc a b = true → equalFunc b a = true)
    (htrans : ∀ a b c, equalFunc a b = true → equalFunc b c = true → equalFunc a c = true)
    (key key1 : K) (c c1 : List (HashEntry K V))
    (hne : equalFunc key key1 = false)
    (h : chain_erase equalFunc key c = some c1) :
    chain_find equalFunc key1 c1 = chain_find equalFunc key1 c := by
  induction c generalizing c1 with
  | nil => simp [chain_erase] at h
  | cons a c ih =>
    unfold chain_erase at h
    by_cases hk : equalFunc a.m_key key = true
    · rw [if_pos hk] at h
      cases h
      have : equalFunc a.m_key key1 = false := by
        by_contra hc
        have hc : equalFunc a.m_key key1 = true := by simpa using hc
        have := htrans _ _ _ (hsymm _ _ hk) hc
        rw [hne] at this
        exact absurd this (by decide)
      simp [chain_find, this]
    · rw [if_neg hk] at h
      cases hr : chain_erase equalFunc key c with
      | none => rw [hr] at h; simp at h
      | some r =>
        rw [hr] at h
        simp only [Option.map_some', Option.some.injEq] at h
        subst h
        simp [chain_find, ih r hr]

end ChainFacts

/-! ## Facts about the loops of `rehash` -/

section Redistribute

variable {K V : Type}

theorem push_back_at_length (table : List (List (HashEntry K V))) (i : Nat) (e : HashEntry K V) :
    (push_back_at table i e).length = table.length := by
  simp [push_back_at]

theorem push_back_at_getD (table : List (List (HashEntry K V))) (i j : Nat) (e : HashEntry K V)
    (h : i < table.length) :
    (push_back_at table i e).getD j [] =
      if i = j then table.getD j [] ++ [e] else table.getD j [] := by
  unfold push_back_at
  by_cases hij : i = j
  · subst hij
    rw [if_pos rfl, getD_set_self _ _ _ h]
  · rw [if_neg hij, getD_set_other _ _ _ _ hij]

theorem push_back_at_perm (table : List (List (HashEntry K V))) (i : Nat) (e : HashEntry K V)
    (h : i < table.length) :
    (push_back_at table i e).flatten.Perm (e :: table.flatten) := by
  unfold push_back_at
  rw [flatten_set _ _ _ h]
  conv_rhs => rw [flatten_split table i h]
  generalize (List.take i table).flatten = A
  generalize table.getD i [] = B
  generalize (List.drop (i + 1) table).flatten = C
  have e1 : A ++ (B ++ [e] ++ C) = (A ++ B) ++ e :: C := by simp
  have e2 : e :: (A ++ (B ++ C)) = e :: ((A ++ B) ++ C) := by simp
  rw [e1, e2]
  exact List.perm_middle

/-- The inner loop of `rehash` over a list of entries. -/
theorem distribute_spec (hashFunc : K → Nat) (size_aux : Nat) (hpos : 0 < size_aux)
    (es : List (HashEntry K V)) :
    ∀ dst : List (List (HashEntry K V)), dst.length = size_aux →
      (es.foldl (fun dst element =>
          push_back_at dst (hashFunc element.m_key % size_aux) element) dst).length = size_aux ∧
      (∀ j, (es.foldl (fun dst element =>
          push_back_at dst (hashFunc element.m_key % size_aux) element) dst).getD j [] =
        dst.getD j [] ++ es.filter (fun e => decide (hashFunc e.m_key % size_aux = j))) ∧
      (es.foldl (fun dst element =>
          push_back_at dst (hashFunc element.m_key % size_aux) element) dst).flatten.Perm
        (dst.flatten ++ es) := by
  induction es with
  | nil => intro dst h; simp [h]
  | cons a es ih =>
    intro dst h
    have hlt : hashFunc a.m_key % size_aux < dst.length := by
      rw [h]; exact Nat.mod_lt _ hpos
    obtain ⟨h1, h2, h3⟩ := ih (push_back_at dst (hashFunc a.m_key % size_aux) a)
      (by rw [push_back_at_length, h])
    simp only [List.foldl_cons]
    refine ⟨h1, ?_, ?_⟩
    · intro j
      rw [h2 j, push_back_at_getD _ _ _ _ hlt]
      by_cases hj : hashFunc a.m_key % size_aux = j
      · simp [hj, List.filter_cons]
      · simp [hj, List.filter_cons]
    · refine h3.trans ?_
      refine (List.Perm.append_right es (push_back_at_perm dst _ a hlt)).trans ?_
      simp only [List.cons_append]
      exact List.perm_middle.symm

/-- One loop of `rehash` over a whole array of chains. -/
theorem redistribute_spec (hashFunc : K → Nat) (size_aux : Nat) (hpos : 0 < size_aux)
    (src dst : List (List (HashEntry K V))) (hdst : dst.length = size_aux) :
    (HashTbl.redistribute hashFunc size_aux src src.length dst).length = size_aux ∧
    (∀ j, (HashTbl.redistribute hashFunc size_aux src src.length dst).getD j [] =
      dst.getD j [] ++ src.flatten.filter (fun e => decide (hashFunc e.m_key % size_aux = j))) ∧
    (HashTbl.redistribute hashFunc size_aux src src.length dst).flatten.Perm
      (dst.flatten ++ src.flatten) := by
  have e : HashTbl.redistribute hashFunc size_aux src src.length dst =
      src.flatten.foldl (fun dst element =>
        push_back_at dst (hashFunc element.m_key % size_aux) element) dst := by
    unfold HashTbl.redistribute
    rw [foldl_range_getD src (fun dst c => c.foldl (fun dst element =>
        push_back_at dst (hashFunc element.m_key % size_aux) element) dst) dst]
    exact foldl_flatten_eq src _ dst
  rw [e]
  exact distribute_spec hashFunc size_aux hpos src.flatten dst hdst

/-- In an array whose chain `i` only holds entries that hash to `i`, chain `j` is what
the filter by `hash = j` keeps of all the entries. -/
theorem filter_flatten_placed (hashFunc : K → Nat) (size : Nat)
    (table : List (List (HashEntry K V)))
    (hplaced : ∀ i, ∀ e ∈ table.getD i [], hashFunc e.m_key % size = i) (j : Nat) :
    table.flatten.filter (fun e => decide (hashFunc e.m_key % size = j)) = table.getD j [] := by
  by_cases hj : j < table.length
  · rw [flatten_split table j hj]
    simp only [List.filter_append]
    have h1 : (List.take j table).flatten.filter
        (fun e => decide (hashFunc e.m_key % size = j)) = [] := by
      rw [List.filter_eq_nil_iff]
      intro e he
      obtain ⟨i, hi, hmem⟩ := (mem_flatten_iff_getD _ e).1 he
      have hi' : i < j := by
        simp only [List.length_take] at hi; omega
      have : (List.take j table).getD i [] = table.getD i [] := by
        simp [List.getD_eq_getElem?_getD, List.getElem?_take, hi']
      rw [this] at hmem
      have := hplaced i e hmem
      simp; omega
    have h2 : (List.drop (j + 1) table).flatten.filter
        (fun e => decide (hashFunc e.m_key % size = j)) = [] := by
      rw [List.filter_eq_nil_iff]
      intro e he
      obtain ⟨i, hi, hmem⟩ := (mem_flatten_iff_getD _ e).1 he
      have : (List.drop (j + 1) table).getD i [] = table.getD (j + 1 + i) [] := by
        simp [List.getD_eq_getElem?_getD, List.getElem?_drop]
      rw [this] at hmem
      have := hplaced _ e hmem
      simp; omega
    have h3 : (table.getD j []).filter
        (fun e => decide (hashFunc e.m_key % size = j)) = table.getD j [] := by
      rw [List.filter_eq_self]
      intro e he
      simpa using hplaced j e he
    rw [h1, h2, h3]; simp
  · rw [getD_of_length_le _ _ (by omega), List.filter_eq_nil_iff]
    intro e he
    obtain ⟨i, hi, hmem⟩ := (mem_flatten_iff_getD _ e).1 he
    have := hplaced i e hmem
    simp; omega

end Redistribute

section PrimeFacts

theorem find_next_prime_prime (n : Nat) : Nat.Prime (find_next_prime n) := by
  by_cases h : n ≤ 1
  · rw [(find_next_prime_spec n).1 h]; exact Nat.prime_two
  · exact ((find_next_prime_spec n).2 (by omega)).1

theorem find_next_prime_pos (n : Nat) : 0 < find_next_prime n :=
  (find_next_prime_prime n).pos

end PrimeFacts

section RehashFacts

variable {K V : Type}

/-- What `rehash` builds: chain `j` of the new array holds, in the order of the old
array, the entries whose hash is `j` modulo the new size. -/
theorem rehash_table (hashFunc : K → Nat) (t : HashTbl K V)
    (hlen : t.m_table.length = t.m_size) :
    (HashTbl.rehash hashFunc t).m_table.length = find_next_prime (t.m_size * 2) ∧
    (∀ j, (HashTbl.rehash hashFunc t).m_table.getD j [] =
      t.entries.filter (fun e => decide (hashFunc e.m_key % find_next_prime (t.m_size * 2) = j))) ∧
    (HashTbl.rehash hashFunc t).entries.Perm t.entries := by
  have hpos := find_next_prime_pos (t.m_size * 2)
  obtain ⟨a1, a2, a3⟩ := redistribute_spec hashFunc (find_next_prime (t.m_size * 2)) hpos
    t.m_table (List.replicate (find_next_prime (t.m_size * 2)) []) (by simp)
  rw [hlen] at a1 a2 a3
  obtain ⟨b1, b2, b3⟩ := redistribute_spec hashFunc (find_next_prime (t.m_size * 2)) hpos
    (HashTbl.redistribute hashFunc (find_next_prime (t.m_size * 2)) t.m_table t.m_size
      (List.replicate (find_next_prime (t.m_size * 2)) []))
    (List.replicate (find_next_prime (t.m_size * 2)) []) (by simp)
  rw [a1] at b1 b2 b3
  simp only [getD_replicate_nil, List.nil_append, flatten_replicate_nil] at a2 a3 b2 b3
  have hplaced : ∀ i, ∀ e ∈ (HashTbl.redistribute hashFunc (find_next_prime (t.m_size * 2))
      t.m_table t.m_size (List.replicate (find_next_prime (t.m_size * 2)) [])).getD i [],
      hashFunc e.m_key % find_next_prime (t.m_size * 2) = i := by
    intro i e he
    rw [a2 i] at he
    simpa using (List.mem_filter.1 he).2
  refine ⟨b1, ?_, b3.trans a3⟩
  intro j
  show (HashTbl.redistribute hashFunc (find_next_prime (t.m_size * 2)) _ _ _).getD j [] = _
  rw [b2 j, filter_flatten_placed hashFunc _ _ hplaced j, a2 j]
  rfl

end RehashFacts

/-! ## The representation invariant -/

section Invariant

variable {K V : Type} {hashFunc : K → Nat} {equalFunc : K → K → Bool}

theorem insert_of_some (t : HashTbl K V) (key : K) (data : V) (c1 : List (HashEntry K V))
    (hc : chain_assign equalFunc key data (t.m_table.getD (hashFunc key % t.m_size) []) = some c1) :
    HashTbl.insert hashFunc equalFunc t key data =
      (false, { t with m_table := t.m_table.set (hashFunc key % t.m_size) c1 }) := by
  simp only [HashTbl.insert, hc]

theorem insert_of_none (t : HashTbl K V) (key : K) (data : V)
    (hc : chain_assign equalFunc key data (t.m_table.getD (hashFunc key % t.m_size) []) = none) :
    HashTbl.insert hashFunc equalFunc t key data =
      if t.m_max_load_factor.lt_nat ((t.m_count + 1) / t.m_size) = true then
        (true, HashTbl.rehash hashFunc
          { t with
            m_table := push_back_at t.m_table (hashFunc key % t.m_size)
              { m_key := key, m_data := data }
            m_count := t.m_count + 1 })
      else
        (true,
          { t with
            m_table := push_back_at t.m_table (hashFunc key % t.m_size)
              { m_key := key, m_data := data }
            m_count := t.m_count + 1 }) := by
  simp only [HashTbl.insert, hc]

theorem erase_of_some (t : HashTbl K V) (key : K) (c1 : List (HashEntry K V))
    (hc : chain_erase equalFunc key (t.m_table.getD (hashFunc key % t.m_size) []) = some c1) :
    HashTbl.erase hashFunc equalFunc t key =
      (true, { t with
        m_table := t.m_table.set (hashFunc key % t.m_size) c1
        m_count := t.m_count - 1 }) := by
  simp only [HashTbl.erase, hc]

theorem erase_of_none (t : HashTbl K V) (key : K)
    (hc : chain_erase equalFunc key (t.m_table.getD (hashFunc key % t.m_size) []) = none) :
    HashTbl.erase hashFunc equalFunc t key = (false, t) := by
  simp only [HashTbl.erase, hc]

theorem at_assign_of_some (t : HashTbl K V) (key : K) (data : V) (c1 : List (HashEntry K V))
    (hc : chain_assign equalFunc key data (t.m_table.getD (hashFunc key % t.m_size) []) = some c1) :
    HashTbl.at_assign hashFunc equalFunc t key data =
      .ok { t with m_table := t.m_table.set (hashFunc key % t.m_size) c1 } := by
  simp only [HashTbl.at_assign, hc]

theorem at_assign_of_none (t : HashTbl K V) (key : K) (data : V)
    (hc : chain_assign equalFunc key data (t.m_table.getD (hashFunc key % t.m_size) []) = none) :
    HashTbl.at_assign hashFunc equalFunc t key data = .error .out_of_range := by
  simp only [HashTbl.at_assign, hc]

theorem retrieve_of_some (t : HashTbl K V) (key : K) (data_item v : V)
    (hc : chain_find equalFunc key (t.m_table.getD (hashFunc key % t.m_size) []) = some v) :
    HashTbl.retrieve hashFunc equalFunc t key data_item = (true, v) := by
  simp only [HashTbl.retrieve, hc]

theorem retrieve_of_none (t : HashTbl K V) (key : K) (data_item : V)
    (hc : chain_find equalFunc key (t.m_table.getD (hashFunc key % t.m_size) []) = none) :
    HashTbl.retrieve hashFunc equalFunc t key data_item = (false, data_item) := by
  simp only [HashTbl.retrieve, hc]

theorem at_of_some (t : HashTbl K V) (key : K) (v : V)
    (hc : chain_find equalFunc key (t.m_table.getD (hashFunc key % t.m_size) []) = some v) :
    HashTbl.at_ hashFunc equalFunc t key = (.ok v, t) := by
  simp only [HashTbl.at_, hc]

theorem at_of_none (t : HashTbl K V) (key : K)
    (hc : chain_find equalFunc key (t.m_table.getD (hashFunc key % t.m_size) []) = none) :
    HashTbl.at_ hashFunc equalFunc t key = (.error .out_of_range, t) := by
  simp only [HashTbl.at_, hc]

theorem inv_construct (sz : Nat) :
    Inv hashFunc equalFunc (HashTbl.construct sz : HashTbl K V) where
  size_pos := find_next_prime_pos sz
  length_eq := by simp [HashTbl.construct]
  placed := by
    intro i e he
    simp [HashTbl.construct, getD_replicate_nil] at he
  distinct := by
    intro i
    simp [HashTbl.construct, getD_replicate_nil]
  count_eq := by
    simp [HashTbl.construct, HashTbl.entries, flatten_replicate_nil]

/-- The bucket index of a key lies inside the array. -/
theorem Inv.index_lt {t : HashTbl K V} (h : Inv hashFunc equalFunc t) (key : K) :
    hashFunc key % t.m_size < t.m_table.length := by
  rw [h.length_eq]; exact Nat.mod_lt _ h.size_pos

/-- Replacing the chain of `key` by one with the same keys keeps the invariant. -/
theorem inv_set_same_keys {t : HashTbl K V} (h : Inv hashFunc equalFunc t) (key : K)
    (c1 : List (HashEntry K V))
    (hkeys : c1.map (fun e => e.m_key) =
      (t.m_table.getD (hashFunc key % t.m_size) []).map (fun e => e.m_key)) :
    Inv hashFunc equalFunc
      { t with m_table := t.m_table.set (hashFunc key % t.m_size) c1 } where
  size_pos := h.size_pos
  length_eq := by simp [h.length_eq]
  placed := by
    intro i e he
    simp only at he ⊢
    by_cases hi : hashFunc key % t.m_size = i
    · subst hi
      rw [getD_set_self _ _ _ (h.index_lt key)] at he
      have : e.m_key ∈ c1.map (fun e => e.m_key) := List.mem_map_of_mem _ he
      rw [hkeys] at this
      obtain ⟨e0, he0, hk⟩ := List.mem_map.1 this
      rw [← hk]
      exact h.placed _ e0 he0
    · rw [getD_set_other _ _ _ _ hi] at he
      exact h.placed i e he
  distinct := by
    intro i
    simp only
    by_cases hi : hashFunc key % t.m_size = i
    · subst hi
      rw [getD_set_self _ _ _ (h.index_lt key)]
      have := h.distinct (hashFunc key % t.m_size)
      rw [← List.pairwise_map (f := fun e : HashEntry K V => e.m_key)
        (R := fun a b => equalFunc a b = false)] at this ⊢
      rw [hkeys]; exact this
    · rw [getD_set_other _ _ _ _ hi]
      exact h.distinct i
  count_eq := by
    have hl : c1.length = (t.m_table.getD (hashFunc key % t.m_size) []).length := by
      simpa using congrArg List.length hkeys
    simp only [HashTbl.entries]
    rw [flatten_set _ _ _ (h.index_lt key), h.count_eq, HashTbl.entries,
      flatten_split _ _ (h.index_lt key)]
    simp [hl]

/-- Appending an entry for a key the scan did not find keeps the invariant. -/
theorem inv_push_back {t : HashTbl K V} (h : Inv hashFunc equalFunc t) (key : K) (data : V)
    (hnone : chain_find equalFunc key (t.m_table.getD (hashFunc key % t.m_size) []) = none) :
    Inv hashFunc equalFunc
      { t with
        m_table := push_back_at t.m_table (hashFunc key % t.m_size)
          { m_key := key, m_data := data }
        m_count := t.m_count + 1 } where
  size_pos := h.size_pos
  length_eq := by simp [push_back_at_length, h.length_eq]
  placed := by
    intro i e he
    simp only at he ⊢
    rw [push_back_at_getD _ _ _ _ (h.index_lt key)] at he
    by_cases hi : hashFunc key % t.m_size = i
    · rw [if_pos hi] at he
      rcases List.mem_append.1 he with h1 | h1
      · exact h.placed i e h1
      · simp only [List.mem_singleton] at h1
        subst h1; exact hi
    · rw [if_neg hi] at he
      exact h.placed i e he
  distinct := by
    intro i
    simp only
    rw [push_back_at_getD _ _ _ _ (h.index_lt key)]
    by_cases hi : hashFunc key % t.m_size = i
    · rw [if_pos hi, List.pairwise_append]
      refine ⟨h.distinct i, List.pairwise_singleton _ _, ?_⟩
      intro a ha b hb
      simp only [List.mem_singleton] at hb
      subst hb
      rw [← hi] at ha
      exact (chain_find_eq_none_iff equalFunc key _).1 hnone a ha
    · rw [if_neg hi]; exact h.distinct i
  count_eq := by
    simp only [HashTbl.entries]
    rw [(push_back_at_perm _ _ _ (h.index_lt key)).length_eq, h.count_eq]
    simp [HashTbl.entries]

/-- With hashes that agree on equal keys, no two entries of the whole table have
keys that compare equal. -/
theorem Inv.entries_distinct {t : HashTbl K V} (h : Inv hashFunc equalFunc t)
    (hhash : ∀ a b, equalFunc a b = true → hashFunc a = hashFunc b) :
    t.entries.Pairwise (fun a b => equalFunc a.m_key b.m_key = false) := by
  unfold HashTbl.entries
  rw [List.pairwise_flatten]
  constructor
  · intro l hl
    obtain ⟨i, hi, rfl⟩ := List.getElem_of_mem hl
    have := h.distinct i
    simpa [List.getD_eq_getElem?_getD, List.getElem?_eq_getElem hi] using this
  · rw [List.pairwise_iff_getElem]
    intro i j hi hj hij x hx y hy
    have hx' : x ∈ t.m_table.getD i [] := by
      simpa [List.getD_eq_getElem?_getD, List.getElem?_eq_getElem hi] using hx
    have hy' : y ∈ t.m_table.getD j [] := by
      simpa [List.getD_eq_getElem?_getD, List.getElem?_eq_getElem hj] using hy
    have h1 := h.placed i x hx'
    have h2 := h.placed j y hy'
    by_contra hc
    have hc : equalFunc x.m_key y.m_key = true := by simpa using hc
    rw [hhash _ _ hc] at h1
    omega

theorem inv_rehash {t : HashTbl K V} (h : Inv hashFunc equalFunc t)
    (hhash : ∀ a b, equalFunc a b = true → hashFunc a = hashFunc b) :
    Inv hashFunc equalFunc (HashTbl.rehash hashFunc t) := by
  obtain ⟨r1, r2, r3⟩ := rehash_table hashFunc t h.length_eq
  have hsize : (HashTbl.rehash hashFunc t).m_size = find_next_prime (t.m_size * 2) := rfl
  have hcount : (HashTbl.rehash hashFunc t).m_count = t.m_count := rfl
  refine ⟨?_, ?_, ?_, ?_, ?_⟩
  · rw [hsize]; exact find_next_prime_pos _
  · rw [hsize]; exact r1
  · intro i e he
    rw [r2 i] at he
    rw [hsize]
    simpa using (List.mem_filter.1 he).2
  · intro i
    rw [r2 i]
    exact (h.entries_distinct hhash).filter _
  · rw [hcount, h.count_eq, r3.length_eq]

theorem inv_insert {t : HashTbl K V} (h : Inv hashFunc equalFunc t)
    (hhash : ∀ a b, equalFunc a b = true → hashFunc a = hashFunc b) (key : K) (data : V) :
    Inv hashFunc equalFunc (HashTbl.insert hashFunc equalFunc t key data).2 := by
  cases hc : chain_assign equalFunc key data (t.m_table.getD (hashFunc key % t.m_size) []) with
  | some c1 =>
    rw [insert_of_some t key data c1 hc]
    exact inv_set_same_keys h key c1 (chain_assign_keys equalFunc key data _ c1 hc)
  | none =>
    have hnone := (chain_assign_eq_none_iff equalFunc key data _).1 hc
    have h1 := inv_push_back h key data hnone
    rw [insert_of_none t key data hc]
    split
    · exact inv_rehash h1 hhash
    · exact h1

theorem inv_erase {t : HashTbl K V} (h : Inv hashFunc equalFunc t) (key : K) :
    Inv hashFunc equalFunc (HashTbl.erase hashFunc equalFunc t key).2 := by
  cases hc : chain_erase equalFunc key (t.m_table.getD (hashFunc key % t.m_size) []) with
  | none => rw [erase_of_none t key hc]; exact h
  | some c1 =>
    rw [erase_of_some t key c1 hc]
    obtain ⟨hsub, hlen⟩ := chain_erase_sublist equalFunc key _ c1 hc
    refine ⟨h.size_pos, by simp [h.length_eq], ?_, ?_, ?_⟩
    · intro i e he
      simp only at he ⊢
      by_cases hi : hashFunc key % t.m_size = i
      · subst hi
        rw [getD_set_self _ _ _ (h.index_lt key)] at he
        exact h.placed _ e (hsub.subset he)
      · rw [getD_set_other _ _ _ _ hi] at he
        exact h.placed i e he
    · intro i
      simp only
      by_cases hi : hashFunc key % t.m_size = i
      · subst hi
        rw [getD_set_self _ _ _ (h.index_lt key)]
        exact (h.distinct _).sublist hsub
      · rw [getD_set_other _ _ _ _ hi]
        exact h.distinct i
    · simp only [HashTbl.entries]
      rw [flatten_set _ _ _ (h.index_lt key), h.count_eq, HashTbl.entries,
        flatten_split _ _ (h.index_lt key)]
      simp only [List.length_append]
      omega

/-- The loop of `clear` empties every chain of an array of `n` chains. -/
theorem clear_loop (n : Nat) (table : List (List (HashEntry K V))) (hn : table.length = n) :
    (List.range n).foldl (fun table i => table.set i []) table = List.replicate n [] := by
  have key : ∀ m, m ≤ n →
      (List.range m).foldl (fun table i => table.set i []) table =
        List.replicate m [] ++ table.drop m := by
    intro m
    induction m with
    | zero => intro _; simp
    | succ m ih =>
      intro hm
      rw [List.range_succ, List.foldl_append, ih (by omega)]
      simp only [List.foldl_cons, List.foldl_nil]
      have hlen : (List.replicate m ([] : List (HashEntry K V))).length = m := by simp
      rw [List.set_append_right _ _ (by rw [hlen])]
      rw [hlen, Nat.sub_self]
      have hd : List.drop m table = table[m] :: List.drop (m + 1) table :=
        (List.drop_eq_getElem_cons (by omega)).trans rfl
      rw [hd, List.set_cons_zero, List.replicate_succ', List.append_assoc]
      rfl
  rw [key n (le_refl n), List.drop_eq_nil_of_le (by omega)]
  simp

theorem clear_table {t : HashTbl K V} (hlen : t.m_table.length = t.m_size) :
    t.clear.m_table = List.replicate t.m_size [] := by
  unfold HashTbl.clear
  exact clear_loop t.m_size t.m_table hlen

theorem inv_clear {t : HashTbl K V} (h : Inv hashFunc equalFunc t) :
    Inv hashFunc equalFunc t.clear := by
  have ht := clear_table h.length_eq
  have hs : t.clear.m_size = t.m_size := rfl
  have hc : t.clear.m_count = 0 := rfl
  refine ⟨by rw [hs]; exact h.size_pos, by rw [ht, hs]; simp, ?_, ?_, ?_⟩
  · intro i e he
    rw [ht, getD_replicate_nil] at he
    simp at he
  · intro i
    rw [ht, getD_replicate_nil]
    exact List.Pairwise.nil
  · rw [hc, HashTbl.entries, ht, flatten_replicate_nil]; rfl

theorem inv_at_assign {t t1 : HashTbl K V} (h : Inv hashFunc equalFunc t) (key : K) (data : V)
    (ha : HashTbl.at_assign hashFunc equalFunc t key data = .ok t1) :
    Inv hashFunc equalFunc t1 := by
  cases hc : chain_assign equalFunc key data (t.m_table.getD (hashFunc key % t.m_size) []) with
  | none => rw [at_assign_of_none t key data hc] at ha; cases ha
  | some c1 =>
    rw [at_assign_of_some t key data c1 hc] at ha
    cases ha
    exact inv_set_same_keys h key c1 (chain_assign_keys equalFunc key data _ c1 hc)

theorem inv_subscript [Inhabited V] {t : HashTbl K V} (h : Inv hashFunc equalFunc t)
    (hhash : ∀ a b, equalFunc a b = true → hashFunc a = hashFunc b) (key : K) :
    Inv hashFunc equalFunc (HashTbl.subscript hashFunc equalFunc t key).2 := by
  unfold HashTbl.subscript
  split
  · exact h
  · exact inv_insert h hhash key default

theorem inv_set_max_load_factor {t : HashTbl K V} (h : Inv hashFunc equalFunc t)
    (mlf : FloatVal) : Inv hashFunc equalFunc (t.set_max_load_factor mlf) :=
  ⟨h.size_pos, h.length_eq, h.placed, h.distinct, h.count_eq⟩

/-- Every reachable table satisfies the representation invariant. -/
theorem Reachable.inv [Inhabited V] {t : HashTbl K V}
    (hhash : ∀ a b, equalFunc a b = true → hashFunc a = hashFunc b)
    (h : Reachable hashFunc equalFunc t) : Inv hashFunc equalFunc t := by
  induction h with
  | construct sz => exact inv_construct sz
  | insert t key data _ ih => exact inv_insert ih hhash key data
  | erase t key _ ih => exact inv_erase ih key
  | clear t _ ih => exact inv_clear ih
  | subscript t key _ ih => exact inv_subscript ih hhash key
  | at_assign t t1 key data _ ha ih => exact inv_at_assign ih key data ha
  | set_max_load_factor t mlf _ ih => exact inv_set_max_load_factor ih mlf

end Invariant

/-! ## Lookups after `insert` and `rehash` -/

section Lookup

variable {K V : Type} {hashFunc : K → Nat} {equalFunc : K → K → Bool}

/-- The scan of the bucket of `key` sees what a scan of all entries would see. -/
theorem Inv.chain_find_bucket {t : HashTbl K V} (h : Inv hashFunc equalFunc t)
    (hhash : ∀ a b, equalFunc a b = true → hashFunc a = hashFunc b) (key : K) :
    chain_find equalFunc key (t.m_table.getD (hashFunc key % t.m_size) []) =
      chain_find equalFunc key t.entries := by
  rw [← filter_flatten_placed hashFunc t.m_size t.m_table h.placed (hashFunc key % t.m_size)]
  exact chain_find_filter equalFunc key _ _
    (fun e _ hk => by simp [hhash _ _ hk])

/-- A key is present exactly when the scan of its bucket finds it. -/
theorem Inv.present_iff {t : HashTbl K V} (h : Inv hashFunc equalFunc t)
    (hhash : ∀ a b, equalFunc a b = true → hashFunc a = hashFunc b) (key : K) :
    t.present equalFunc key ↔
      ∃ v, chain_find equalFunc key (t.m_table.getD (hashFunc key % t.m_size) []) = some v := by
  rw [h.chain_find_bucket hhash key, chain_find_isSome_iff]
  rfl

theorem Inv.not_present_iff {t : HashTbl K V} (h : Inv hashFunc equalFunc t)
    (hhash : ∀ a b, equalFunc a b = true → hashFunc a = hashFunc b) (key : K) :
    ¬ t.present equalFunc key ↔
      chain_find equalFunc key (t.m_table.getD (hashFunc key % t.m_size) []) = none := by
  rw [h.present_iff hhash key]
  cases chain_find equalFunc key (t.m_table.getD (hashFunc key % t.m_size) []) <;> simp

/-- Every entry of the table lies in the bucket of any key equal to its own, and the
scan of that bucket yields its data. -/
theorem Inv.bucket_find_of_mem {t : HashTbl K V} (h : Inv hashFunc equalFunc t)
    (hL : LawfulFunctors hashFunc equalFunc) (key : K) (e : HashEntry K V)
    (he : e ∈ t.entries) (hk : equalFunc e.m_key key = true) :
    chain_find equalFunc key (t.m_table.getD (hashFunc key % t.m_size) []) = some e.m_data := by
  obtain ⟨i, _, hmem⟩ := (mem_flatten_iff_getD _ e).1 he
  have hi := h.placed i e hmem
  rw [hL.hash_eq _ _ hk] at hi
  rw [hi]
  exact chain_find_of_mem equalFunc hL.symm hL.trans key _ (h.distinct i) e hmem hk

/-- A `rehash` does not change what `retrieve` answers. -/
theorem retrieve_rehash {t : HashTbl K V} (h : Inv hashFunc equalFunc t)
    (hhash : ∀ a b, equalFunc a b = true → hashFunc a = hashFunc b) (key : K) (data_item : V) :
    HashTbl.retrieve hashFunc equalFunc (HashTbl.rehash hashFunc t) key data_item =
      HashTbl.retrieve hashFunc equalFunc t key data_item := by
  obtain ⟨_, r2, _⟩ := rehash_table hashFunc t h.length_eq
  have e1 : chain_find equalFunc key ((HashTbl.rehash hashFunc t).m_table.getD
      (hashFunc key % (HashTbl.rehash hashFunc t).m_size) []) =
      chain_find equalFunc key t.entries := by
    have hs : (HashTbl.rehash hashFunc t).m_size = find_next_prime (t.m_size * 2) := rfl
    rw [hs, r2]
    exact chain_find_filter equalFunc key _ _ (fun e _ hk => by simp [hhash _ _ hk])
  have e2 := h.chain_find_bucket hhash key
  unfold HashTbl.retrieve
  simp only [e1, e2]

/-- What `retrieve` answers right after `insert` of the same key. -/
theorem retrieve_insert_self {t : HashTbl K V} (h : Inv hashFunc equalFunc t)
    (hL : LawfulFunctors hashFunc equalFunc) (key : K) (data data_item : V) :
    HashTbl.retrieve hashFunc equalFunc (HashTbl.insert hashFunc equalFunc t key data).2
      key data_item = (true, data) := by
  cases hc : chain_assign equalFunc key data (t.m_table.getD (hashFunc key % t.m_size) []) with
  | some c1 =>
    rw [insert_of_some t key data c1 hc]
    apply retrieve_of_some
    simp only
    rw [getD_set_self _ _ _ (h.index_lt key)]
    exact chain_find_assign_self equalFunc key data _ c1 hc
  | none =>
    have hnone := (chain_assign_eq_none_iff equalFunc key data _).1 hc
    have h1 := inv_push_back h key data hnone
    have hr : HashTbl.retrieve hashFunc equalFunc
        { t with
          m_table := push_back_at t.m_table (hashFunc key % t.m_size)
            { m_key := key, m_data := data }
          m_count := t.m_count + 1 } key data_item = (true, data) := by
      apply retrieve_of_some
      simp only
      rw [push_back_at_getD _ _ _ _ (h.index_lt key), if_pos rfl, chain_find_append, hnone]
      simp [chain_find, hL.refl]
    rw [insert_of_none t key data hc]
    split
    · simp only
      rw [retrieve_rehash h1 hL.hash_eq]
      exact hr
    · exact hr

/-- An `insert` under `key` leaves alone what `retrieve` answers for a key that
compares unequal. -/
theorem retrieve_insert_other {t : HashTbl K V} (h : Inv hashFunc equalFunc t)
    (hL : LawfulFunctors hashFunc equalFunc) (key key1 : K) (data data_item : V)
    (hne : equalFunc key key1 = false) :
    HashTbl.retrieve hashFunc equalFunc (HashTbl.insert hashFunc equalFunc t key data).2
      key1 data_item = HashTbl.retrieve hashFunc equalFunc t key1 data_item := by
  cases hc : chain_assign equalFunc key data (t.m_table.getD (hashFunc key % t.m_size) []) with
  | some c1 =>
    rw [insert_of_some t key data c1 hc]
    unfold HashTbl.retrieve
    simp only
    by_cases hb : hashFunc key % t.m_size = hashFunc key1 % t.m_size
    · rw [← hb, getD_set_self _ _ _ (h.index_lt key),
        chain_find_assign_other equalFunc hL.symm hL.trans key key1 data _ c1 hne hc]
    · rw [getD_set_other _ _ _ _ hb]
  | none =>
    have hnone := (chain_assign_eq_none_iff equalFunc key data _).1 hc
    have h1 := inv_push_back h key data hnone
    have hr : HashTbl.retrieve hashFunc equalFunc
        { t with
          m_table := push_back_at t.m_table (hashFunc key % t.m_size)
            { m_key := key, m_data := data }
          m_count := t.m_count + 1 } key1 data_item =
        HashTbl.retrieve hashFunc equalFunc t key1 data_item := by
      unfold HashTbl.retrieve
      simp only
      rw [push_back_at_getD _ _ _ _ (h.index_lt key)]
      by_cases hb : hashFunc key % t.m_size = hashFunc key1 % t.m_size
      · rw [if_pos hb, chain_find_append]
        cases chain_find equalFunc key1 (t.m_table.getD (hashFunc key1 % t.m_size) []) with
        | some v => rfl
        | none => simp [chain_find, hne]
      · rw [if_neg hb]
    rw [insert_of_none t key data hc]
    split
    · simp only
      rw [retrieve_rehash h1 hL.hash_eq]
      exact hr
    · exact hr

/-- The result of `insert` and the size afterwards, by the outcome of its scan. -/
theorem insert_fst_size {t : HashTbl K V} (key : K) (data : V) :
    (chain_find equalFunc key (t.m_table.getD (hashFunc key % t.m_size) []) = none →
      (HashTbl.insert hashFunc equalFunc t key data).1 = true ∧
      (HashTbl.insert hashFunc equalFunc t key data).2.size = t.size + 1) ∧
    ((∃ v, chain_find equalFunc key (t.m_table.getD (hashFunc key % t.m_size) []) = some v) →
      (HashTbl.insert hashFunc equalFunc t key data).1 = false ∧
      (HashTbl.insert hashFunc equalFunc t key data).2.size = t.size ∧
      (HashTbl.insert hashFunc equalFunc t key data).2.m_size = t.m_size) := by
  constructor
  · intro hnone
    have hc := (chain_assign_eq_none_iff equalFunc key data _).2 hnone
    rw [insert_of_none t key data hc]
    split <;> exact ⟨rfl, rfl⟩
  · rintro ⟨v, hv⟩
    cases hc : chain_assign equalFunc key data (t.m_table.getD (hashFunc key % t.m_size) []) with
    | none =>
      rw [chain_assign_eq_none_iff, hv] at hc
      exact absurd hc (by simp)
    | some c1 =>
      rw [insert_of_some t key data c1 hc]
      exact ⟨rfl, rfl, rfl⟩

end Lookup

/-! ## The claims -/

section Examples

theorem ex_lawful_nat : LawfulFunctors ex_hash_nat ex_equal_nat where
  refl := by intro a; simp [ex_equal_nat]
  symm := by intro a b h; simp [ex_equal_nat] at h ⊢; exact h.symm
  trans := by intro a b c h1 h2; simp [ex_equal_nat] at h1 h2 ⊢; exact h1.trans h2
  hash_eq := by intro a b h; simp [ex_equal_nat] at h; rw [h]

theorem ex_lawful_string : LawfulFunctors ex_hash_string ex_equal_string where
  refl := by intro a; simp [ex_equal_string]
  symm := by intro a b h; simp [ex_equal_string] at h ⊢; exact h.symm
  trans := by intro a b c h1 h2; simp [ex_equal_string] at h1 h2 ⊢; exact h1.trans h2
  hash_eq := by intro a b h; simp [ex_equal_string] at h; rw [h]

theorem ex_table_three_reachable : Reachable ex_hash_nat ex_equal_nat ex_table_three :=
  Reachable.insert _ 4 30 (Reachable.insert _ 2 20 (Reachable.insert _ 0 10 (Reachable.construct 1)))

theorem ex_table_a_reachable : Reachable ex_hash_string ex_equal_string ex_table_a :=
  Reachable.insert _ "a" 1 (Reachable.construct 10)

end Examples

section Claims

variable {K V : Type} {hashFunc : K → Nat} {equalFunc : K → K → Bool}

/-- C1. In every table reachable from `HashTbl(sz)`, with lawful functors, `retrieve` of
a key right after `insert` of that key with data `v` returns `true` and yields `v`,
whether the insert overwrote, appended, or appended and rehashed. -/
theorem insert_then_retrieve [Inhabited V] (hL : LawfulFunctors hashFunc equalFunc)
    (t : HashTbl K V) (hR : Reachable hashFunc equalFunc t) (key : K) (data data_item : V) :
    HashTbl.retrieve hashFunc equalFunc (HashTbl.insert hashFunc equalFunc t key data).2
      key data_item = (true, data) :=
  retrieve_insert_self (hR.inv hL.hash_eq) hL key data data_item

/-- Witness of C1 on an insert that rehashes: the fourth entry of a table of two chains
makes it grow to five chains. -/
theorem insert_then_retrieve_witness :
    (HashTbl.insert ex_hash_nat ex_equal_nat ex_table_three 7 70).2.m_size = 5 ∧
    HashTbl.retrieve ex_hash_nat ex_equal_nat
      (HashTbl.insert ex_hash_nat ex_equal_nat ex_table_three 7 70).2 7 0 = (true, 70) :=
  ⟨by decide, insert_then_retrieve ex_lawful_nat ex_table_three ex_table_three_reachable 7 70 0⟩

theorem retrieve_construct (sz : Nat) (key : K) (data_item : V) :
    HashTbl.retrieve hashFunc equalFunc (HashTbl.construct sz) key data_item =
      (false, data_item) := by
  apply retrieve_of_none
  simp [HashTbl.construct, getD_replicate_nil, chain_find]

/-- What `retrieve` answers tells whether the key is present. -/
theorem Inv.present_iff_retrieve {t : HashTbl K V} (h : Inv hashFunc equalFunc t)
    (hhash : ∀ a b, equalFunc a b = true → hashFunc a = hashFunc b) (key : K) (data_item : V) :
    t.present equalFunc key ↔
      (HashTbl.retrieve hashFunc equalFunc t key data_item).1 = true := by
  rw [h.present_iff hhash key]
  cases hc : chain_find equalFunc key (t.m_table.getD (hashFunc key % t.m_size) []) with
  | none => rw [retrieve_of_none t key data_item hc]; simp
  | some v => rw [retrieve_of_some t key data_item v hc]; simp

/-- C2. In every reachable table, with lawful functors: `insert` of a key that is present
returns `false`, makes the data stored under the key the new data, and leaves `size()`
and the capacity as they were; `insert` of a key that is not present returns `true`
and makes `size()` one more. Scenario: after `insert(a, v1)`, `insert(b, v2)`,
`insert(a, v3)` on a new table, for keys `a`, `b` that do not compare equal, the size
is 2, `retrieve(a)` yields `v3` and `retrieve(b)` yields `v2`. -/
theorem insert_overwrites_or_adds [Inhabited V] (hL : LawfulFunctors hashFunc equalFunc) :
    (∀ (t : HashTbl K V), Reachable hashFunc equalFunc t → ∀ (key : K) (data : V),
      (t.present equalFunc key →
        (HashTbl.insert hashFunc equalFunc t key data).1 = false ∧
        (∀ data_item, HashTbl.retrieve hashFunc equalFunc
          (HashTbl.insert hashFunc equalFunc t key data).2 key data_item = (true, data)) ∧
        (HashTbl.insert hashFunc equalFunc t key data).2.size = t.size ∧
        (HashTbl.insert hashFunc equalFunc t key data).2.m_size = t.m_size) ∧
      (¬ t.present equalFunc key →
        (HashTbl.insert hashFunc equalFunc t key data).1 = true ∧
        (HashTbl.insert hashFunc equalFunc t key data).2.size = t.size + 1)) ∧
    (∀ (sz : Nat) (a b : K) (v1 v2 v3 data_item : V), equalFunc a b = false →
      (HashTbl.insert hashFunc equalFunc
        (HashTbl.insert hashFunc equalFunc
          (HashTbl.insert hashFunc equalFunc (HashTbl.construct sz) a v1).2 b v2).2 a v3).2.size
        = 2 ∧
      HashTbl.retrieve hashFunc equalFunc
        (HashTbl.insert hashFunc equalFunc
          (HashTbl.insert hashFunc equalFunc
            (HashTbl.insert hashFunc equalFunc (HashTbl.construct sz) a v1).2 b v2).2 a v3).2
        a data_item = (true, v3) ∧
      HashTbl.retrieve hashFunc equalFunc
        (HashTbl.insert hashFunc equalFunc
          (HashTbl.insert hashFunc equalFunc
            (HashTbl.insert hashFunc equalFunc (HashTbl.construct sz) a v1).2 b v2).2 a v3).2
        b data_item = (true, v2)) := by
  have general : ∀ (t : HashTbl K V), Inv hashFunc equalFunc t → ∀ (key : K) (data : V),
      (t.present equalFunc key →
        (HashTbl.insert hashFunc equalFunc t key data).1 = false ∧
        (∀ data_item, HashTbl.retrieve hashFunc equalFunc
          (HashTbl.insert hashFunc equalFunc t key data).2 key data_item = (true, data)) ∧
        (HashTbl.insert hashFunc equalFunc t key data).2.size = t.size ∧
        (HashTbl.insert hashFunc equalFunc t key data).2.m_size = t.m_size) ∧
      (¬ t.present equalFunc key →
        (HashTbl.insert hashFunc equalFunc t key data).1 = true ∧
        (HashTbl.insert hashFunc equalFunc t key data).2.size = t.size + 1) := by
    intro t hI key data
    constructor
    · intro hp
      obtain ⟨h1, h2, h3⟩ := (@insert_fst_size K V hashFunc equalFunc t key data).2 ((hI.present_iff hL.hash_eq key).1 hp)
      exact ⟨h1, fun o => retrieve_insert_self hI hL key data o, h2, h3⟩
    · intro hp
      exact (@insert_fst_size K V hashFunc equalFunc t key data).1 ((hI.not_present_iff hL.hash_eq key).1 hp)
  refine ⟨fun t hR key data => general t (hR.inv hL.hash_eq) key data, ?_⟩
  intro sz a b v1 v2 v3 o hab
  have hba : equalFunc b a = false := by
    by_contra hc
    have := hL.symm b a (by simpa using hc)
    rw [hab] at this
    exact absurd this (by decide)
  have I0 : Inv hashFunc equalFunc (HashTbl.construct sz : HashTbl K V) := inv_construct sz
  have I1 := inv_insert I0 hL.hash_eq a v1
  have I2 := inv_insert I1 hL.hash_eq b v2
  -- first insert: `a` is new
  have p0 : ¬ (HashTbl.construct sz : HashTbl K V).present equalFunc a := by
    rw [I0.present_iff_retrieve hL.hash_eq a v1, retrieve_construct]; simp
  have s1 := ((general _ I0 a v1).2 p0).2
  -- second insert: `b` is new
  have p1 : ¬ (HashTbl.insert hashFunc equalFunc (HashTbl.construct sz) a v1).2.present
      equalFunc b := by
    rw [I1.present_iff_retrieve hL.hash_eq b v1, retrieve_insert_other I0 hL a b v1 v1 hab,
      retrieve_construct]; simp
  have s2 := ((general _ I1 b v2).2 p1).2
  -- third insert: `a` is present
  have p2 : (HashTbl.insert hashFunc equalFunc
      (HashTbl.insert hashFunc equalFunc (HashTbl.construct sz) a v1).2 b v2).2.present
      equalFunc a := by
    rw [I2.present_iff_retrieve hL.hash_eq a v1, retrieve_insert_other I1 hL b a v2 v1 hba,
      retrieve_insert_self I0 hL a v1 v1]
  obtain ⟨_, r3, s3, _⟩ := (general _ I2 a v3).1 p2
  refine ⟨?_, r3 o, ?_⟩
  · rw [s3, s2, s1]; rfl
  · rw [retrieve_insert_other I2 hL a b v3 o hab]
    exact retrieve_insert_self I1 hL b v2 o

/-- Witness of C2: the scenario with the keys `"a"` and `"b"`, which share a chain, and
an overwrite and an addition on the table holding `"a"`. -/
theorem insert_overwrites_or_adds_witness :
    ((HashTbl.insert ex_hash_string ex_equal_string ex_table_a "a" 3).1 = false ∧
      (∀ data_item, HashTbl.retrieve ex_hash_string ex_equal_string
        (HashTbl.insert ex_hash_string ex_equal_string ex_table_a "a" 3).2 "a" data_item
          = (true, 3)) ∧
      (HashTbl.insert ex_hash_string ex_equal_string ex_table_a "a" 3).2.size = ex_table_a.size ∧
      (HashTbl.insert ex_hash_string ex_equal_string ex_table_a "a" 3).2.m_size
        = ex_table_a.m_size) ∧
    ((HashTbl.insert ex_hash_string ex_equal_string ex_table_a "b" 2).1 = true ∧
      (HashTbl.insert ex_hash_string ex_equal_string ex_table_a "b" 2).2.size
        = ex_table_a.size + 1) ∧
    ((HashTbl.insert ex_hash_string ex_equal_string
        (HashTbl.insert ex_hash_string ex_equal_string
          (HashTbl.insert ex_hash_string ex_equal_string
            (HashTbl.construct 10 : HashTbl String Nat) "a" 1).2 "b" 2).2 "a" 3).2.size = 2 ∧
      HashTbl.retrieve ex_hash_string ex_equal_string
        (HashTbl.insert ex_hash_string ex_equal_string
          (HashTbl.insert ex_hash_string ex_equal_string
            (HashTbl.insert ex_hash_string ex_equal_string
              (HashTbl.construct 10 : HashTbl String Nat) "a" 1).2 "b" 2).2 "a" 3).2
        "a" 0 = (true, 3) ∧
      HashTbl.retrieve ex_hash_string ex_equal_string
        (HashTbl.insert ex_hash_string ex_equal_string
          (HashTbl.insert ex_hash_string ex_equal_string
            (HashTbl.insert ex_hash_string ex_equal_string
              (HashTbl.construct 10 : HashTbl String Nat) "a" 1).2 "b" 2).2 "a" 3).2
        "b" 0 = (true, 2)) :=
  ⟨(((insert_overwrites_or_adds ex_lawful_string).1 ex_table_a ex_table_a_reachable "a" 3).1
      ⟨⟨"a", 1⟩, by decide, by decide⟩),
    (((insert_overwrites_or_adds ex_lawful_string).1 ex_table_a ex_table_a_reachable "b" 2).2
      (by unfold HashTbl.present; decide)),
    (insert_overwrites_or_adds ex_lawful_string).2 10 "a" "b" 1 2 3 0 (by decide)⟩

end Claims

section Claims

variable {K V : Type} {hashFunc : K → Nat} {equalFunc : K → K → Bool}

/-- What `erase` does, by the outcome of its scan, in a table that meets the
invariant. -/
theorem erase_of_inv {t : HashTbl K V} (h : Inv hashFunc equalFunc t)
    (hL : LawfulFunctors hashFunc equalFunc) (key : K) :
    ((∃ v, chain_find equalFunc key (t.m_table.getD (hashFunc key % t.m_size) []) = some v) →
      (HashTbl.erase hashFunc equalFunc t key).1 = true ∧
      (∀ data_item, HashTbl.retrieve hashFunc equalFunc
        (HashTbl.erase hashFunc equalFunc t key).2 key data_item = (false, data_item)) ∧
      (HashTbl.erase hashFunc equalFunc t key).2.size + 1 = t.size) ∧
    (chain_find equalFunc key (t.m_table.getD (hashFunc key % t.m_size) []) = none →
      HashTbl.erase hashFunc equalFunc t key = (false, t)) ∧
    (HashTbl.erase hashFunc equalFunc t key).2.m_size = t.m_size := by
  refine ⟨?_, ?_, ?_⟩
  · rintro ⟨v, hv⟩
    cases hc : chain_erase equalFunc key (t.m_table.getD (hashFunc key % t.m_size) []) with
    | none =>
      rw [chain_erase_eq_none_iff, hv] at hc
      exact absurd hc (by simp)
    | some c1 =>
      rw [erase_of_some t key c1 hc]
      refine ⟨rfl, ?_, ?_⟩
      · intro o
        apply retrieve_of_none
        simp only
        rw [getD_set_self _ _ _ (h.index_lt key)]
        exact chain_find_erase_self equalFunc hL.symm hL.trans key _ c1 (h.distinct _) hc
      · obtain ⟨_, hlen⟩ := chain_erase_sublist equalFunc key _ c1 hc
        have hcount := h.count_eq
        rw [HashTbl.entries, flatten_split _ _ (h.index_lt key)] at hcount
        simp only [List.length_append] at hcount
        simp only [HashTbl.size]
        omega
  · intro hnone
    exact erase_of_none t key ((chain_erase_eq_none_iff equalFunc key _).2 hnone)
  · cases hc : chain_erase equalFunc key (t.m_table.getD (hashFunc key % t.m_size) []) with
    | none => rw [erase_of_none t key hc]
    | some c1 => rw [erase_of_some t key c1 hc]

/-- C3. In every reachable table, with lawful functors: `erase` of a key that is present
returns `true`, after it `retrieve` of the key returns `false` (and leaves its output
alone), and `size()` is one less; `erase` of a key that is not present returns `false`
and leaves the whole table as it was. The capacity is the same in both cases. -/
theorem erase_present_or_absent [Inhabited V] (hL : LawfulFunctors hashFunc equalFunc)
    (t : HashTbl K V) (hR : Reachable hashFunc equalFunc t) (key : K) :
    (t.present equalFunc key →
      (HashTbl.erase hashFunc equalFunc t key).1 = true ∧
      (∀ data_item, HashTbl.retrieve hashFunc equalFunc
        (HashTbl.erase hashFunc equalFunc t key).2 key data_item = (false, data_item)) ∧
      (HashTbl.erase hashFunc equalFunc t key).2.size + 1 = t.size) ∧
    (¬ t.present equalFunc key →
      HashTbl.erase hashFunc equalFunc t key = (false, t)) ∧
    (HashTbl.erase hashFunc equalFunc t key).2.m_size = t.m_size := by
  have hI := hR.inv hL.hash_eq
  obtain ⟨h1, h2, h3⟩ := erase_of_inv hI hL key
  exact ⟨fun hp => h1 ((hI.present_iff hL.hash_eq key).1 hp),
    fun hp => h2 ((hI.not_present_iff hL.hash_eq key).1 hp), h3⟩

/-- Witness of C3: on the table with keys `0`, `2`, `4` in one chain, `erase(2)` finds
its key and `erase(6)`, which scans the same chain, does not. -/
theorem erase_present_or_absent_witness :
    ((HashTbl.erase ex_hash_nat ex_equal_nat ex_table_three 2).1 = true ∧
      (∀ data_item, HashTbl.retrieve ex_hash_nat ex_equal_nat
        (HashTbl.erase ex_hash_nat ex_equal_nat ex_table_three 2).2 2 data_item
          = (false, data_item)) ∧
      (HashTbl.erase ex_hash_nat ex_equal_nat ex_table_three 2).2.size + 1
        = ex_table_three.size) ∧
    HashTbl.erase ex_hash_nat ex_equal_nat ex_table_three 6 = (false, ex_table_three) ∧
    (HashTbl.erase ex_hash_nat ex_equal_nat ex_table_three 2).2.m_size
      = ex_table_three.m_size :=
  ⟨(erase_present_or_absent ex_lawful_nat ex_table_three ex_table_three_reachable 2).1
      ⟨⟨2, 20⟩, by decide, by decide⟩,
    (erase_present_or_absent ex_lawful_nat ex_table_three ex_table_three_reachable 6).2.1
      (by unfold HashTbl.present; decide),
    (erase_present_or_absent ex_lawful_nat ex_table_three ex_table_three_reachable 2).2.2⟩

/-- C4. In every reachable table, with lawful functors: when an entry of the table, in
whatever chain, has a key that compares equal to the key searched, `retrieve` returns
`true` and its output is the data of that entry; when there is none, `retrieve` returns
`false` and its output has the content it had before the call. (`retrieve` is a `const`
member: it yields no new table.) -/
theorem retrieve_present_or_absent [Inhabited V] (hL : LawfulFunctors hashFunc equalFunc)
    (t : HashTbl K V) (hR : Reachable hashFunc equalFunc t) (key : K) (data_item : V) :
    (∀ e ∈ t.entries, equalFunc e.m_key key = true →
      HashTbl.retrieve hashFunc equalFunc t key data_item = (true, e.m_data)) ∧
    (¬ t.present equalFunc key →
      HashTbl.retrieve hashFunc equalFunc t key data_item = (false, data_item)) := by
  have hI := hR.inv hL.hash_eq
  constructor
  · intro e he hk
    exact retrieve_of_some t key data_item e.m_data (hI.bucket_find_of_mem hL key e he hk)
  · intro hp
    exact retrieve_of_none t key data_item ((hI.not_present_iff hL.hash_eq key).1 hp)

/-- Witness of C4: the entry `(4, 30)` is found behind two others of its chain; the key
`6`, which hashes to the same chain, is not found. -/
theorem retrieve_present_or_absent_witness :
    HashTbl.retrieve ex_hash_nat ex_equal_nat ex_table_three 4 0 = (true, 30) ∧
    HashTbl.retrieve ex_hash_nat ex_equal_nat ex_table_three 6 0 = (false, 0) :=
  ⟨(retrieve_present_or_absent ex_lawful_nat ex_table_three ex_table_three_reachable 4 0).1
      ⟨4, 30⟩ (by decide) (by decide),
    (retrieve_present_or_absent ex_lawful_nat ex_table_three ex_table_three_reachable 6 0).2
      (by unfold HashTbl.present; decide)⟩

/-- C5. In every reachable table, with lawful functors: `at` throws `std::out_of_range`
exactly when no entry has a key equal to the key searched; otherwise it returns the data
of the entry with that key. `at` leaves the table as it was, and after an assignment of
`w` through the reference it returns, `retrieve` of the key yields `(true, w)`. -/
theorem at_present_or_absent [Inhabited V] (hL : LawfulFunctors hashFunc equalFunc)
    (t : HashTbl K V) (hR : Reachable hashFunc equalFunc t) (key : K) :
    ((HashTbl.at_ hashFunc equalFunc t key).1 = .error .out_of_range ↔
      ¬ t.present equalFunc key) ∧
    (∀ e ∈ t.entries, equalFunc e.m_key key = true →
      (HashTbl.at_ hashFunc equalFunc t key).1 = .ok e.m_data) ∧
    (HashTbl.at_ hashFunc equalFunc t key).2 = t ∧
    (t.present equalFunc key → ∀ w, ∃ t1,
      HashTbl.at_assign hashFunc equalFunc t key w = .ok t1 ∧
      ∀ data_item, HashTbl.retrieve hashFunc equalFunc t1 key data_item = (true, w)) := by
  have hI := hR.inv hL.hash_eq
  refine ⟨?_, ?_, ?_, ?_⟩
  · rw [hI.not_present_iff hL.hash_eq key]
    cases hc : chain_find equalFunc key (t.m_table.getD (hashFunc key % t.m_size) []) with
    | none => rw [at_of_none t key hc]; simp
    | some v => rw [at_of_some t key v hc]; simp
  · intro e he hk
    rw [at_of_some t key e.m_data (hI.bucket_find_of_mem hL key e he hk)]
  · cases hc : chain_find equalFunc key (t.m_table.getD (hashFunc key % t.m_size) []) with
    | none => rw [at_of_none t key hc]
    | some v => rw [at_of_some t key v hc]
  · intro hp w
    obtain ⟨v, hv⟩ := (hI.present_iff hL.hash_eq key).1 hp
    cases hc : chain_assign equalFunc key w (t.m_table.getD (hashFunc key % t.m_size) []) with
    | none =>
      rw [chain_assign_eq_none_iff, hv] at hc
      exact absurd hc (by simp)
    | some c1 =>
      refine ⟨_, at_assign_of_some t key w c1 hc, ?_⟩
      intro o
      apply retrieve_of_some
      simp only
      rw [getD_set_self _ _ _ (hI.index_lt key)]
      exact chain_find_assign_self equalFunc key w _ c1 hc

/-- Witness of C5: `at(6)` throws on the table with keys `0`, `2`, `4`, and an assignment
through `at(4)` is seen by `retrieve(4)`. -/
theorem at_present_or_absent_witness :
    (HashTbl.at_ ex_hash_nat ex_equal_nat ex_table_three 6).1 = .error .out_of_range ∧
    (HashTbl.at_ ex_hash_nat ex_equal_nat ex_table_three 4).1 = .ok 30 ∧
    (∃ t1, HashTbl.at_assign ex_hash_nat ex_equal_nat ex_table_three 4 31 = .ok t1 ∧
      ∀ data_item, HashTbl.retrieve ex_hash_nat ex_equal_nat t1 4 data_item = (true, 31)) :=
  ⟨(at_present_or_absent ex_lawful_nat ex_table_three ex_table_three_reachable 6).1.2
      (by unfold HashTbl.present; decide),
    (at_present_or_absent ex_lawful_nat ex_table_three ex_table_three_reachable 4).2.1
      ⟨4, 30⟩ (by decide) (by decide),
    (at_present_or_absent ex_lawful_nat ex_table_three ex_table_three_reachable 4).2.2.2
      ⟨⟨4, 30⟩, by decide, by decide⟩ 31⟩

/-- What `at` returns when `retrieve` finds the key. -/
theorem at_of_retrieve (t : HashTbl K V) (key : K) (data_item v : V)
    (h : HashTbl.retrieve hashFunc equalFunc t key data_item = (true, v)) :
    HashTbl.at_ hashFunc equalFunc t key = (.ok v, t) := by
  cases hc : chain_find equalFunc key (t.m_table.getD (hashFunc key % t.m_size) []) with
  | none => rw [retrieve_of_none t key data_item hc] at h; cases h
  | some v1 =>
    rw [retrieve_of_some t key data_item v1 hc] at h
    cases h
    exact at_of_some t key v hc

/-- C6. In every reachable table, with lawful functors: `operator[]` never throws. For a
key that is present it returns the data stored and leaves the table as it was; for a key
that is not present it returns the default value of the data type, `size()` is one more
and `retrieve` of the key then yields that default, whether or not the insert inside
rehashes. -/
theorem subscript_present_or_absent [Inhabited V] (hL : LawfulFunctors hashFunc equalFunc)
    (t : HashTbl K V) (hR : Reachable hashFunc equalFunc t) (key : K) :
    (∃ v, (HashTbl.subscript hashFunc equalFunc t key).1 = .ok v) ∧
    (∀ e ∈ t.entries, equalFunc e.m_key key = true →
      HashTbl.subscript hashFunc equalFunc t key = (.ok e.m_data, t)) ∧
    (¬ t.present equalFunc key →
      (HashTbl.subscript hashFunc equalFunc t key).1 = .ok default ∧
      (HashTbl.subscript hashFunc equalFunc t key).2.size = t.size + 1 ∧
      (HashTbl.subscript hashFunc equalFunc t key).2 =
        (HashTbl.insert hashFunc equalFunc t key default).2 ∧
      ∀ data_item, HashTbl.retrieve hashFunc equalFunc
        (HashTbl.subscript hashFunc equalFunc t key).2 key data_item = (true, default)) := by
  have hI := hR.inv hL.hash_eq
  have hins := at_of_retrieve (HashTbl.insert hashFunc equalFunc t key default).2 key
    default default (retrieve_insert_self hI hL key default default)
  have hfound : ∀ v, chain_find equalFunc key
      (t.m_table.getD (hashFunc key % t.m_size) []) = some v →
      HashTbl.subscript hashFunc equalFunc t key = (.ok v, t) := by
    intro v hv
    simp only [HashTbl.subscript, at_of_some t key v hv]
  have hmiss : chain_find equalFunc key
      (t.m_table.getD (hashFunc key % t.m_size) []) = none →
      HashTbl.subscript hashFunc equalFunc t key =
        (.ok default, (HashTbl.insert hashFunc equalFunc t key default).2) := by
    intro hv
    simp only [HashTbl.subscript, at_of_none t key hv, hins]
  refine ⟨?_, ?_, ?_⟩
  · cases hc : chain_find equalFunc key (t.m_table.getD (hashFunc key % t.m_size) []) with
    | none => exact ⟨default, by rw [hmiss hc]⟩
    | some v => exact ⟨v, by rw [hfound v hc]⟩
  · intro e he hk
    exact hfound _ (hI.bucket_find_of_mem hL key e he hk)
  · intro hp
    have hnone := (hI.not_present_iff hL.hash_eq key).1 hp
    rw [hmiss hnone]
    refine ⟨rfl, ?_, rfl, fun o => retrieve_insert_self hI hL key default o⟩
    exact ((@insert_fst_size K V hashFunc equalFunc t key default).1 hnone).2

/-- Witness of C6: `operator[]` on the present key `4`, and on the absent key `7`, whose
insert makes the table of two chains grow to five. -/
theorem subscript_present_or_absent_witness :
    HashTbl.subscript ex_hash_nat ex_equal_nat ex_table_three 4 = (.ok 30, ex_table_three) ∧
    ((HashTbl.subscript ex_hash_nat ex_equal_nat ex_table_three 7).1 = .ok default ∧
      (HashTbl.subscript ex_hash_nat ex_equal_nat ex_table_three 7).2.size
        = ex_table_three.size + 1 ∧
      (HashTbl.subscript ex_hash_nat ex_equal_nat ex_table_three 7).2 =
        (HashTbl.insert ex_hash_nat ex_equal_nat ex_table_three 7 default).2 ∧
      ∀ data_item, HashTbl.retrieve ex_hash_nat ex_equal_nat
        (HashTbl.subscript ex_hash_nat ex_equal_nat ex_table_three 7).2 7 data_item
          = (true, default)) ∧
    (HashTbl.subscript ex_hash_nat ex_equal_nat ex_table_three 7).2.m_size = 5 :=
  ⟨(subscript_present_or_absent ex_lawful_nat ex_table_three ex_table_three_reachable 4).2.1
      ⟨4, 30⟩ (by decide) (by decide),
    (subscript_present_or_absent ex_lawful_nat ex_table_three ex_table_three_reachable 7).2.2
      (by unfold HashTbl.present; decide),
    by decide⟩

end Claims

section Claims

variable {K V : Type} {hashFunc : K → Nat} {equalFunc : K → K → Bool}

/-- C7. In a table of at least one chain, `count(key)` is the length of the chain at index
`hash(key) % capacity`. It is not the number of entries whose key equals `key`: on the
table holding the keys `0`, `2`, `4` in one chain it is `3` for the absent key `6`
(no entry equals it) and `3` for the present key `0` (one entry equals it). -/
theorem count_is_chain_length :
    (∀ (K V : Type) (hashFunc : K → Nat) (t : HashTbl K V) (key : K), 0 < t.m_size →
      HashTbl.count hashFunc t key = (t.m_table.getD (hashFunc key % t.m_size) []).length) ∧
    (¬ ex_table_three.present ex_equal_nat 6 ∧
      (ex_table_three.entries.filter (fun e => ex_equal_nat e.m_key 6)).length = 0 ∧
      HashTbl.count ex_hash_nat ex_table_three 6 = 3) ∧
    (ex_table_three.present ex_equal_nat 0 ∧
      (ex_table_three.entries.filter (fun e => ex_equal_nat e.m_key 0)).length = 1 ∧
      HashTbl.count ex_hash_nat ex_table_three 0 = 3) := by
  refine ⟨fun K V hashFunc t key _ => rfl, ⟨?_, by decide, by decide⟩,
    ⟨⟨⟨0, 10⟩, by decide, by decide⟩, by decide, by decide⟩⟩
  unfold HashTbl.present
  decide

/-- Witness of C7: `count(6)` on the table of two chains holding `0`, `2`, `4`. -/
theorem count_is_chain_length_witness :
    HashTbl.count ex_hash_nat ex_table_three 6 =
      (ex_table_three.m_table.getD (ex_hash_nat 6 % ex_table_three.m_size) []).length :=
  count_is_chain_length.1 Nat Nat ex_hash_nat ex_table_three 6 (by decide)

/-- C8, evaluated. `HashTbl(sz)` is empty and has `find_next_prime(sz)` chains, all empty;
for the prime request `11` this is `13`, not `11`, while a request of `10` gives `11`. -/
theorem construct_capacity :
    (∀ sz : Nat, (HashTbl.construct sz : HashTbl Nat Nat).m_count = 0 ∧
      (HashTbl.construct sz : HashTbl Nat Nat).m_size = find_next_prime sz ∧
      (HashTbl.construct sz : HashTbl Nat Nat).m_table = List.replicate (find_next_prime sz) []) ∧
    (HashTbl.construct 10 : HashTbl Nat Nat).m_size = 11 ∧
    (HashTbl.construct 11 : HashTbl Nat Nat).m_size = 13 ∧
    Nat.Prime 11 := by
  refine ⟨fun sz => ⟨rfl, rfl, rfl⟩, by decide, by decide, by norm_num⟩

/-- C9. `find_next_prime(n)` is `2` for `n ≤ 1`; for `n > 1` it is a prime, greater than
`n`, and no prime lies strictly between `n` and it. -/
theorem find_next_prime_is_next (n : Nat) :
    (n ≤ 1 → find_next_prime n = 2) ∧
    (1 < n → Nat.Prime (find_next_prime n) ∧ n < find_next_prime n ∧
      ∀ p, Nat.Prime p → ¬ (n < p ∧ p < find_next_prime n)) := by
  obtain ⟨h1, h2⟩ := find_next_prime_spec n
  refine ⟨h1, fun hn => ?_⟩
  obtain ⟨a, b, c⟩ := h2 hn
  exact ⟨a, b, fun p hp hlt => c p hp hlt.1 hlt.2⟩

/-- Witness of C9 at `1` and at the prime `11`. -/
theorem find_next_prime_is_next_witness :
    find_next_prime 1 = 2 ∧
    (Nat.Prime (find_next_prime 11) ∧ 11 < find_next_prime 11 ∧
      ∀ p, Nat.Prime p → ¬ (11 < p ∧ p < find_next_prime 11)) :=
  ⟨(find_next_prime_is_next 1).1 (by decide), (find_next_prime_is_next 11).2 (by decide)⟩

/-- C10. In every reachable table, with lawful functors, `rehash` keeps `size()`, keeps
what `retrieve` answers for every key, and keeps the entries up to their order (none is
lost or duplicated); the load factor setting stays and the capacity becomes
`find_next_prime(2 * capacity)`. -/
theorem rehash_preserves [Inhabited V] (hL : LawfulFunctors hashFunc equalFunc)
    (t : HashTbl K V) (hR : Reachable hashFunc equalFunc t) :
    (HashTbl.rehash hashFunc t).size = t.size ∧
    (∀ key data_item, HashTbl.retrieve hashFunc equalFunc (HashTbl.rehash hashFunc t)
      key data_item = HashTbl.retrieve hashFunc equalFunc t key data_item) ∧
    (HashTbl.rehash hashFunc t).entries.Perm t.entries ∧
    (HashTbl.rehash hashFunc t).m_max_load_factor = t.m_max_load_factor ∧
    (HashTbl.rehash hashFunc t).m_size = find_next_prime (t.m_size * 2) := by
  have hI := hR.inv hL.hash_eq
  exact ⟨rfl, fun key o => retrieve_rehash hI hL.hash_eq key o,
    (rehash_table hashFunc t hI.length_eq).2.2, rfl, rfl⟩

/-- Witness of C10: the table of two chains holding `0`, `2`, `4` in chain `0` becomes
one of five chains, its entries spread over three of them. -/
theorem rehash_preserves_witness :
    ((HashTbl.rehash ex_hash_nat ex_table_three).size = ex_table_three.size ∧
      (∀ key data_item, HashTbl.retrieve ex_hash_nat ex_equal_nat
        (HashTbl.rehash ex_hash_nat ex_table_three) key data_item =
          HashTbl.retrieve ex_hash_nat ex_equal_nat ex_table_three key data_item) ∧
      (HashTbl.rehash ex_hash_nat ex_table_three).entries.Perm ex_table_three.entries ∧
      (HashTbl.rehash ex_hash_nat ex_table_three).m_max_load_factor
        = ex_table_three.m_max_load_factor ∧
      (HashTbl.rehash ex_hash_nat ex_table_three).m_size
        = find_next_prime (ex_table_three.m_size * 2)) ∧
    (HashTbl.rehash ex_hash_nat ex_table_three).m_table =
      [[⟨0, 10⟩], [], [⟨2, 20⟩], [], [⟨4, 30⟩]] :=
  ⟨rehash_preserves ex_lawful_nat ex_table_three ex_table_three_reachable, by decide⟩

end Claims

/-! ## Growth, the list constructor and the invariants -/

section Growth

variable {K V : Type} {hashFunc : K → Nat} {equalFunc : K → K → Bool}

/-- Against the default threshold `1.0` the growth test holds exactly for a quotient of
at least `2`. -/
theorem lt_nat_default (q : Nat) : DEFAULT_MAX_LOAD_FACTOR.lt_nat q = true ↔ 2 ≤ q := by
  simp only [DEFAULT_MAX_LOAD_FACTOR, FloatVal.lt_nat, decide_eq_true_eq]
  rw [show (1 : ℚ) = ((1 : Nat) : ℚ) by norm_num, Nat.cast_lt]
  omega

/-- With the default threshold the growth test of `insert` holds exactly when the new
count is at least twice the capacity. -/
theorem growth_test_default (count size : Nat) (hpos : 0 < size) :
    DEFAULT_MAX_LOAD_FACTOR.lt_nat ((count + 1) / size) = true ↔ 2 * size ≤ count + 1 := by
  rw [lt_nat_default, Nat.le_div_iff_mul_le hpos]

/-- The capacity after `insert`: unchanged by an overwrite, and after an append decided
by the growth test. -/
theorem insert_m_size (t : HashTbl K V) (key : K) (data : V) :
    ((∃ v, chain_find equalFunc key (t.m_table.getD (hashFunc key % t.m_size) []) = some v) →
      (HashTbl.insert hashFunc equalFunc t key data).2.m_size = t.m_size) ∧
    (chain_find equalFunc key (t.m_table.getD (hashFunc key % t.m_size) []) = none →
      (HashTbl.insert hashFunc equalFunc t key data).2.m_size =
        if t.m_max_load_factor.lt_nat ((t.m_count + 1) / t.m_size) = true
        then find_next_prime (t.m_size * 2) else t.m_size) ∧
    (HashTbl.insert hashFunc equalFunc t key data).2.m_max_load_factor = t.m_max_load_factor ∧
    (HashTbl.insert hashFunc equalFunc t key data).2.m_count ≤ t.m_count + 1 := by
  cases hc : chain_assign equalFunc key data (t.m_table.getD (hashFunc key % t.m_size) []) with
  | some c1 =>
    rw [insert_of_some t key data c1 hc]
    refine ⟨fun _ => rfl, ?_, rfl, Nat.le_succ _⟩
    intro hnone
    rw [← chain_assign_eq_none_iff equalFunc key data, hc] at hnone
    cases hnone
  | none =>
    rw [insert_of_none t key data hc]
    refine ⟨?_, ?_, ?_, ?_⟩
    · rintro ⟨v, hv⟩
      rw [chain_assign_eq_none_iff, hv] at hc
      cases hc
    · intro _
      split <;> rfl
    · split <;> rfl
    · split <;> exact le_refl _

/-- With the default threshold, `insert` into a table that would hold less than twice
its capacity afterwards keeps the capacity. -/
theorem insert_default_no_growth (t : HashTbl K V) (key : K) (data : V)
    (hm : t.m_max_load_factor = DEFAULT_MAX_LOAD_FACTOR) (hpos : 0 < t.m_size)
    (hlt : t.m_count + 1 < 2 * t.m_size) :
    (HashTbl.insert hashFunc equalFunc t key data).2.m_size = t.m_size := by
  obtain ⟨h1, h2, _, _⟩ := @insert_m_size K V hashFunc equalFunc t key data
  cases hc : chain_find equalFunc key (t.m_table.getD (hashFunc key % t.m_size) []) with
  | some v => exact h1 ⟨v, hc⟩
  | none =>
    rw [h2 hc, hm, if_neg]
    rw [growth_test_default _ _ hpos]
    omega

end Growth

section Claims

variable {K V : Type} {hashFunc : K → Nat} {equalFunc : K → K → Bool}

/-- C11. In every reachable table whose `max_load_factor` is the default `1.0`, with
lawful functors, `insert` of a key that is not present makes the count `n = size() + 1`
and tests the integer quotient `n / capacity`: the capacity stays `c` when `n < 2 * c`
and becomes `find_next_prime(2 * c)`, which is not `c`, when `n ≥ 2 * c`. -/
theorem insert_growth_default [Inhabited V] (hL : LawfulFunctors hashFunc equalFunc)
    (t : HashTbl K V) (hR : Reachable hashFunc equalFunc t)
    (hm : t.max_load_factor = DEFAULT_MAX_LOAD_FACTOR) (key : K) (data : V)
    (hp : ¬ t.present equalFunc key) :
    (HashTbl.insert hashFunc equalFunc t key data).2.size = t.size + 1 ∧
    (t.m_max_load_factor.lt_nat ((t.size + 1) / t.m_size) = true ↔
      2 * t.m_size ≤ t.size + 1) ∧
    (t.size + 1 < 2 * t.m_size →
      (HashTbl.insert hashFunc equalFunc t key data).2.m_size = t.m_size) ∧
    (2 * t.m_size ≤ t.size + 1 →
      (HashTbl.insert hashFunc equalFunc t key data).2.m_size =
        find_next_prime (2 * t.m_size)) ∧
    ((HashTbl.insert hashFunc equalFunc t key data).2.m_size ≠ t.m_size ↔
      2 * t.m_size ≤ t.size + 1) := by
  have hI := hR.inv hL.hash_eq
  have hnone := (hI.not_present_iff hL.hash_eq key).1 hp
  have hm' : t.m_max_load_factor = DEFAULT_MAX_LOAD_FACTOR := hm
  have hsz := (@insert_m_size K V hashFunc equalFunc t key data).2.1 hnone
  have htest := growth_test_default t.m_count t.m_size hI.size_pos
  rw [hm'] at hsz
  have hgt : t.m_size < find_next_prime (t.m_size * 2) := by
    have := ((find_next_prime_spec (t.m_size * 2)).2 (by have := hI.size_pos; omega)).2.1
    omega
  have hsmall : t.m_count + 1 < 2 * t.m_size →
      (HashTbl.insert hashFunc equalFunc t key data).2.m_size = t.m_size := by
    intro h
    rw [hsz, if_neg (by rw [htest]; omega)]
  have hbig : 2 * t.m_size ≤ t.m_count + 1 →
      (HashTbl.insert hashFunc equalFunc t key data).2.m_size =
        find_next_prime (2 * t.m_size) := by
    intro h
    rw [hsz, if_pos (htest.2 h), Nat.mul_comm]
  refine ⟨((@insert_fst_size K V hashFunc equalFunc t key data).1 hnone).2, ?_, hsmall, hbig, ?_⟩
  · rw [hm']; exact htest
  · constructor
    · intro hne
      by_contra hc
      exact hne (hsmall (by simp only [HashTbl.size] at hc; omega))
    · intro h
      rw [hbig h, Nat.mul_comm]
      omega

/-- Witness of C11: the third key of a table of two chains leaves it at two chains, the
fourth makes it one of five. -/
theorem insert_growth_default_witness :
    ((HashTbl.insert ex_hash_nat ex_equal_nat ex_table_three 6 60).2.m_size =
        find_next_prime (2 * ex_table_three.m_size) ∧
      (HashTbl.insert ex_hash_nat ex_equal_nat ex_table_three 6 60).2.m_size = 5) ∧
    (HashTbl.insert ex_hash_nat ex_equal_nat
      (HashTbl.insert ex_hash_nat ex_equal_nat
        (HashTbl.insert ex_hash_nat ex_equal_nat (HashTbl.construct 1) 0 10).2 2 20).2
      4 30).2.m_size = 2 :=
  ⟨⟨(insert_growth_default ex_lawful_nat ex_table_three ex_table_three_reachable rfl 6 60
      (by unfold HashTbl.present; decide)).2.2.2.1 (by decide), by decide⟩,
    (insert_growth_default ex_lawful_nat _
      (Reachable.insert _ 2 20 (Reachable.insert _ 0 10 (Reachable.construct 1))) (by decide) 4 30
      (by unfold HashTbl.present; decide)).2.2.1 (by decide)⟩

/-- C12, evaluated. `HashTbl(1)` has two chains, and it still has two after any three
inserts, whatever the keys and the functors: with three entries the integer quotient
`3 / 2` is `1`, which is not greater than `1.0`. The fourth distinct key makes it grow. -/
theorem three_inserts_no_rehash :
    (HashTbl.construct 1 : HashTbl K V).m_size = 2 ∧
    (∀ (k1 k2 k3 : K) (v1 v2 v3 : V),
      (HashTbl.insert hashFunc equalFunc
        (HashTbl.insert hashFunc equalFunc
          (HashTbl.insert hashFunc equalFunc (HashTbl.construct 1) k1 v1).2 k2 v2).2
        k3 v3).2.m_size = 2) ∧
    (ex_table_three.m_size = 2 ∧ ex_table_three.size = 3 ∧
      ex_table_three.m_table = [[⟨0, 10⟩, ⟨2, 20⟩, ⟨4, 30⟩], []] ∧
      (HashTbl.insert ex_hash_nat ex_equal_nat ex_table_three 6 60).2.m_size = 5) := by
  have h2 : (HashTbl.construct 1 : HashTbl K V).m_size = 2 := by
    show find_next_prime 1 = 2
    decide
  refine ⟨h2, ?_, by decide, by decide, by decide, by decide⟩
  intro k1 k2 k3 v1 v2 v3
  have f0 : ∀ (t : HashTbl K V) (k : K) (v : V) (c : Nat),
      t.m_size = 2 → t.m_max_load_factor = DEFAULT_MAX_LOAD_FACTOR → t.m_count ≤ c → c < 3 →
      (HashTbl.insert hashFunc equalFunc t k v).2.m_size = 2 ∧
      (HashTbl.insert hashFunc equalFunc t k v).2.m_max_load_factor = DEFAULT_MAX_LOAD_FACTOR ∧
      (HashTbl.insert hashFunc equalFunc t k v).2.m_count ≤ c + 1 := by
    intro t k v c hs hm hc hc3
    obtain ⟨_, _, h3, h4⟩ := @insert_m_size K V hashFunc equalFunc t k v
    refine ⟨?_, by rw [h3, hm], by omega⟩
    rw [insert_default_no_growth t k v hm (by omega) (by omega), hs]
  obtain ⟨a1, a2, a3⟩ := f0 (HashTbl.construct 1) k1 v1 0 h2 rfl (le_refl _) (by decide)
  obtain ⟨b1, b2, b3⟩ := f0 _ k2 v2 1 a1 a2 a3 (by decide)
  exact (f0 _ k3 v3 2 b1 b2 b3 (by decide)).1

end Claims

section ListConstructor

variable {K V : Type} {hashFunc : K → Nat} {equalFunc : K → K → Bool}

/-- Keys that compare equal are found alike by the scan of a chain. -/
theorem chain_find_congr (hL : LawfulFunctors hashFunc equalFunc) (key key1 : K)
    (hk : equalFunc key key1 = true) (c : List (HashEntry K V)) :
    chain_find equalFunc key1 c = chain_find equalFunc key c := by
  induction c with
  | nil => rfl
  | cons a c ih =>
    unfold chain_find
    by_cases h : equalFunc a.m_key key = true
    · rw [if_pos h, if_pos (hL.trans _ _ _ h hk)]
    · have h1 : ¬ equalFunc a.m_key key1 = true :=
        fun h1 => h (hL.trans _ _ _ h1 (hL.symm _ _ hk))
      rw [if_neg h, if_neg h1, ih]

/-- Keys that compare equal get the same answer from `retrieve`. -/
theorem retrieve_congr (hL : LawfulFunctors hashFunc equalFunc) (t : HashTbl K V)
    (key key1 : K) (hk : equalFunc key key1 = true) (data_item : V) :
    HashTbl.retrieve hashFunc equalFunc t key1 data_item =
      HashTbl.retrieve hashFunc equalFunc t key data_item := by
  unfold HashTbl.retrieve
  simp only [← hL.hash_eq _ _ hk, chain_find_congr hL key key1 hk]

/-- One turn of the loop of the constructor from a list. -/
theorem ilist_loop_cons (element : HashEntry K V) (rest : List (HashEntry K V)) (i : Nat)
    (t : HashTbl K V) (h : i < t.m_size) :
    HashTbl.ilist_loop hashFunc equalFunc (element :: rest) i t =
      HashTbl.ilist_loop hashFunc equalFunc rest (i + 1)
        (HashTbl.insert hashFunc equalFunc t element.m_key element.m_data).2 := by
  simp only [HashTbl.ilist_loop, if_pos h]

/-- With the default threshold the loop of the constructor from a list inserts every
pair of the list, and the capacity stays the length of the list. -/
theorem ilist_loop_default :
    ∀ (rest : List (HashEntry K V)) (i : Nat) (t : HashTbl K V),
      t.m_max_load_factor = DEFAULT_MAX_LOAD_FACTOR → t.m_size = i + rest.length →
      t.m_count ≤ i →
      HashTbl.ilist_loop hashFunc equalFunc rest i t =
        some (rest.foldl
          (fun t e => (HashTbl.insert hashFunc equalFunc t e.m_key e.m_data).2) t) ∧
      (rest.foldl
          (fun t e => (HashTbl.insert hashFunc equalFunc t e.m_key e.m_data).2) t).m_size
        = t.m_size := by
  intro rest
  induction rest with
  | nil =>
    intro i t _ hs _
    simp only [List.length_nil, Nat.add_zero] at hs
    simp [HashTbl.ilist_loop, hs]
  | cons e rest ih =>
    intro i t hm hs hc
    simp only [List.length_cons] at hs
    have hpos : 0 < t.m_size := by omega
    obtain ⟨_, _, h3, h4⟩ := @insert_m_size K V hashFunc equalFunc t e.m_key e.m_data
    have h5 := @insert_default_no_growth K V hashFunc equalFunc t e.m_key e.m_data hm hpos
      (by omega)
    obtain ⟨r1, r2⟩ := ih (i + 1) (HashTbl.insert hashFunc equalFunc t e.m_key e.m_data).2
      (by rw [h3, hm]) (by rw [h5]; omega) (by omega)
    rw [ilist_loop_cons e rest i t (by omega), List.foldl_cons]
    exact ⟨r1, by rw [r2, h5]⟩

theorem first_keys_snoc (keys : List K) (k : K) :
    first_keys equalFunc (keys ++ [k]) =
      if (first_keys equalFunc keys).any (fun s => equalFunc s k) = true
      then first_keys equalFunc keys else first_keys equalFunc keys ++ [k] := by
  simp [first_keys, List.foldl_append]

theorem last_value_snoc (ilist : List (HashEntry K V)) (e : HashEntry K V) (key : K) :
    last_value equalFunc (ilist ++ [e]) key =
      if equalFunc e.m_key key = true then some e.m_data
      else last_value equalFunc ilist key := by
  simp [last_value, List.foldl_append]

/-- A key has a last value in a list exactly when a pair of the list has a key that
compares equal to it. -/
theorem last_value_isSome_iff (ilist : List (HashEntry K V)) (key : K) :
    (∃ v, last_value equalFunc ilist key = some v) ↔
      ∃ e ∈ ilist, equalFunc e.m_key key = true := by
  induction ilist using List.reverseRecOn with
  | nil => simp [last_value]
  | append_singleton l e ih =>
    rw [last_value_snoc]
    by_cases h : equalFunc e.m_key key = true
    · rw [if_pos h]
      exact ⟨fun _ => ⟨e, by simp, h⟩, fun _ => ⟨_, rfl⟩⟩
    · rw [if_neg h, ih]
      constructor
      · rintro ⟨a, ha, hk⟩
        exact ⟨a, by simp [ha], hk⟩
      · rintro ⟨a, ha, hk⟩
        rcases List.mem_append.1 ha with h1 | h1
        · exact ⟨a, h1, hk⟩
        · simp only [List.mem_singleton] at h1
          subst h1
          exact absurd hk h

/-- A key compares equal to one of the first keys of a list exactly when it compares
equal to one of its keys. -/
theorem first_keys_any_iff (hL : LawfulFunctors hashFunc equalFunc) (keys : List K) (key : K) :
    (first_keys equalFunc keys).any (fun s => equalFunc s key) = true ↔
      ∃ k ∈ keys, equalFunc k key = true := by
  induction keys using List.reverseRecOn with
  | nil => simp [first_keys]
  | append_singleton l x ih =>
    rw [first_keys_snoc]
    by_cases hx : (first_keys equalFunc l).any (fun s => equalFunc s x) = true
    · rw [if_pos hx, ih]
      constructor
      · rintro ⟨k, hk, h⟩
        exact ⟨k, by simp [hk], h⟩
      · rintro ⟨k, hk, h⟩
        rcases List.mem_append.1 hk with h1 | h1
        · exact ⟨k, h1, h⟩
        · simp only [List.mem_singleton] at h1
          subst h1
          obtain ⟨s, hs, hsx⟩ := List.any_eq_true.1 hx
          rw [← ih]
          exact List.any_eq_true.2 ⟨s, hs, hL.trans _ _ _ hsx h⟩
    · rw [if_neg hx, List.any_append, Bool.or_eq_true, ih]
      constructor
      · rintro (⟨k, hk, h⟩ | h)
        · exact ⟨k, by simp [hk], h⟩
        · exact ⟨x, by simp, by simpa using h⟩
      · rintro ⟨k, hk, h⟩
        rcases List.mem_append.1 hk with h1 | h1
        · exact Or.inl ⟨k, h1, h⟩
        · simp only [List.mem_singleton] at h1
          subst h1
          exact Or.inr (by simpa using h)

/-- What `retrieve` answers right after `insert` of a key that compares equal. -/
theorem retrieve_insert_equal {t : HashTbl K V} (h : Inv hashFunc equalFunc t)
    (hL : LawfulFunctors hashFunc equalFunc) (key key1 : K) (data data_item : V)
    (hk : equalFunc key key1 = true) :
    HashTbl.retrieve hashFunc equalFunc (HashTbl.insert hashFunc equalFunc t key data).2
      key1 data_item = (true, data) := by
  rw [retrieve_congr hL _ key key1 hk]
  exact retrieve_insert_self h hL key data data_item

/-- The table after inserting, one after the other, the pairs of a list into an empty
table: what `retrieve` answers and the size. -/
theorem foldl_insert_spec (hL : LawfulFunctors hashFunc equalFunc) (t0 : HashTbl K V)
    (h0 : Inv hashFunc equalFunc t0) (hsize : t0.size = 0)
    (hempty : ∀ key data_item,
      HashTbl.retrieve hashFunc equalFunc t0 key data_item = (false, data_item))
    (ilist : List (HashEntry K V)) :
    Inv hashFunc equalFunc (ilist.foldl
      (fun t e => (HashTbl.insert hashFunc equalFunc t e.m_key e.m_data).2) t0) ∧
    (∀ key data_item, HashTbl.retrieve hashFunc equalFunc (ilist.foldl
        (fun t e => (HashTbl.insert hashFunc equalFunc t e.m_key e.m_data).2) t0)
        key data_item =
      match last_value equalFunc ilist key with
      | some v => (true, v)
      | none => (false, data_item)) ∧
    (ilist.foldl
      (fun t e => (HashTbl.insert hashFunc equalFunc t e.m_key e.m_data).2) t0).size =
      distinct_keys equalFunc (ilist.map (fun e => e.m_key)) := by
  induction ilist using List.reverseRecOn with
  | nil =>
    refine ⟨h0, ?_, ?_⟩
    · intro key o
      simp only [List.foldl_nil, last_value]
      exact hempty key o
    · simp [hsize, distinct_keys, first_keys]
  | append_singleton l e ih =>
    obtain ⟨i1, i2, i3⟩ := ih
    simp only [List.foldl_append, List.foldl_cons, List.foldl_nil]
    refine ⟨inv_insert i1 hL.hash_eq _ _, ?_, ?_⟩
    · intro key o
      rw [last_value_snoc]
      by_cases hk : equalFunc e.m_key key = true
      · rw [if_pos hk]
        exact retrieve_insert_equal i1 hL _ key _ o hk
      · rw [if_neg hk, retrieve_insert_other i1 hL _ key _ o (by simpa using hk)]
        exact i2 key o
    · have hpres : (l.foldl (fun t e => (HashTbl.insert hashFunc equalFunc t e.m_key e.m_data).2)
          t0).present equalFunc e.m_key ↔
          (first_keys equalFunc (l.map (fun e => e.m_key))).any
            (fun s => equalFunc s e.m_key) = true := by
        rw [first_keys_any_iff hL, i1.present_iff_retrieve hL.hash_eq e.m_key e.m_data, i2]
        have := @last_value_isSome_iff K V equalFunc l e.m_key
        constructor
        · intro h
          cases hv : last_value equalFunc l e.m_key with
          | none => rw [hv] at h; simp at h
          | some v =>
            obtain ⟨a, ha, hk⟩ := this.1 ⟨v, hv⟩
            exact ⟨a.m_key, List.mem_map_of_mem _ ha, hk⟩
        · rintro ⟨k, hk, hkk⟩
          obtain ⟨a, ha, rfl⟩ := List.mem_map.1 hk
          obtain ⟨v, hv⟩ := this.2 ⟨a, ha, hkk⟩
          rw [hv]
      simp only [distinct_keys, List.map_append, List.map_cons, List.map_nil] at i3 ⊢
      rw [first_keys_snoc]
      obtain ⟨f1, f2⟩ := @insert_fst_size K V hashFunc equalFunc
        (l.foldl (fun t e => (HashTbl.insert hashFunc equalFunc t e.m_key e.m_data).2) t0)
        e.m_key e.m_data
      by_cases hp : (l.foldl (fun t e => (HashTbl.insert hashFunc equalFunc t e.m_key e.m_data).2)
          t0).present equalFunc e.m_key
      · rw [if_pos (hpres.1 hp), (f2 ((i1.present_iff hL.hash_eq _).1 hp)).2.1, i3]
      · rw [if_neg (fun h => hp (hpres.2 h)), (f1 ((i1.not_present_iff hL.hash_eq _).1 hp)).2, i3]
        simp

/-- The array a constructor from a list starts from meets the invariant when the list
is not empty. -/
theorem inv_replicate (n : Nat) (hn : 0 < n) (mlf : FloatVal) :
    Inv hashFunc equalFunc
      ({ m_size := n, m_count := 0, m_max_load_factor := mlf,
         m_table := List.replicate n [] } : HashTbl K V) where
  size_pos := hn
  length_eq := by simp
  placed := by
    intro i e he
    simp [getD_replicate_nil] at he
  distinct := by
    intro i
    simp [getD_replicate_nil]
  count_eq := by
    simp [HashTbl.entries, flatten_replicate_nil]

/-- C13. For every list of pairs, with lawful functors, the constructor from a list
completes with a table whose capacity is the length of the list (the loop, whose bound
is the capacity, would read past the list had the table grown), whose `size()` is the
number of distinct keys of the list, and in which `retrieve` of the key of any pair of
the list yields the data of the last pair with that key. -/
theorem construct_list_spec (hL : LawfulFunctors hashFunc equalFunc)
    (ilist : List (HashEntry K V)) :
    ∃ t, HashTbl.construct_list hashFunc equalFunc ilist = some t ∧
      t.m_size = ilist.length ∧
      t.size = distinct_keys equalFunc (ilist.map (fun e => e.m_key)) ∧
      ∀ e ∈ ilist, ∃ v, last_value equalFunc ilist e.m_key = some v ∧
        ∀ data_item, HashTbl.retrieve hashFunc equalFunc t e.m_key data_item = (true, v) := by
  obtain ⟨l1, l2⟩ := @ilist_loop_default K V hashFunc equalFunc ilist 0
    { m_size := ilist.length, m_count := 0, m_max_load_factor := DEFAULT_MAX_LOAD_FACTOR,
      m_table := List.replicate ilist.length [] } rfl (by simp) (le_refl _)
  refine ⟨_, l1, l2, ?_⟩
  cases hl : ilist with
  | nil => simp [distinct_keys, first_keys, HashTbl.size]
  | cons a rest =>
    rw [← hl]
    have hpos : 0 < ilist.length := by rw [hl]; simp
    obtain ⟨_, f2, f3⟩ := foldl_insert_spec hL
      ({ m_size := ilist.length, m_count := 0, m_max_load_factor := DEFAULT_MAX_LOAD_FACTOR,
         m_table := List.replicate ilist.length [] } : HashTbl K V)
      (inv_replicate ilist.length hpos _) rfl
      (fun key o => retrieve_of_none _ key o (by simp [getD_replicate_nil, chain_find])) ilist
    refine ⟨f3, ?_⟩
    intro e he
    obtain ⟨v, hv⟩ := (@last_value_isSome_iff K V equalFunc ilist e.m_key).2
      ⟨e, he, hL.refl _⟩
    refine ⟨v, hv, fun o => ?_⟩
    rw [f2 e.m_key o, hv]

/-- Witness of C13: four pairs, the key `1` twice, all keys in chain `1` of four. -/
theorem construct_list_spec_witness :
    (∃ t, HashTbl.construct_list ex_hash_nat ex_equal_nat ex_ilist = some t ∧
      t.m_size = ex_ilist.length ∧
      t.size = distinct_keys ex_equal_nat (ex_ilist.map (fun e => e.m_key)) ∧
      ∀ e ∈ ex_ilist, ∃ v, last_value ex_equal_nat ex_ilist e.m_key = some v ∧
        ∀ data_item, HashTbl.retrieve ex_hash_nat ex_equal_nat t e.m_key data_item
          = (true, v)) ∧
    HashTbl.construct_list ex_hash_nat ex_equal_nat ex_ilist =
      some { m_size := 4, m_count := 3, m_max_load_factor := DEFAULT_MAX_LOAD_FACTOR,
             m_table := [[], [⟨1, 11⟩, ⟨5, 50⟩, ⟨9, 90⟩], [], []] } ∧
    distinct_keys ex_equal_nat (ex_ilist.map (fun e => e.m_key)) = 3 ∧
    last_value ex_equal_nat ex_ilist 1 = some 11 :=
  ⟨construct_list_spec ex_lawful_nat ex_ilist, by decide, by decide, by decide⟩

end ListConstructor

section Claims

variable {K V : Type} {hashFunc : K → Nat} {equalFunc : K → K → Bool}

/-- C14. On every table (an array of `m_size` chains), after `clear()` every chain is
empty, `size()` is `0` and `empty()` is `true`, the capacity and the maximum load factor
are what they were, and, where the bucket index is defined, `retrieve` returns `false`
for every key and leaves its output alone. -/
theorem clear_spec (t : HashTbl K V) (hlen : t.m_table.length = t.m_size) :
    t.clear.m_table = List.replicate t.m_size [] ∧
    (∀ chain ∈ t.clear.m_table, chain = []) ∧
    t.clear.entries = [] ∧
    t.clear.size = 0 ∧
    t.clear.empty = true ∧
    (0 < t.m_size → ∀ (hashFunc : K → Nat) (equalFunc : K → K → Bool) (key : K) (data_item : V),
      HashTbl.retrieve hashFunc equalFunc t.clear key data_item = (false, data_item)) ∧
    t.clear.m_size = t.m_size ∧
    t.clear.max_load_factor = t.max_load_factor := by
  have ht := clear_table hlen
  refine ⟨ht, ?_, ?_, rfl, rfl, ?_, rfl, rfl⟩
  · intro chain hc
    rw [ht] at hc
    exact (List.mem_replicate.1 hc).2
  · rw [HashTbl.entries, ht, flatten_replicate_nil]
  · intro _ hashFunc equalFunc key o
    apply retrieve_of_none
    rw [ht, getD_replicate_nil]
    rfl

/-- Witness of C14 on the table of two chains holding `0`, `2`, `4`. -/
theorem clear_spec_witness :
    ex_table_three.clear.m_table = [[], []] ∧
    ex_table_three.clear.size = 0 ∧
    ex_table_three.clear.empty = true ∧
    (∀ (hashFunc : Nat → Nat) (equalFunc : Nat → Nat → Bool) (key : Nat) (data_item : Nat),
      HashTbl.retrieve hashFunc equalFunc ex_table_three.clear key data_item
        = (false, data_item)) ∧
    ex_table_three.clear.m_size = 2 ∧
    ex_table_three.clear.max_load_factor = DEFAULT_MAX_LOAD_FACTOR :=
  ⟨(clear_spec ex_table_three (by decide)).1,
    (clear_spec ex_table_three (by decide)).2.2.2.1,
    (clear_spec ex_table_three (by decide)).2.2.2.2.1,
    (clear_spec ex_table_three (by decide)).2.2.2.2.2.1 (by decide),
    (clear_spec ex_table_three (by decide)).2.2.2.2.2.2.1,
    (clear_spec ex_table_three (by decide)).2.2.2.2.2.2.2⟩

end Claims

section InvariantAny

variable {K V : Type} {hashFunc : K → Nat} {equalFunc eqI : K → K → Bool}

/-- Replacing the chain of `key` by what is left of it after one entry is taken out,
and counting one entry less, keeps the invariant. -/
theorem inv_set_sublist {t : HashTbl K V} (h : Inv hashFunc eqI t) (key : K)
    (c1 : List (HashEntry K V))
    (hsub : c1.Sublist (t.m_table.getD (hashFunc key % t.m_size) []))
    (hlen : c1.length + 1 = (t.m_table.getD (hashFunc key % t.m_size) []).length) :
    Inv hashFunc eqI
      { t with
        m_table := t.m_table.set (hashFunc key % t.m_size) c1
        m_count := t.m_count - 1 } := by
  refine ⟨h.size_pos, by simp [h.length_eq], ?_, ?_, ?_⟩
  · intro i e he
    simp only at he ⊢
    by_cases hi : hashFunc key % t.m_size = i
    · subst hi
      rw [getD_set_self _ _ _ (h.index_lt key)] at he
      exact h.placed _ e (hsub.subset he)
    · rw [getD_set_other _ _ _ _ hi] at he
      exact h.placed i e he
  · intro i
    simp only
    by_cases hi : hashFunc key % t.m_size = i
    · subst hi
      rw [getD_set_self _ _ _ (h.index_lt key)]
      exact (h.distinct _).sublist hsub
    · rw [getD_set_other _ _ _ _ hi]
      exact h.distinct i
  · simp only [HashTbl.entries]
    rw [flatten_set _ _ _ (h.index_lt key), h.count_eq, HashTbl.entries,
      flatten_split _ _ (h.index_lt key)]
    simp only [List.length_append]
    omega

/-- The invariant stated with a comparison `eqI` finer than the one the table is run
with is kept by `insert`. -/
theorem inv_insert_finer {t : HashTbl K V} (h : Inv hashFunc eqI t)
    (himp : ∀ a b, eqI a b = true → equalFunc a b = true)
    (hhash : ∀ a b, eqI a b = true → hashFunc a = hashFunc b) (key : K) (data : V) :
    Inv hashFunc eqI (HashTbl.insert hashFunc equalFunc t key data).2 := by
  cases hc : chain_assign equalFunc key data (t.m_table.getD (hashFunc key % t.m_size) []) with
  | some c1 =>
    rw [insert_of_some t key data c1 hc]
    exact inv_set_same_keys h key c1 (chain_assign_keys equalFunc key data _ c1 hc)
  | none =>
    have hnone := (chain_assign_eq_none_iff equalFunc key data _).1 hc
    have hnoneI : chain_find eqI key (t.m_table.getD (hashFunc key % t.m_size) []) = none := by
      rw [chain_find_eq_none_iff] at hnone ⊢
      intro e he
      by_contra hk
      have := himp _ _ (by simpa using hk)
      rw [hnone e he] at this
      exact absurd this (by decide)
    have h1 := inv_push_back h key data hnoneI
    rw [insert_of_none t key data hc]
    split
    · exact inv_rehash h1 hhash
    · exact h1

theorem inv_erase_finer {t : HashTbl K V} (h : Inv hashFunc eqI t) (key : K) :
    Inv hashFunc eqI (HashTbl.erase hashFunc equalFunc t key).2 := by
  cases hc : chain_erase equalFunc key (t.m_table.getD (hashFunc key % t.m_size) []) with
  | none => rw [erase_of_none t key hc]; exact h
  | some c1 =>
    rw [erase_of_some t key c1 hc]
    obtain ⟨hsub, hlen⟩ := chain_erase_sublist equalFunc key _ c1 hc
    exact inv_set_sublist h key c1 hsub hlen

theorem inv_at_assign_finer {t t1 : HashTbl K V} (h : Inv hashFunc eqI t) (key : K) (data : V)
    (ha : HashTbl.at_assign hashFunc equalFunc t key data = .ok t1) :
    Inv hashFunc eqI t1 := by
  cases hc : chain_assign equalFunc key data (t.m_table.getD (hashFunc key % t.m_size) []) with
  | none => rw [at_assign_of_none t key data hc] at ha; cases ha
  | some c1 =>
    rw [at_assign_of_some t key data c1 hc] at ha
    cases ha
    exact inv_set_same_keys h key c1 (chain_assign_keys equalFunc key data _ c1 hc)

theorem inv_subscript_finer [Inhabited V] {t : HashTbl K V} (h : Inv hashFunc eqI t)
    (himp : ∀ a b, eqI a b = true → equalFunc a b = true)
    (hhash : ∀ a b, eqI a b = true → hashFunc a = hashFunc b) (key : K) :
    Inv hashFunc eqI (HashTbl.subscript hashFunc equalFunc t key).2 := by
  unfold HashTbl.subscript
  split
  · exact h
  · exact inv_insert_finer h himp hhash key default

/-- The loop of the copy constructor rebuilds the array it reads. -/
theorem copy_loop (n : Nat) (src : List (List (HashEntry K V))) (hn : src.length = n) :
    (List.range n).foldl
      (fun table i => (src.getD i []).foldl
        (fun table element => push_back_at table i element) table)
      (List.replicate n []) = src := by
  have inner : ∀ (c : List (HashEntry K V)) (table : List (List (HashEntry K V))) (i : Nat),
      i < table.length →
      c.foldl (fun table element => push_back_at table i element) table =
        table.set i (table.getD i [] ++ c) := by
    intro c
    induction c with
    | nil =>
      intro table i hi
      simp only [List.foldl_nil, List.append_nil]
      apply List.ext_getElem (by simp)
      intro m h1 h2
      rw [List.getElem_set]
      split
      · next h => subst h; simp [List.getD_eq_getElem?_getD, List.getElem?_eq_getElem hi]
      · rfl
    | cons a c ih =>
      intro table i hi
      rw [List.foldl_cons, ih _ i (by rw [push_back_at_length]; exact hi),
        push_back_at_getD _ _ _ _ hi, if_pos rfl]
      unfold push_back_at
      simp
  have key : ∀ m, m ≤ n →
      (List.range m).foldl
        (fun table i => (src.getD i []).foldl
          (fun table element => push_back_at table i element) table)
        (List.replicate n []) = src.take m ++ List.replicate (n - m) [] := by
    intro m
    induction m with
    | zero => intro _; simp
    | succ m ih =>
      intro hm
      rw [List.range_succ, List.foldl_append, ih (by omega)]
      simp only [List.foldl_cons, List.foldl_nil]
      have hlt : m < (src.take m ++ List.replicate (n - m) ([] : List (HashEntry K V))).length := by
        simp; omega
      rw [inner _ _ m hlt]
      have htl : (List.take m src).length = m := by simp; omega
      have hg : (src.take m ++ List.replicate (n - m) ([] : List (HashEntry K V))).getD m [] = [] := by
        rw [List.getD_eq_getElem?_getD, List.getElem?_append_right (by omega), htl]
        simp only [Nat.sub_self, List.getElem?_replicate]
        split <;> rfl
      rw [hg, List.nil_append, List.set_append_right _ _ (by omega), htl, Nat.sub_self]
      have hr : List.replicate (n - m) ([] : List (HashEntry K V)) =
          [] :: List.replicate (n - (m + 1)) [] := by
        rw [show n - m = (n - (m + 1)) + 1 by omega, List.replicate_succ]
      rw [hr, List.set_cons_zero]
      have hsrc : src.getD m [] = src[m] := by
        simp [List.getD_eq_getElem?_getD, List.getElem?_eq_getElem (show m < src.length by omega)]
      rw [hsrc, List.take_succ, List.getElem?_eq_getElem (show m < src.length by omega),
        List.append_assoc]
      rfl
  rw [key n (le_refl n), Nat.sub_self, List.take_of_length_le (by omega)]
  simp

/-- A copy of a table is that table. -/
theorem copy_eq (t : HashTbl K V) (hlen : t.m_table.length = t.m_size) : t.copy = t := by
  unfold HashTbl.copy
  rw [copy_loop t.m_size t.m_table hlen]

end InvariantAny

section InvariantAny

variable {K V : Type} {hashFunc : K → Nat} {equalFunc eqI : K → K → Bool}

/-- The capacity after `insert` is the old one or the one `rehash` chooses. -/
theorem insert_m_size_cases (t : HashTbl K V) (key : K) (data : V) :
    (HashTbl.insert hashFunc equalFunc t key data).2.m_size = t.m_size ∨
    (HashTbl.insert hashFunc equalFunc t key data).2.m_size = find_next_prime (t.m_size * 2) := by
  obtain ⟨h1, h2, _, _⟩ := @insert_m_size K V hashFunc equalFunc t key data
  cases hc : chain_find equalFunc key (t.m_table.getD (hashFunc key % t.m_size) []) with
  | some v => exact Or.inl (h1 ⟨v, hc⟩)
  | none =>
    rw [h2 hc]
    split
    · exact Or.inr rfl
    · exact Or.inl rfl

theorem erase_m_size (t : HashTbl K V) (key : K) :
    (HashTbl.erase hashFunc equalFunc t key).2.m_size = t.m_size := by
  cases hc : chain_erase equalFunc key (t.m_table.getD (hashFunc key % t.m_size) []) with
  | none => rw [erase_of_none t key hc]
  | some c1 => rw [erase_of_some t key c1 hc]

theorem at_assign_m_size (t t1 : HashTbl K V) (key : K) (data : V)
    (ha : HashTbl.at_assign hashFunc equalFunc t key data = .ok t1) : t1.m_size = t.m_size := by
  cases hc : chain_assign equalFunc key data (t.m_table.getD (hashFunc key % t.m_size) []) with
  | none => rw [at_assign_of_none t key data hc] at ha; cases ha
  | some c1 =>
    rw [at_assign_of_some t key data c1 hc] at ha
    cases ha
    rfl

theorem subscript_snd [Inhabited V] (t : HashTbl K V) (key : K) :
    (HashTbl.subscript hashFunc equalFunc t key).2 = t ∨
    (HashTbl.subscript hashFunc equalFunc t key).2 =
      (HashTbl.insert hashFunc equalFunc t key default).2 := by
  unfold HashTbl.subscript
  split
  · exact Or.inl rfl
  · exact Or.inr rfl

/-- The capacity of a table reachable from `HashTbl(sz)` is a prime number. -/
theorem Reachable.size_prime [Inhabited V] {t : HashTbl K V}
    (h : Reachable hashFunc equalFunc t) : Nat.Prime t.m_size := by
  induction h with
  | construct sz => exact find_next_prime_prime sz
  | insert t key data _ ih =>
    rcases @insert_m_size_cases K V hashFunc equalFunc t key data with e | e
    · rw [e]; exact ih
    · rw [e]; exact find_next_prime_prime _
  | erase t key _ ih => rw [erase_m_size]; exact ih
  | clear t _ ih => exact ih
  | subscript t key _ ih =>
    rcases @subscript_snd K V hashFunc equalFunc _ t key with e | e
    · rw [e]; exact ih
    · rw [e]
      rcases @insert_m_size_cases K V hashFunc equalFunc t key default with e1 | e1
      · rw [e1]; exact ih
      · rw [e1]; exact find_next_prime_prime _
  | at_assign t t1 key data _ ha ih => rw [at_assign_m_size t t1 key data ha]; exact ih
  | set_max_load_factor t mlf _ ih => exact ih

/-- A table reachable from `HashTbl(sz)` is reachable from any constructor. -/
theorem Reachable.any [Inhabited V] {t : HashTbl K V}
    (h : Reachable hashFunc equalFunc t) : ReachableAny hashFunc equalFunc t := by
  induction h with
  | construct sz => exact ReachableAny.construct sz
  | insert t key data hr ih => exact ReachableAny.insert t key data ih hr.size_prime.pos
  | erase t key hr ih => exact ReachableAny.erase t key ih hr.size_prime.pos
  | clear t _ ih => exact ReachableAny.clear t ih
  | subscript t key hr ih => exact ReachableAny.subscript t key ih hr.size_prime.pos
  | at_assign t t1 key data hr ha ih =>
    exact ReachableAny.at_assign t t1 key data ih hr.size_prime.pos ha
  | set_max_load_factor t mlf _ ih => exact ReachableAny.set_max_load_factor t mlf ih

/-- A table without chains stays so under `clear`, and `rehash` gives it two empty
chains. -/
theorem void_clear {t : HashTbl K V} (h : t.is_void) : t.clear.is_void := by
  obtain ⟨h1, h2, h3⟩ := h
  refine ⟨h1, ?_, rfl⟩
  unfold HashTbl.clear
  simp [h1, h2]

theorem void_copy {t : HashTbl K V} (h : t.is_void) : t.copy.is_void := by
  obtain ⟨h1, h2, h3⟩ := h
  refine ⟨h1, ?_, h3⟩
  unfold HashTbl.copy
  simp [h1]

theorem inv_rehash_void {t : HashTbl K V} (h : t.is_void) :
    Inv hashFunc eqI (HashTbl.rehash hashFunc t) := by
  obtain ⟨h1, h2, h3⟩ := h
  obtain ⟨r1, r2, r3⟩ := rehash_table hashFunc t (by rw [h1, h2]; rfl)
  have he : t.entries = [] := by simp [HashTbl.entries, h2]
  have hsize : (HashTbl.rehash hashFunc t).m_size = find_next_prime (t.m_size * 2) := rfl
  have hcount : (HashTbl.rehash hashFunc t).m_count = t.m_count := rfl
  rw [he] at r2 r3
  refine ⟨by rw [hsize]; exact find_next_prime_pos _, by rw [hsize]; exact r1, ?_, ?_, ?_⟩
  · intro i e hmem
    rw [r2 i] at hmem
    simp at hmem
  · intro i
    rw [r2 i]
    exact List.Pairwise.nil
  · rw [hcount, h3, r3.length_eq]; rfl

/-- The loop of the constructor from a list keeps the invariant, whether or not the
table grows on the way. -/
theorem ilist_loop_inv (himp : ∀ a b, eqI a b = true → equalFunc a b = true)
    (hhash : ∀ a b, eqI a b = true → hashFunc a = hashFunc b) :
    ∀ (rest : List (HashEntry K V)) (i : Nat) (t t1 : HashTbl K V),
      (t.is_void ∨ Inv hashFunc eqI t) →
      HashTbl.ilist_loop hashFunc equalFunc rest i t = some t1 →
      (t1.is_void ∨ Inv hashFunc eqI t1) := by
  intro rest
  induction rest with
  | nil =>
    intro i t t1 h hl
    simp only [HashTbl.ilist_loop] at hl
    split at hl
    · cases hl
    · cases hl; exact h
  | cons e rest ih =>
    intro i t t1 h hl
    by_cases hi : i < t.m_size
    · rw [ilist_loop_cons e rest i t hi] at hl
      have hI : Inv hashFunc eqI t := by
        rcases h with hv | hI
        · exact absurd hv.1 (by omega)
        · exact hI
      exact ih (i + 1) _ t1 (Or.inr (inv_insert_finer hI himp hhash _ _)) hl
    · simp only [HashTbl.ilist_loop, if_neg hi] at hl
      cases hl; exact h

/-- The array a constructor from a list starts from. -/
theorem void_or_inv_replicate (n : Nat) (mlf : FloatVal) :
    ({ m_size := n, m_count := 0, m_max_load_factor := mlf,
       m_table := List.replicate n [] } : HashTbl K V).is_void ∨
    Inv hashFunc eqI
      ({ m_size := n, m_count := 0, m_max_load_factor := mlf,
         m_table := List.replicate n [] } : HashTbl K V) := by
  rcases Nat.eq_zero_or_pos n with h | h
  · subst h
    exact Or.inl ⟨rfl, rfl, rfl⟩
  · exact Or.inr (inv_replicate n h mlf)

/-- Every table reachable from any constructor has no chain at all or meets the
invariant, stated with any comparison finer than the one the table is run with. -/
theorem ReachableAny.void_or_inv [Inhabited V] {t : HashTbl K V}
    (himp : ∀ a b, eqI a b = true → equalFunc a b = true)
    (hhash : ∀ a b, eqI a b = true → hashFunc a = hashFunc b)
    (h : ReachableAny hashFunc equalFunc t) : t.is_void ∨ Inv hashFunc eqI t := by
  induction h with
  | construct sz => exact Or.inr (inv_construct sz)
  | construct_list ilist t hc =>
    exact ilist_loop_inv himp hhash ilist 0 _ t (void_or_inv_replicate _ _) hc
  | copy t _ ih =>
    rcases ih with hv | hI
    · exact Or.inl (void_copy hv)
    · rw [copy_eq t hI.length_eq]; exact Or.inr hI
  | assign_list t0 t ilist hc =>
    exact ilist_loop_inv himp hhash ilist 0 _ t (void_or_inv_replicate _ _) hc
  | insert t key data _ hpos ih =>
    rcases ih with hv | hI
    · exact absurd hv.1 (by omega)
    · exact Or.inr (inv_insert_finer hI himp hhash key data)
  | erase t key _ hpos ih =>
    rcases ih with hv | hI
    · exact absurd hv.1 (by omega)
    · exact Or.inr (inv_erase_finer hI key)
  | clear t _ ih =>
    rcases ih with hv | hI
    · exact Or.inl (void_clear hv)
    · exact Or.inr (inv_clear hI)
  | subscript t key _ hpos ih =>
    rcases ih with hv | hI
    · exact absurd hv.1 (by omega)
    · exact Or.inr (inv_subscript_finer hI himp hhash key)
  | at_assign t t1 key data _ hpos ha ih =>
    rcases ih with hv | hI
    · exact absurd hv.1 (by omega)
    · exact Or.inr (inv_at_assign_finer hI key data ha)
  | set_max_load_factor t mlf _ ih =>
    rcases ih with hv | hI
    · exact Or.inl hv
    · exact Or.inr (inv_set_max_load_factor hI mlf)
  | rehash t _ ih =>
    rcases ih with hv | hI
    · exact Or.inr (inv_rehash_void hv)
    · exact Or.inr (inv_rehash hI hhash)

/-- The shape of a reachable table, whatever the functors: as many chains as the
capacity, every entry in the chain of its hash, and a count that is the number of
entries. -/
theorem ReachableAny.shape [Inhabited V] {t : HashTbl K V}
    (h : ReachableAny hashFunc equalFunc t) :
    t.m_table.length = t.m_size ∧
    (∀ i, ∀ e ∈ t.m_table.getD i [], hashFunc e.m_key % t.m_size = i) ∧
    t.m_count = t.entries.length := by
  rcases @ReachableAny.void_or_inv K V hashFunc equalFunc (fun _ _ => false) _ t
    (fun _ _ hf => Bool.noConfusion hf) (fun _ _ hf => Bool.noConfusion hf) h with hv | hI
  · obtain ⟨h1, h2, h3⟩ := hv
    refine ⟨by rw [h1, h2]; rfl, ?_, by rw [h3, HashTbl.entries, h2]; rfl⟩
    intro i e he
    rw [h2] at he
    simp at he
  · exact ⟨hI.length_eq, hI.placed, hI.count_eq⟩

/-- With hashes that agree on equal keys, the entries of a reachable table have
pairwise distinct keys. -/
theorem ReachableAny.pairwise_distinct [Inhabited V] {t : HashTbl K V}
    (hhash : ∀ a b, equalFunc a b = true → hashFunc a = hashFunc b)
    (h : ReachableAny hashFunc equalFunc t) :
    t.entries.Pairwise (fun a b => equalFunc a.m_key b.m_key = false) := by
  rcases @ReachableAny.void_or_inv K V hashFunc equalFunc equalFunc _ t
    (fun _ _ hf => hf) hhash h with hv | hI
  · rw [HashTbl.entries, hv.2.1]
    exact List.Pairwise.nil
  · exact hI.entries_distinct hhash

end InvariantAny

section Examples

theorem ex_table_list_reachable : ReachableAny ex_hash_nat ex_equal_nat ex_table_list :=
  ReachableAny.construct_list ex_ilist ex_table_list (by decide)

end Examples

section Claims

variable {K V : Type} {hashFunc : K → Nat} {equalFunc : K → K → Bool}

/-- A list of keys no two of which compare equal is its own list of first keys. -/
theorem first_keys_of_pairwise (keys : List K)
    (h : keys.Pairwise (fun a b => equalFunc a b = false)) :
    first_keys equalFunc keys = keys := by
  have gen : ∀ (l seen : List K), (seen ++ l).Pairwise (fun a b => equalFunc a b = false) →
      l.foldl (fun seen k => if seen.any (fun s => equalFunc s k) then seen else seen ++ [k])
        seen = seen ++ l := by
    intro l
    induction l with
    | nil => intro seen _; simp
    | cons k l ih =>
      intro seen hp
      have hk : seen.any (fun s => equalFunc s k) = false := by
        rw [List.any_eq_false]
        intro s hs
        have := (List.pairwise_append.1 hp).2.2 s hs k (List.mem_cons_self k l)
        simp [this]
      rw [List.foldl_cons, hk]
      simp only [Bool.false_eq_true, if_false]
      rw [ih (seen ++ [k]) (by simpa using hp)]
      simp
  have := gen keys [] (by simpa using h)
  simpa [first_keys] using this

/-- C15. In every table reachable from any constructor by `insert`, `erase`,
`operator[]`, `clear` and `rehash` (and the other public members), the stored count,
which `size()` returns, is the number of entries over all chains; with lawful functors
no two of these entries have equal keys, so it is the number of distinct keys present. -/
theorem size_is_number_of_entries [Inhabited V] (t : HashTbl K V)
    (hR : ReachableAny hashFunc equalFunc t) :
    t.size = t.entries.length ∧
    t.size = (t.m_table.map List.length).sum ∧
    (LawfulFunctors hashFunc equalFunc →
      t.size = distinct_keys equalFunc (t.entries.map (fun e => e.m_key)) ∧
      t.entries.Pairwise (fun a b => equalFunc a.m_key b.m_key = false)) := by
  obtain ⟨_, _, hc⟩ := hR.shape
  refine ⟨hc, ?_, ?_⟩
  · rw [HashTbl.size, hc, HashTbl.entries, List.length_flatten]
  · intro hL
    have hd := hR.pairwise_distinct hL.hash_eq
    refine ⟨?_, hd⟩
    rw [distinct_keys, first_keys_of_pairwise _ (List.pairwise_map.2 hd), List.length_map]
    exact hc

/-- Witness of C15 on the table built from a list of four pairs with three distinct
keys. -/
theorem size_is_number_of_entries_witness :
    ex_table_list.size = ex_table_list.entries.length ∧
    ex_table_list.size = (ex_table_list.m_table.map List.length).sum ∧
    (ex_table_list.size =
        distinct_keys ex_equal_nat (ex_table_list.entries.map (fun e => e.m_key)) ∧
      ex_table_list.entries.Pairwise
        (fun a b => ex_equal_nat a.m_key b.m_key = false)) ∧
    ex_table_list.size = 3 :=
  ⟨(size_is_number_of_entries ex_table_list ex_table_list_reachable).1,
    (size_is_number_of_entries ex_table_list ex_table_list_reachable).2.1,
    (size_is_number_of_entries ex_table_list ex_table_list_reachable).2.2 ex_lawful_nat,
    by decide⟩

/-- The entries of a reachable table have unique keys. -/
theorem ReachableAny.unique_keys [Inhabited V] {t : HashTbl K V}
    (hL : LawfulFunctors hashFunc equalFunc) (h : ReachableAny hashFunc equalFunc t) :
    t.keys_unique equalFunc := by
  refine (h.pairwise_distinct hL.hash_eq).imp ?_
  intro a b hab
  refine ⟨hab, ?_⟩
  by_contra hc
  have := hL.symm _ _ (by simpa using hc)
  rw [hab] at this
  exact absurd this (by decide)

/-- C16. In every reachable table, with lawful functors, no two entries, of the same
chain or of two chains, have keys that compare equal; this is again so after `insert`,
`operator[]`, `erase`, `clear` and `rehash`. -/
theorem keys_unique_invariant [Inhabited V] (hL : LawfulFunctors hashFunc equalFunc)
    (t : HashTbl K V) (hR : ReachableAny hashFunc equalFunc t) :
    t.keys_unique equalFunc ∧
    (∀ i j, ∀ a ∈ t.m_table.getD i [], ∀ b ∈ t.m_table.getD j [],
      equalFunc a.m_key b.m_key = true → i = j) ∧
    (∀ i, (t.m_table.getD i []).Pairwise
      (fun a b => equalFunc a.m_key b.m_key = false ∧ equalFunc b.m_key a.m_key = false)) ∧
    (0 < t.m_size → ∀ (key : K) (data : V),
      (HashTbl.insert hashFunc equalFunc t key data).2.keys_unique equalFunc ∧
      (HashTbl.subscript hashFunc equalFunc t key).2.keys_unique equalFunc ∧
      (HashTbl.erase hashFunc equalFunc t key).2.keys_unique equalFunc) ∧
    t.clear.keys_unique equalFunc ∧
    (HashTbl.rehash hashFunc t).keys_unique equalFunc := by
  refine ⟨hR.unique_keys hL, ?_, ?_, ?_, (ReachableAny.clear t hR).unique_keys hL,
    (ReachableAny.rehash t hR).unique_keys hL⟩
  · intro i j a ha b hb hab
    obtain ⟨_, hp, _⟩ := hR.shape
    have h1 := hp i a ha
    have h2 := hp j b hb
    rw [hL.hash_eq _ _ hab] at h1
    omega
  · intro i
    rcases @ReachableAny.void_or_inv K V hashFunc equalFunc equalFunc _ t
      (fun _ _ hf => hf) hL.hash_eq hR with hv | hI
    · rw [hv.2.1]
      exact List.Pairwise.nil
    · refine (hI.distinct i).imp ?_
      intro a b hab
      refine ⟨hab, ?_⟩
      by_contra hc
      have := hL.symm _ _ (by simpa using hc)
      rw [hab] at this
      exact absurd this (by decide)
  · intro hpos key data
    exact ⟨(ReachableAny.insert t key data hR hpos).unique_keys hL,
      (ReachableAny.subscript t key hR hpos).unique_keys hL,
      (ReachableAny.erase t key hR hpos).unique_keys hL⟩

/-- Witness of C16 on the table built from a list in which the key `1` occurs twice. -/
theorem keys_unique_invariant_witness :
    ex_table_list.keys_unique ex_equal_nat ∧
    (HashTbl.insert ex_hash_nat ex_equal_nat ex_table_list 5 51).2.keys_unique ex_equal_nat ∧
    (HashTbl.insert ex_hash_nat ex_equal_nat ex_table_list 5 51).2.entries =
      [⟨1, 11⟩, ⟨5, 51⟩, ⟨9, 90⟩] :=
  ⟨(keys_unique_invariant ex_lawful_nat ex_table_list ex_table_list_reachable).1,
    ((keys_unique_invariant ex_lawful_nat ex_table_list ex_table_list_reachable).2.2.2.1
      (by decide) 5 51).1,
    by decide⟩

/-- C17, evaluated. The capacity of every table reachable from `HashTbl(sz)` is a prime
number, at least `2`. The constructor from a list takes the length of the list instead:
four pairs give four chains, and the empty list gives a table without any chain, on
which no bucket index is defined. -/
theorem capacity_prime_except_from_list [Inhabited V] :
    (∀ t : HashTbl K V, Reachable hashFunc equalFunc t →
      Nat.Prime t.m_size ∧ 2 ≤ t.m_size) ∧
    HashTbl.construct_list ex_hash_nat ex_equal_nat ex_ilist = some ex_table_list ∧
    ex_table_list.m_size = 4 ∧ ¬ Nat.Prime 4 ∧
    (∃ t, HashTbl.construct_list ex_hash_nat ex_equal_nat ([] : List (HashEntry Nat Nat))
        = some t ∧ t.m_size = 0 ∧ t.m_table = []) := by
  refine ⟨fun t hR => ⟨hR.size_prime, hR.size_prime.two_le⟩, by decide, by decide,
    by norm_num, ⟨_, rfl, rfl, rfl⟩⟩

/-- C18. In every reachable table, whatever the functors, every entry of the chain at
index `i` has `hash(key) % capacity = i` for the current capacity. After `rehash` this
holds for the new capacity, and every entry of the old table is in the chain of the new
table that its hash selects. -/
theorem entries_placed [Inhabited V] (t : HashTbl K V)
    (hR : ReachableAny hashFunc equalFunc t) :
    (∀ i, ∀ e ∈ t.m_table.getD i [], hashFunc e.m_key % t.m_size = i) ∧
    (∀ i, ∀ e ∈ (HashTbl.rehash hashFunc t).m_table.getD i [],
      hashFunc e.m_key % (HashTbl.rehash hashFunc t).m_size = i) ∧
    (∀ e ∈ t.entries, e ∈ (HashTbl.rehash hashFunc t).m_table.getD
      (hashFunc e.m_key % (HashTbl.rehash hashFunc t).m_size) []) := by
  obtain ⟨hlen, hp, _⟩ := hR.shape
  obtain ⟨_, r2, _⟩ := rehash_table hashFunc t hlen
  have hs : (HashTbl.rehash hashFunc t).m_size = find_next_prime (t.m_size * 2) := rfl
  refine ⟨hp, (ReachableAny.rehash t hR).shape.2.1, ?_⟩
  intro e he
  rw [hs, r2]
  exact List.mem_filter.2 ⟨he, by simp⟩

/-- Witness of C18 on the table built from a list: capacity four, all entries in
chain `1`. -/
theorem entries_placed_witness :
    ((∀ i, ∀ e ∈ ex_table_list.m_table.getD i [],
        ex_hash_nat e.m_key % ex_table_list.m_size = i) ∧
      (∀ i, ∀ e ∈ (HashTbl.rehash ex_hash_nat ex_table_list).m_table.getD i [],
        ex_hash_nat e.m_key % (HashTbl.rehash ex_hash_nat ex_table_list).m_size = i) ∧
      (∀ e ∈ ex_table_list.entries, e ∈ (HashTbl.rehash ex_hash_nat ex_table_list).m_table.getD
        (ex_hash_nat e.m_key % (HashTbl.rehash ex_hash_nat ex_table_list).m_size) [])) ∧
    (HashTbl.rehash ex_hash_nat ex_table_list).m_table =
      [[], [⟨1, 11⟩], [], [], [], [⟨5, 50⟩], [], [], [], [⟨9, 90⟩], []] :=
  ⟨entries_placed ex_table_list ex_table_list_reachable, by decide⟩

/-- C19. Over the natural numbers `is_prime(n)` is `true` exactly when `n` is prime: it
is `false` for `n ≤ 1`, `true` for `2` and `3`, and for `n ≥ 4` it is `true` exactly when
neither `2`, nor `3`, nor any `6j + 5` or `6j + 7` with `(6j + 5)² ≤ n` divides `n`. -/
theorem is_prime_correct (n : Nat) :
    (is_prime n = true ↔ Nat.Prime n) ∧
    (n ≤ 1 → is_prime n = false) ∧
    (n = 2 ∨ n = 3 → is_prime n = true) ∧
    (4 ≤ n → (is_prime n = true ↔
      n % 2 ≠ 0 ∧ n % 3 ≠ 0 ∧
      ∀ j, (6 * j + 5) * (6 * j + 5) ≤ n → n % (6 * j + 5) ≠ 0 ∧ n % (6 * j + 7) ≠ 0)) := by
  refine ⟨is_prime_iff n, ?_, ?_, ?_⟩
  · intro h
    simp [is_prime, h]
  · rintro (rfl | rfl) <;> decide
  · intro h
    have hspec := is_prime_loop_spec n n 0 (by omega)
    simp only [Nat.mul_zero, Nat.zero_add] at hspec
    unfold is_prime
    rw [if_neg (by omega), if_neg (by omega)]
    by_cases h23 : n % 2 = 0 ∨ n % 3 = 0
    · rw [if_pos h23]
      constructor
      · intro hf; exact absurd hf (by decide)
      · rintro ⟨h2, h3, _⟩
        rcases h23 with h' | h'
        · exact absurd h' h2
        · exact absurd h' h3
    · rw [if_neg h23, hspec]
      constructor
      · intro hl
        exact ⟨fun h2 => h23 (Or.inl h2), fun h3 => h23 (Or.inr h3),
          fun j hj => hl j (Nat.zero_le j) hj⟩
      · rintro ⟨_, _, hl⟩ m _ hm
        exact hl m hm

/-- Witness of C19 at `1`, `3` and the composite `49 = 7 * 7`, which only the test of
`i + 2` at `i = 5` catches. -/
theorem is_prime_correct_witness :
    is_prime 1 = false ∧ is_prime 3 = true ∧
    (is_prime 49 = true ↔
      49 % 2 ≠ 0 ∧ 49 % 3 ≠ 0 ∧
      ∀ j, (6 * j + 5) * (6 * j + 5) ≤ 49 → 49 % (6 * j + 5) ≠ 0 ∧ 49 % (6 * j + 7) ≠ 0) ∧
    is_prime 49 = false :=
  ⟨(is_prime_correct 1).2.1 (by decide), (is_prime_correct 3).2.2.1 (Or.inr rfl),
    (is_prime_correct 49).2.2.2 (by decide), by decide⟩

/-- C20. The search loop of `find_next_prime` ends for every start `n`: a prime `p > n`
exists and the loop leaves at it as soon as `p - n` iterations are available. Every call
`find_next_prime(n)` therefore returns: for `n ≤ 1` before the loop, for `n > 1` from
the loop within `n` iterations. So does the call in `rehash`, whose result is the new
capacity, on every table. -/
theorem find_next_prime_terminates :
    (∀ n, ∃ p, Nat.Prime p ∧ n < p ∧
      ∀ fuel, p ≤ n + fuel → find_next_prime_loop fuel n = some p) ∧
    (∀ n, (n ≤ 1 ∧ find_next_prime n = 2) ∨
      (1 < n ∧ find_next_prime_loop n n = some (find_next_prime n))) ∧
    (∀ (K V : Type) (hashFunc : K → Nat) (t : HashTbl K V),
      (t.m_size * 2 ≤ 1 ∧ (HashTbl.rehash hashFunc t).m_size = 2) ∨
      (1 < t.m_size * 2 ∧ find_next_prime_loop (t.m_size * 2) (t.m_size * 2) =
        some (HashTbl.rehash hashFunc t).m_size)) := by
  have hcall : ∀ n, (n ≤ 1 ∧ find_next_prime n = 2) ∨
      (1 < n ∧ find_next_prime_loop n n = some (find_next_prime n)) := by
    intro n
    by_cases h : n ≤ 1
    · exact Or.inl ⟨h, (find_next_prime_spec n).1 h⟩
    · refine Or.inr ⟨by omega, ?_⟩
      obtain ⟨p, hp, _⟩ := find_next_prime_loop_complete n (by omega)
      have e : find_next_prime n = p := by
        unfold find_next_prime
        rw [if_neg h, hp]; rfl
      rw [e, hp]
  refine ⟨?_, hcall, fun K V hashFunc t => hcall (t.m_size * 2)⟩
  intro n
  rcases Nat.eq_zero_or_pos n with h0 | hpos
  · subst h0
    refine ⟨2, Nat.prime_two, by decide, fun fuel hf => ?_⟩
    exact find_next_prime_loop_eq 2 Nat.prime_two fuel 0 (by decide) hf
      (fun q h1 h2 hq => by
        have : q = 1 := by omega
        subst this
        exact Nat.not_prime_one hq)
  · obtain ⟨p, hp, h1, _, h3⟩ := exists_first_prime_after n hpos
    exact ⟨p, hp, h1, fun fuel hf => find_next_prime_loop_eq p hp fuel n h1 hf h3⟩

end Claims

/-! ## The single pass, the frame of `insert` and `erase`, and the load bound -/

section Examples

theorem ex_table_three_default : ReachableDefault ex_hash_nat ex_equal_nat ex_table_three :=
  ReachableDefault.insert _ 4 30
    (ReachableDefault.insert _ 2 20
      (ReachableDefault.insert _ 0 10 (ReachableDefault.construct 1)))

end Examples

section LastClaims

variable {K V : Type} {hashFunc : K → Nat} {equalFunc : K → K → Bool}

/-- Two arrays of chains with the same number of chains and the same chain at every
index are the same array. -/
theorem ext_getD (l1 l2 : List (List (HashEntry K V))) (hlen : l1.length = l2.length)
    (h : ∀ j, l1.getD j [] = l2.getD j []) : l1 = l2 := by
  apply List.ext_getElem hlen
  intro n h1 h2
  have := h n
  simpa [List.getD_eq_getElem?_getD, List.getElem?_eq_getElem h1,
    List.getElem?_eq_getElem h2] using this

/-- C21. On every table (an array of `m_size` chains, one or more or none), the two
passes of `rehash`, into the auxiliary array and from it into the final one, give the
table that the single pass gives: the same chains with the same entries in the same
order, chain `j` holding the entries of the old table whose hash is `j` modulo the new
capacity, in the order chain by chain of the old table. -/
theorem rehash_is_single_pass (hashFunc : K → Nat) (t : HashTbl K V)
    (hlen : t.m_table.length = t.m_size) :
    HashTbl.rehash hashFunc t = HashTbl.rehash_single_pass hashFunc t ∧
    (∀ j, (HashTbl.rehash hashFunc t).m_table.getD j [] =
      t.entries.filter
        (fun e => decide (hashFunc e.m_key % find_next_prime (t.m_size * 2) = j))) := by
  obtain ⟨r1, r2, _⟩ := rehash_table hashFunc t hlen
  refine ⟨?_, r2⟩
  have hp := find_next_prime_pos (t.m_size * 2)
  obtain ⟨a1, a2, _⟩ := redistribute_spec hashFunc (find_next_prime (t.m_size * 2)) hp
    t.m_table (List.replicate (find_next_prime (t.m_size * 2)) []) (by simp)
  rw [hlen] at a1 a2
  simp only [getD_replicate_nil, List.nil_append] at a2
  have htab : (HashTbl.rehash hashFunc t).m_table =
      (HashTbl.rehash_single_pass hashFunc t).m_table := by
    apply ext_getD
    · rw [r1]
      exact a1.symm
    · intro j
      rw [r2 j]
      exact (a2 j).symm
  have hrec : ∀ (a b : HashTbl K V), a.m_size = b.m_size → a.m_count = b.m_count →
      a.m_max_load_factor = b.m_max_load_factor → a.m_table = b.m_table → a = b := by
    intro a b h1 h2 h3 h4
    cases a; cases b
    simp only at h1 h2 h3 h4
    subst h1 h2 h3 h4
    rfl
  exact hrec _ _ rfl rfl rfl htab

/-- Witness of C21 on the table of two chains holding `0`, `2`, `4` in chain `0`. -/
theorem rehash_is_single_pass_witness :
    (HashTbl.rehash ex_hash_nat ex_table_three =
        HashTbl.rehash_single_pass ex_hash_nat ex_table_three ∧
      (∀ j, (HashTbl.rehash ex_hash_nat ex_table_three).m_table.getD j [] =
        ex_table_three.entries.filter
          (fun e => decide (ex_hash_nat e.m_key %
            find_next_prime (ex_table_three.m_size * 2) = j)))) ∧
    (HashTbl.rehash_single_pass ex_hash_nat ex_table_three).m_table =
      [[⟨0, 10⟩], [], [⟨2, 20⟩], [], [⟨4, 30⟩]] :=
  ⟨rehash_is_single_pass ex_hash_nat ex_table_three (by decide), by decide⟩

/-- A reachable table with at least one chain meets the invariant. -/
theorem ReachableAny.inv_of_pos [Inhabited V] {t : HashTbl K V}
    (hhash : ∀ a b, equalFunc a b = true → hashFunc a = hashFunc b)
    (h : ReachableAny hashFunc equalFunc t) (hpos : 0 < t.m_size) :
    Inv hashFunc equalFunc t := by
  rcases @ReachableAny.void_or_inv K V hashFunc equalFunc equalFunc _ t
    (fun _ _ hf => hf) hhash h with hv | hI
  · exact absurd hv.1 (by omega)
  · exact hI

/-- C22. In every reachable table with at least one chain, with lawful functors, for
keys `key` and `key1` that do not compare equal, `retrieve(key1)` answers after
`insert(key, data)` what it answered before, whether the insert overwrote, appended, or
appended and rehashed. -/
theorem insert_frame [Inhabited V] (hL : LawfulFunctors hashFunc equalFunc)
    (t : HashTbl K V) (hR : ReachableAny hashFunc equalFunc t) (hpos : 0 < t.m_size)
    (key key1 : K) (data data_item : V) (hne : equalFunc key key1 = false) :
    HashTbl.retrieve hashFunc equalFunc (HashTbl.insert hashFunc equalFunc t key data).2
      key1 data_item = HashTbl.retrieve hashFunc equalFunc t key1 data_item :=
  retrieve_insert_other (hR.inv_of_pos hL.hash_eq hpos) hL key key1 data data_item hne

/-- Witness of C22: the insert of `6` makes the table grow from two chains to five, and
`retrieve(4)`, `retrieve(8)` answer as before. -/
theorem insert_frame_witness :
    (HashTbl.retrieve ex_hash_nat ex_equal_nat
        (HashTbl.insert ex_hash_nat ex_equal_nat ex_table_three 6 60).2 4 0 =
      HashTbl.retrieve ex_hash_nat ex_equal_nat ex_table_three 4 0 ∧
      HashTbl.retrieve ex_hash_nat ex_equal_nat
        (HashTbl.insert ex_hash_nat ex_equal_nat ex_table_three 6 60).2 8 0 =
      HashTbl.retrieve ex_hash_nat ex_equal_nat ex_table_three 8 0) ∧
    HashTbl.retrieve ex_hash_nat ex_equal_nat ex_table_three 4 0 = (true, 30) ∧
    HashTbl.retrieve ex_hash_nat ex_equal_nat ex_table_three 8 0 = (false, 0) ∧
    (HashTbl.insert ex_hash_nat ex_equal_nat ex_table_three 6 60).2.m_size = 5 :=
  ⟨⟨insert_frame ex_lawful_nat ex_table_three ex_table_three_reachable.any (by decide)
      6 4 60 0 (by decide),
    insert_frame ex_lawful_nat ex_table_three ex_table_three_reachable.any (by decide)
      6 8 60 0 (by decide)⟩, by decide, by decide, by decide⟩

/-- What the scan of `erase` removes: the first entry whose key compares equal to the
key, the entries before and after it staying in their order. -/
theorem chain_erase_split (key : K) (c c1 : List (HashEntry K V))
    (h : chain_erase equalFunc key c = some c1) :
    ∃ pre e post, c = pre ++ e :: post ∧ c1 = pre ++ post ∧
      equalFunc e.m_key key = true ∧ ∀ a ∈ pre, equalFunc a.m_key key = false := by
  induction c generalizing c1 with
  | nil => simp [chain_erase] at h
  | cons a c ih =>
    unfold chain_erase at h
    by_cases hk : equalFunc a.m_key key = true
    · rw [if_pos hk] at h
      cases h
      exact ⟨[], a, c, rfl, rfl, hk, by simp⟩
    · rw [if_neg hk] at h
      cases hr : chain_erase equalFunc key c with
      | none => rw [hr] at h; simp at h
      | some r =>
        rw [hr] at h
        simp only [Option.map_some', Option.some.injEq] at h
        subst h
        obtain ⟨pre, e, post, h1, h2, h3, h4⟩ := ih r hr
        refine ⟨a :: pre, e, post, by rw [h1]; rfl, by rw [h2]; rfl, h3, ?_⟩
        intro b hb
        rcases List.mem_cons.1 hb with rfl | hb
        · simpa using hk
        · exact h4 b hb

/-- C23. In every reachable table with at least one chain, with lawful functors:
`retrieve(key1)` answers after `erase(key)` what it answered before, for keys that do
not compare equal; every chain but the one of `key` is as it was; and the chain of `key`
is as it was, when `erase` returns `false`, or has lost the first of its entries whose
key compares equal to `key`, the others staying in their order, when it returns `true`. -/
theorem erase_frame [Inhabited V] (hL : LawfulFunctors hashFunc equalFunc)
    (t : HashTbl K V) (hR : ReachableAny hashFunc equalFunc t) (hpos : 0 < t.m_size)
    (key : K) :
    (∀ (key1 : K) (data_item : V), equalFunc key key1 = false →
      HashTbl.retrieve hashFunc equalFunc (HashTbl.erase hashFunc equalFunc t key).2
        key1 data_item = HashTbl.retrieve hashFunc equalFunc t key1 data_item) ∧
    (∀ i, i ≠ hashFunc key % t.m_size →
      (HashTbl.erase hashFunc equalFunc t key).2.m_table.getD i [] = t.m_table.getD i []) ∧
    (((HashTbl.erase hashFunc equalFunc t key).1 = false ∧
        (HashTbl.erase hashFunc equalFunc t key).2 = t) ∨
      ((HashTbl.erase hashFunc equalFunc t key).1 = true ∧
        ∃ pre e post,
          t.m_table.getD (hashFunc key % t.m_size) [] = pre ++ e :: post ∧
          (HashTbl.erase hashFunc equalFunc t key).2.m_table.getD
            (hashFunc key % t.m_size) [] = pre ++ post ∧
          equalFunc e.m_key key = true ∧
          (∀ a ∈ pre, equalFunc a.m_key key = false) ∧
          (HashTbl.erase hashFunc equalFunc t key).2.entries.length + 1 =
            t.entries.length)) := by
  have hI := hR.inv_of_pos hL.hash_eq hpos
  cases hc : chain_erase equalFunc key (t.m_table.getD (hashFunc key % t.m_size) []) with
  | none =>
    rw [erase_of_none t key hc]
    exact ⟨fun _ _ _ => rfl, fun _ _ => rfl, Or.inl ⟨rfl, rfl⟩⟩
  | some c1 =>
    rw [erase_of_some t key c1 hc]
    refine ⟨?_, ?_, Or.inr ⟨rfl, ?_⟩⟩
    · intro key1 o hne
      unfold HashTbl.retrieve
      simp only
      by_cases hb : hashFunc key % t.m_size = hashFunc key1 % t.m_size
      · rw [← hb, getD_set_self _ _ _ (hI.index_lt key),
          chain_find_erase_other equalFunc hL.symm hL.trans key key1 _ c1 hne hc]
      · rw [getD_set_other _ _ _ _ hb]
    · intro i hi
      simp only
      rw [getD_set_other _ _ _ _ (Ne.symm hi)]
    · obtain ⟨pre, e, post, h1, h2, h3, h4⟩ := chain_erase_split key _ c1 hc
      refine ⟨pre, e, post, h1, ?_, h3, h4, ?_⟩
      · simp only
        rw [getD_set_self _ _ _ (hI.index_lt key), h2]
      · simp only [HashTbl.entries]
        rw [flatten_set _ _ _ (hI.index_lt key), flatten_split t.m_table _ (hI.index_lt key),
          h1, h2]
        simp only [List.length_append, List.length_cons]
        omega

/-- Witness of C23: `erase(2)` takes the middle entry out of the chain `0, 2, 4`. -/
theorem erase_frame_witness :
    (∀ (key1 : Nat) (data_item : Nat), ex_equal_nat 2 key1 = false →
      HashTbl.retrieve ex_hash_nat ex_equal_nat
        (HashTbl.erase ex_hash_nat ex_equal_nat ex_table_three 2).2 key1 data_item =
      HashTbl.retrieve ex_hash_nat ex_equal_nat ex_table_three key1 data_item) ∧
    (HashTbl.erase ex_hash_nat ex_equal_nat ex_table_three 2).2.m_table =
      [[⟨0, 10⟩, ⟨4, 30⟩], []] :=
  ⟨(erase_frame ex_lawful_nat ex_table_three ex_table_three_reachable.any (by decide) 2).1,
    by decide⟩

/-- What the maximum load factor left at its default keeps true: the count is below
twice the capacity. -/
theorem ReachableDefault.bound [Inhabited V] {t : HashTbl K V}
    (h : ReachableDefault hashFunc equalFunc t) :
    t.m_max_load_factor = DEFAULT_MAX_LOAD_FACTOR ∧ 0 < t.m_size ∧
      t.m_count < 2 * t.m_size := by
  have step : ∀ (t : HashTbl K V) (key : K) (data : V),
      (t.m_max_load_factor = DEFAULT_MAX_LOAD_FACTOR ∧ 0 < t.m_size ∧
        t.m_count < 2 * t.m_size) →
      ((HashTbl.insert hashFunc equalFunc t key data).2.m_max_load_factor
          = DEFAULT_MAX_LOAD_FACTOR ∧
        0 < (HashTbl.insert hashFunc equalFunc t key data).2.m_size ∧
        (HashTbl.insert hashFunc equalFunc t key data).2.m_count <
          2 * (HashTbl.insert hashFunc equalFunc t key data).2.m_size) := by
    rintro t key data ⟨hm, hpos, hlt⟩
    cases hc : chain_assign equalFunc key data
        (t.m_table.getD (hashFunc key % t.m_size) []) with
    | some c1 =>
      rw [insert_of_some t key data c1 hc]
      exact ⟨hm, hpos, hlt⟩
    | none =>
      rw [insert_of_none t key data hc, hm]
      have hgt := ((find_next_prime_spec (t.m_size * 2)).2 (by omega)).2.1
      by_cases hg : DEFAULT_MAX_LOAD_FACTOR.lt_nat ((t.m_count + 1) / t.m_size) = true
      · rw [if_pos hg]
        refine ⟨rfl, ?_, ?_⟩
        · show 0 < find_next_prime (t.m_size * 2)
          omega
        · show t.m_count + 1 < 2 * find_next_prime (t.m_size * 2)
          omega
      · rw [if_neg hg]
        rw [growth_test_default _ _ hpos] at hg
        refine ⟨rfl, hpos, ?_⟩
        show t.m_count + 1 < 2 * t.m_size
        omega
  induction h with
  | construct sz => exact ⟨rfl, find_next_prime_pos sz, by
      show 0 < 2 * find_next_prime sz
      have := find_next_prime_pos sz
      omega⟩
  | insert t key data _ ih => exact step t key data ih
  | erase t key _ ih =>
    obtain ⟨hm, hpos, hlt⟩ := ih
    cases hc : chain_erase equalFunc key (t.m_table.getD (hashFunc key % t.m_size) []) with
    | none => rw [erase_of_none t key hc]; exact ⟨hm, hpos, hlt⟩
    | some c1 =>
      rw [erase_of_some t key c1 hc]
      refine ⟨hm, hpos, ?_⟩
      show t.m_count - 1 < 2 * t.m_size
      omega
  | clear t _ ih =>
    obtain ⟨hm, hpos, _⟩ := ih
    refine ⟨hm, hpos, ?_⟩
    show 0 < 2 * t.m_size
    omega
  | subscript t key _ ih =>
    rcases @subscript_snd K V hashFunc equalFunc _ t key with e | e
    · rw [e]; exact ih
    · rw [e]; exact step t key default ih
  | at_assign t t1 key data _ ha ih =>
    obtain ⟨hm, hpos, hlt⟩ := ih
    cases hc : chain_assign equalFunc key data
        (t.m_table.getD (hashFunc key % t.m_size) []) with
    | none => rw [at_assign_of_none t key data hc] at ha; cases ha
    | some c1 =>
      rw [at_assign_of_some t key data c1 hc] at ha
      cases ha
      exact ⟨hm, hpos, hlt⟩

/-- C24. In every table obtained from `HashTbl(sz)` by `insert`, `erase`, `operator[]`
and `clear` with the maximum load factor left at `1.0`, whatever the functors, the count
is less than twice the capacity. After every `insert` the growth test is false on the
table returned, so the one `rehash` an insert may make restores the bound: the new
capacity exceeds twice the old one, which the count, one more than before, does not. -/
theorem count_below_twice_capacity [Inhabited V] (t : HashTbl K V)
    (hR : ReachableDefault hashFunc equalFunc t) :
    t.max_load_factor = DEFAULT_MAX_LOAD_FACTOR ∧
    t.size < 2 * t.m_size ∧
    (∀ (key : K) (data : V),
      (HashTbl.insert hashFunc equalFunc t key data).2.size <
        2 * (HashTbl.insert hashFunc equalFunc t key data).2.m_size ∧
      (HashTbl.insert hashFunc equalFunc t key data).2.m_max_load_factor.lt_nat
        ((HashTbl.insert hashFunc equalFunc t key data).2.m_count /
          (HashTbl.insert hashFunc equalFunc t key data).2.m_size) = false ∧
      ((HashTbl.insert hashFunc equalFunc t key data).2.m_size = t.m_size ∨
        ((HashTbl.insert hashFunc equalFunc t key data).2.m_size =
            find_next_prime (t.m_size * 2) ∧
          (HashTbl.insert hashFunc equalFunc t key data).2.size ≤ 2 * t.m_size ∧
          2 * t.m_size < find_next_prime (t.m_size * 2)))) := by
  obtain ⟨hm, hpos, hlt⟩ := hR.bound
  refine ⟨hm, hlt, fun key data => ?_⟩
  obtain ⟨im, ipos, ilt⟩ := (ReachableDefault.insert t key data hR).bound
  refine ⟨ilt, ?_, ?_⟩
  · rw [im]
    cases hq : DEFAULT_MAX_LOAD_FACTOR.lt_nat
        ((HashTbl.insert hashFunc equalFunc t key data).2.m_count /
          (HashTbl.insert hashFunc equalFunc t key data).2.m_size) with
    | false => rfl
    | true =>
      rw [lt_nat_default, Nat.le_div_iff_mul_le ipos] at hq
      omega
  · rcases @insert_m_size_cases K V hashFunc equalFunc t key data with e | e
    · exact Or.inl e
    · refine Or.inr ⟨e, ?_, ?_⟩
      · have := (@insert_m_size K V hashFunc equalFunc t key data).2.2.2
        simp only [HashTbl.size]
        omega
      · have := ((find_next_prime_spec (t.m_size * 2)).2 (by omega)).2.1
        omega

/-- Witness of C24: three entries in two chains, and four entries in five chains after
the insert that rehashes. -/
theorem count_below_twice_capacity_witness :
    (ex_table_three.max_load_factor = DEFAULT_MAX_LOAD_FACTOR ∧
      ex_table_three.size < 2 * ex_table_three.m_size) ∧
    (HashTbl.insert ex_hash_nat ex_equal_nat ex_table_three 6 60).2.size <
      2 * (HashTbl.insert ex_hash_nat ex_equal_nat ex_table_three 6 60).2.m_size ∧
    ex_table_three.size = 3 ∧ ex_table_three.m_size = 2 ∧
    (HashTbl.insert ex_hash_nat ex_equal_nat ex_table_three 6 60).2.size = 4 ∧
    (HashTbl.insert ex_hash_nat ex_equal_nat ex_table_three 6 60).2.m_size = 5 :=
  ⟨⟨(count_below_twice_capacity ex_table_three ex_table_three_default).1,
      (count_below_twice_capacity ex_table_three ex_table_three_default).2.1⟩,
    ((count_below_twice_capacity ex_table_three ex_table_three_default).2.2 6 60).1,
    by decide, by decide, by decide, by decide⟩

end LastClaims

end ac
